import Mathlib

/-!
Verification of the cnab-go claim store (package `claim`): a shallow
embedding of the installation-history store (Installation, Claim, Result,
Output and the `Store` operations of `claimstore.go`), together with
theorems about status derivation, selective encryption, aggregate reads,
cascading deletes, error normalization and connection lifecycle.

Go strings are embedded as Lean `String`, Go byte slices and serialized
documents as the sum type `Data`, Go maps as pointwise functions
`String → Option String`, `time.Time` as `Nat`, and the abstract backing
store (`crud.ManagedStore`) as an explicit record list plus connection
counters (`CrudState`), with every claim-store operation written in
state-passing style following `claimstore.go` line by line.
-/

namespace Cnab

/-- Byte-wise lexicographic comparison of character lists. Go's
`sort.Strings` compares strings byte-wise; UTF-8 byte order coincides with
code-point order, so comparing `Char.toNat` is equivalent. -/
def charsLe : List Char → List Char → Bool
  | [], _ => true
  | _ :: _, [] => false
  | a :: as, b :: bs =>
    if a.toNat < b.toNat then true
    else if b.toNat < a.toNat then false
    else charsLe as bs

/-- Go string comparison `a <= b` (used by `sort.Strings`). -/
def strLe (a b : String) : Bool := charsLe a.data b.data

/-- The propositional order used for sorting lists of strings. -/
def StrLeP (a b : String) : Prop := strLe a b = true

instance : DecidableRel StrLeP := fun a b => by
  unfold StrLeP; infer_instance

theorem charsLe_total (a b : List Char) : charsLe a b = true ∨ charsLe b a = true := by
  induction a generalizing b with
  | nil => left; rfl
  | cons x xs ih =>
    cases b with
    | nil => right; rfl
    | cons y ys =>
      by_cases h1 : x.toNat < y.toNat
      · left; simp [charsLe, h1]
      · by_cases h2 : y.toNat < x.toNat
        · right; simp [charsLe, h1, h2]
        · rcases ih ys with h | h
          · left; simp [charsLe, h1, h2, h]
          · right; simp [charsLe, h1, h2, h]

theorem charsLe_trans {a b c : List Char} (h1 : charsLe a b = true)
    (h2 : charsLe b c = true) : charsLe a c = true := by
  induction a generalizing b c with
  | nil => rfl
  | cons x xs ih =>
    cases b with
    | nil => simp [charsLe] at h1
    | cons y ys =>
      cases c with
      | nil => simp [charsLe] at h2
      | cons z zs =>
        by_cases hxy : x.toNat < y.toNat
        · by_cases hyz : y.toNat < z.toNat
          · simp [charsLe, Nat.lt_trans hxy hyz]
          · by_cases hzy : z.toNat < y.toNat
            · simp [charsLe, hyz, hzy] at h2
            · have : y.toNat = z.toNat := Nat.le_antisymm (Nat.le_of_not_lt hzy) (Nat.le_of_not_lt hyz)
              simp [charsLe, this ▸ hxy]
        · by_cases hyx : y.toNat < x.toNat
          · simp [charsLe, hxy, hyx] at h1
          · have hxe : x.toNat = y.toNat := Nat.le_antisymm (Nat.le_of_not_lt hyx) (Nat.le_of_not_lt hxy)
            simp [charsLe, hxy, hyx] at h1
            by_cases hyz : y.toNat < z.toNat
            · simp [charsLe, hxe ▸ hyz]
            · by_cases hzy : z.toNat < y.toNat
              · simp [charsLe, hyz, hzy] at h2
              · simp [charsLe, hyz, hzy] at h2
                simp [charsLe, hxe ▸ hyz, hxe ▸ hzy, ih h1 h2]

theorem char_toNat_inj {a b : Char} (h : a.toNat = b.toNat) : a = b := by
  apply Char.ext
  exact UInt32.toNat.inj h

theorem charsLe_antisymm {a b : List Char} (h1 : charsLe a b = true)
    (h2 : charsLe b a = true) : a = b := by
  induction a generalizing b with
  | nil =>
    cases b with
    | nil => rfl
    | cons y ys => simp [charsLe] at h2
  | cons x xs ih =>
    cases b with
    | nil => simp [charsLe] at h1
    | cons y ys =>
      by_cases hxy : x.toNat < y.toNat
      · simp [charsLe, hxy, Nat.lt_asymm hxy] at h2
      · by_cases hyx : y.toNat < x.toNat
        · simp [charsLe, hxy, hyx] at h1
        · have hxe : x = y :=
            char_toNat_inj (Nat.le_antisymm (Nat.le_of_not_lt hyx) (Nat.le_of_not_lt hxy))
          simp [charsLe, hxy, hyx] at h1 h2
          rw [hxe, ih h1 h2]

instance : IsTotal String StrLeP := ⟨fun a b => charsLe_total a.data b.data⟩

instance : IsTrans String StrLeP := ⟨fun _ _ _ => charsLe_trans⟩

theorem strLe_antisymm {a b : String} (h1 : strLe a b = true) (h2 : strLe b a = true) :
    a = b := by
  cases a; cases b
  simp only [strLe] at h1 h2
  exact congrArg String.mk (charsLe_antisymm h1 h2)

theorem strLe_refl (a : String) : strLe a a = true := by
  rcases charsLe_total a.data a.data with h | h <;> exact h

/-- `sort.Strings`: ascending byte-wise sort. -/
def sortStrings (l : List String) : List String := List.insertionSort StrLeP l

/-- Go `map[string]string` values, modelled pointwise (`none` = key absent;
a `nil` map and an empty map are observationally equal). -/
def LabelMap : Type := String → Option String

/-- Modelled from the spec: a custom action definition in a bundle
(`bundle.Action`, not under src/); only its `Modifies` flag is consumed by
`Claim.IsModifyingAction`. -/
structure BundleAction where
  modifies : Bool

/-- Modelled from the spec: a bundle output definition (`bundle.Output`,
not under src/); `definition` names the schema in `Bundle.definitions`. -/
structure BundleOutput where
  definition : String

/-- Modelled from the spec: a definition schema (`definition.Schema`, not
under src/); only the `WriteOnly` marker is consumed here. -/
structure SchemaDef where
  writeOnly : Option Bool

/-- Modelled from the spec: the opaque bundle value exposed to the claim
store — `Version`, `Labels`, `Outputs[name]`, `Definitions[name]`,
`Actions[name]` (bundle parsing is out of scope of the core). -/
structure Bundle where
  version : String
  labels : LabelMap
  outputs : String → Option BundleOutput
  definitions : String → Option SchemaDef
  actions : String → Option BundleAction

/-- Modelled from the spec: `bundle.Bundle.IsOutputSensitive(name)` (not
under src/) — looks up the output definition and reports its write-only
marker; errors when the output or its schema is not defined. -/
def Bundle.IsOutputSensitive (b : Bundle) (name : String) : Except String Bool :=
  match b.outputs name with
  | some out =>
    match b.definitions out.definition with
    | some schema => .ok (schema.writeOnly.getD false)
    | none => .error ("output definition is not defined: " ++ out.definition)
  | none => .error ("output is not defined: " ++ name)

/-- `InstallationStatus` from installation.go. -/
structure InstallationStatus where
  ClaimID : String
  Action : String
  Revision : String
  ResultID : String
  ResultStatus : String

/-- `Installation` from installation.go; persisted fields only. The
unexported in-memory `claims` view (attached by `LoadClaims`, never
persisted) is not used by any embedded operation and is omitted.
`time.Time` is embedded as `Nat`, `Custom interface{}` as an opaque
`String`. -/
structure Installation where
  SchemaVersion : String
  Name : String
  Namespace : String
  BundleRepository : String
  BundleVersion : String
  BundleDigest : String
  Created : Nat
  Modified : Nat
  Custom : String
  Labels : LabelMap
  Status : InstallationStatus

/-- Modelled from the spec: `Claim` (claim.go is not under src/) — `ID`,
`Installation`, `Revision`, `Action`, embedded `Bundle`,
`BundleReference`, `BundleDigest`, opaque `Parameters`, `Created`. The
unexported in-memory `results` view is not used by any embedded operation
and is omitted. -/
structure Claim where
  ID : String
  Installation : String
  Revision : String
  Action : String
  Bundle : Bundle
  BundleReference : String
  BundleDigest : String
  Parameters : String → Option String
  Created : Nat

/-- Modelled from the spec: `Result` (result.go is not under src/) — `ID`,
`Namespace`, `ClaimID`, `Status`, `Message`, `Created`, `OutputMetadata`,
plus the unexported non-persisted back-pointer `claim` consulted by
`SaveResult` and populated by `readLastOutputs`. -/
structure Result where
  ID : String
  Namespace : String
  ClaimID : String
  Status : String
  Message : String
  Created : Nat
  OutputMetadata : String → Option String
  claim : Option Claim

/-- The contents of a record in the backing store: serialized entities
(`json.Marshal` embedded as an injective constructor per entity kind),
raw bytes, and an opaque encrypted blob (`enc` is one possible image of an
encryption handler, used to instantiate witnesses). -/
inductive Data : Type
  | installation (i : Installation)
  | claim (c : Claim)
  | result (r : Result)
  | bytes (b : List Nat)
  | enc (d : Data)

/-- `Output` from output.go: the unexported `claim` and `result` lookup
handles plus `Name` and `Value`. `Value` ([]byte in Go) is embedded as
`Data` so that arbitrary encryption images are representable. -/
structure Output where
  claim : Claim
  result : Result
  Name : String
  Value : Data

/-- Action constants (claim.go, not under src/; values fixed by the spec
and the tests). -/
def ActionInstall : String := "install"

def ActionUpgrade : String := "upgrade"

def ActionUninstall : String := "uninstall"

def ActionUnknown : String := "unknown"

def StatusRunning : String := "running"

def StatusSucceeded : String := "succeeded"

def StatusFailed : String := "failed"

def StatusCanceled : String := "canceled"

def StatusUnknown : String := "unknown"

/-- Item type constants from claimstore.go. -/
def ItemTypeInstallations : String := "installations"

def ItemTypeClaims : String := "claims"

def ItemTypeResults : String := "results"

def ItemTypeOutputs : String := "outputs"

/-- Modelled from the spec: `storage.NamespaceGlobal` (not under src/) —
the group label of the global namespace is the empty string. -/
def NamespaceGlobal : String := ""

/-- Modelled from the spec: `InstallationKey(namespace, name)` (not under
src/) — the backing-store key of an installation is
`"<namespace>/<name>"`, or just `<name>` when the namespace is empty
(global); `namespace` is a Lean keyword, so the parameter is `nspace`. -/
def InstallationKey (nspace name : String) : String :=
  if nspace = "" then name else nspace ++ "/" ++ name

/-- Modelled from the spec: `reference.ParseNormalizedNamed(ref).Name()`
(docker reference parsing, an external collaborator) — yields the
canonical repository name when the reference is parseable. No theorem
depends on the parse details; an empty or space-containing reference is
unparseable and a tag suffix is stripped. -/
def parseRepositoryName (ref : String) : Option String :=
  if ref = "" then none
  else if ref.data.contains ' ' then none
  else some (String.mk (ref.data.takeWhile (fun c => c ≠ ':')))

/-- Modelled from the spec: `Claim.IsModifyingAction` (claim.go, not under
src/) — install, upgrade and uninstall are state-changing; other actions
consult the bundle's custom action definition and are observational (with
an error) when that definition is missing. -/
def Claim.IsModifyingAction (c : Claim) : Except String Bool :=
  if c.Action = ActionInstall ∨ c.Action = ActionUpgrade ∨ c.Action = ActionUninstall then
    .ok true
  else
    match c.Bundle.actions c.Action with
    | some action => .ok action.modifies
    | none => .error ("custom action not defined in the bundle: " ++ c.Action)

/-- The Bool actually consumed by `SaveClaim`/`SaveResult`:
`modifies, _ := c.IsModifyingAction()` ignores the error. -/
def Claim.modifiesInstallation (c : Claim) : Bool :=
  match c.IsModifyingAction with
  | .ok b => b
  | .error _ => false

/-- The merge loop of `ApplyClaim`: `for k, v := range c.Bundle.Labels {
i.Labels[k] = v }` — pointwise, the claim's bundle label wins. -/
def mergeLabels (base overlay : LabelMap) : LabelMap :=
  fun k => match overlay k with
    | some v => some v
    | none => base k

/-- `Installation.ApplyClaim` from installation.go: set the bundle
version/digest, the repository when the reference parses, merge the
bundle labels (claim wins), and reset `Status` to the claim's identity
with cleared result fields (Go zero values). -/
def Installation.ApplyClaim (i : Installation) (c : Claim) : Installation :=
  let i1 := { i with BundleVersion := c.Bundle.version, BundleDigest := c.BundleDigest }
  let i2 := match parseRepositoryName c.BundleReference with
    | some repo => { i1 with BundleRepository := repo }
    | none => i1
  let i3 := { i2 with Labels := mergeLabels i2.Labels c.Bundle.labels }
  { i3 with
    Status :=
      { ClaimID := c.ID, Revision := c.Revision, Action := c.Action
        ResultID := "", ResultStatus := "" } }

/-- `Installation.ApplyResult` from installation.go. -/
def Installation.ApplyResult (i : Installation) (r : Result) : Installation :=
  { i with
    Status := { i.Status with ResultID := r.ID, ResultStatus := r.Status } }

/-- `Installation.GetStatus` from installation.go. -/
def Installation.GetStatus (i : Installation) : String :=
  if i.Status.ResultStatus = "" then StatusUnknown else i.Status.ResultStatus

/-- `NewOutput` from output.go: populates the lookup handles (the result's
back-pointer is set to the claim). -/
def NewOutput (c : Claim) (r : Result) (name : String) (value : Data) : Output :=
  { claim := c, result := { r with claim := some c }, Name := name, Value := value }

/-- `Output.GetGroup` from output.go. -/
def Output.GetGroup (o : Output) : String := o.result.ID

/-- `Output.GetName` from output.go. -/
def Output.GetName (o : Output) : String := o.result.ID ++ "-" ++ o.Name

/-- The snippet the Go code repeats at each sensitivity check:
`sensitive, err := bundle.IsOutputSensitive(name); if err != nil {
sensitive = false }` — a lookup error means the value was stored
unencrypted. -/
def bundleMarksSensitive (b : Bundle) (name : String) : Bool :=
  match b.IsOutputSensitive name with
  | .ok sensitive => sensitive
  | .error _ => false

/-- `Output.ShouldEncrypt` from output.go. -/
def Output.ShouldEncrypt (o : Output) : Bool :=
  bundleMarksSensitive o.claim.Bundle o.Name

/-- The `Outputs` container from output.go: a name-sorted list plus a
name → index map. -/
structure Outputs where
  vals : List Output
  keys : String → Option Nat

/-- `NewOutputs` from output.go: copy, index by name, sort by name.
Go maintains `keys` through `Swap` while `sort.Sort` runs; for
duplicate-free names (the only lists the store produces — they are the
keys of the `lastOutputs` map) this yields the index of the output in the
sorted list, which is what is embedded here. -/
def NewOutputs (outputs : List Output) : Outputs :=
  let sorted := List.insertionSort (fun a b => StrLeP a.Name b.Name) outputs
  { vals := sorted
    keys := fun n => sorted.findIdx? (fun o => o.Name = n) }

/-- `Outputs.GetByName` from output.go (the Go `(Output, bool)` pair is an
`Option`). -/
def Outputs.GetByName (os : Outputs) (name : String) : Option Output :=
  match os.keys name with
  | some i => os.vals.get? i
  | none => none

/-- `Outputs.GetByIndex` from output.go (indices are `Nat`; Go's negative
index check is subsumed). -/
def Outputs.GetByIndex (os : Outputs) (i : Nat) : Option Output :=
  os.vals.get? i

/-- `Outputs.Len` from output.go. -/
def Outputs.Len (os : Outputs) : Nat := os.vals.length

/-! ## The backing store (`crud.ManagedStore`)

Modelled from the spec's backing-store contract (§4.1; the crud package
is not under src/): records addressed by `(kind, group, key)`, a sentinel
"no such record" error, and a scoped connection (`HandleConnect`) whose
release closes only when the holder that opened it releases. Connects and
closes are counted so that the connection-lifecycle property is
observable, mirroring the mock store used by the repository's tests. -/

/-- Store-level errors. `recordDoesNotExist` is the crud sentinel
(`crud.ErrRecordDoesNotExist`); the four typed domain errors are the
`Err*NotFound` variables of claimstore.go; the remainder are the inline
errors of claimstore.go. -/
inductive StoreErr : Type
  | recordDoesNotExist
  | installationNotFound
  | claimNotFound
  | resultNotFound
  | outputNotFound
  | noResults (claimID : String)
  | outputClaimUnset
  | nilClaimDereference
  | unmarshalFailure
deriving DecidableEq

/-- The stable message of each error (`errors.New(...)` text). -/
def errMessage : StoreErr → String
  | .recordDoesNotExist => "File does not exist"
  | .installationNotFound => "Installation does not exist"
  | .claimNotFound => "Claim does not exist"
  | .resultNotFound => "Result does not exist"
  | .outputNotFound => "Output does not exist"
  | .noResults claimID => "claim " ++ claimID ++ " has no results"
  | .outputClaimUnset => "output.Claim is not set"
  | .nilClaimDereference => "nil claim dereference"
  | .unmarshalFailure => "unmarshal failure"

/-- One record of the backing store. -/
structure Record where
  itemType : String
  group : String
  key : String
  value : Data

/-- The backing store's state: the records plus the connection scope and
the connect/close counters observed by the store. -/
structure CrudState where
  records : List Record
  connected : Bool
  connects : Nat
  closes : Nat

/-- Predicate: the record matches a `(kind, key)` address. -/
def Record.hasKey (r : Record) (t k : String) : Prop := r.itemType = t ∧ r.key = k

instance (r : Record) (t k : String) : Decidable (r.hasKey t k) := by
  unfold Record.hasKey; infer_instance

/-- Predicate: the record belongs to a `(kind, group)` bucket. -/
def Record.inGroup (r : Record) (t g : String) : Prop := r.itemType = t ∧ r.group = g

instance (r : Record) (t g : String) : Decidable (r.inGroup t g) := by
  unfold Record.inGroup; infer_instance

/-- `Read(kind, key)`: the record with that address, or the sentinel. -/
def rawRead (recs : List Record) (t k : String) : Except StoreErr Data :=
  match recs.find? (fun r => decide (r.hasKey t k)) with
  | some r => .ok r.value
  | none => .error .recordDoesNotExist

/-- `List(kind, group)`: the keys within the group; an absent group is
signalled with the sentinel (the file-system store fails to read the
missing directory). -/
def rawList (recs : List Record) (t g : String) : Except StoreErr (List String) :=
  match recs.filter (fun r => decide (r.inGroup t g)) with
  | [] => .error .recordDoesNotExist
  | rs => .ok (rs.map Record.key)

/-- `ReadAll(kind, group)`: the record contents within the group. -/
def rawReadAll (recs : List Record) (t g : String) : Except StoreErr (List Data) :=
  match recs.filter (fun r => decide (r.inGroup t g)) with
  | [] => .error .recordDoesNotExist
  | rs => .ok (rs.map Record.value)

/-- `Save(kind, group, key, bytes)`: upsert by `(kind, key)`. -/
def rawSave (recs : List Record) (t g k : String) (v : Data) : List Record :=
  if recs.any (fun r => decide (r.hasKey t k)) then
    recs.map (fun r => if r.hasKey t k then ⟨t, g, k, v⟩ else r)
  else
    recs ++ [⟨t, g, k, v⟩]

/-- `Delete(kind, key)`: remove the record, or the sentinel when absent. -/
def rawDelete (recs : List Record) (t k : String) :
    Except StoreErr Unit × List Record :=
  if recs.any (fun r => decide (r.hasKey t k)) then
    (.ok (), recs.filter (fun r => ¬ r.hasKey t k))
  else
    (.error .recordDoesNotExist, recs)

/-- Open the connection (counted). -/
def connectState (st : CrudState) : CrudState :=
  { st with connected := true, connects := st.connects + 1 }

/-- Close the connection (counted). -/
def closeState (st : CrudState) : CrudState :=
  { st with connected := false, closes := st.closes + 1 }

/-- The managed store's auto-connect: a primitive issued outside a
connection scope opens and closes its own scope; inside a scope it reuses
the open connection. -/
def autoWrapped {α : Type} (st : CrudState) (f : CrudState → α × CrudState) :
    α × CrudState :=
  if st.connected then f st
  else
    let p := f (connectState st)
    (p.1, closeState p.2)

/-- `HandleConnect()`: returns whether this holder opened the scope (the
Go release closure is `handleClose opened`). -/
def handleConnect (st : CrudState) : Bool × CrudState :=
  if st.connected then (false, st) else (true, connectState st)

/-- The release returned by `HandleConnect`: closes only when this holder
opened the scope. -/
def handleClose (opened : Bool) (st : CrudState) : CrudState :=
  if opened then closeState st else st

/-- `handleClose, _ := HandleConnect(); defer handleClose()` around a
body. -/
def withConnection {α : Type} (st : CrudState)
    (f : CrudState → α × CrudState) : α × CrudState :=
  let c := handleConnect st
  let p := f c.2
  (p.1, handleClose c.1 p.2)

/-- Backing `Read` as observed through the managed store. -/
def bsRead (st : CrudState) (t k : String) : Except StoreErr Data × CrudState :=
  autoWrapped st (fun s => (rawRead s.records t k, s))

/-- Backing `List` as observed through the managed store. -/
def bsList (st : CrudState) (t g : String) :
    Except StoreErr (List String) × CrudState :=
  autoWrapped st (fun s => (rawList s.records t g, s))

/-- Backing `ReadAll` as observed through the managed store. -/
def bsReadAll (st : CrudState) (t g : String) :
    Except StoreErr (List Data) × CrudState :=
  autoWrapped st (fun s => (rawReadAll s.records t g, s))

/-- Backing `Save` as observed through the managed store (save failures
are backing I/O faults outside the model). -/
def bsSave (st : CrudState) (t g k : String) (v : Data) :
    Except StoreErr Unit × CrudState :=
  autoWrapped st (fun s => (.ok (), { s with records := rawSave s.records t g k v }))

/-- Backing `Delete` as observed through the managed store. -/
def bsDelete (st : CrudState) (t k : String) : Except StoreErr Unit × CrudState :=
  autoWrapped st (fun s =>
    let (res, recs) := rawDelete s.records t k
    (res, { s with records := recs }))

/-! ## The claim store (`Store` of claimstore.go) -/

/-- `Store` from claimstore.go: the encryption pair supplied at
construction (`NewClaimStore` defaults both to the identity, i.e.
`storage.NoOpEncryptionHandler`). Go handlers may fail; the verified
claims quantify over pairs with `decrypt ∘ encrypt = id`, embedded as
total functions. The process-wide mutex is invisible to this sequential
embedding. -/
structure Store where
  encrypt : Data → Data
  decrypt : Data → Data

/-- `NewClaimStore` with nil handlers: the no-op identity pair. -/
def NewClaimStore : Store := { encrypt := id, decrypt := id }

/-- `Store.outputKey` from claimstore.go. -/
def Store.outputKey (resultID output : String) : String :=
  resultID ++ "-" ++ output

/-- `Store.handleNotExistsError` from claimstore.go: the Go code matches
the crud sentinel by `strings.Contains` on its message; in the model the
sentinel is identified by its constructor. -/
def Store.handleNotExistsError (crudError typedError : StoreErr) : StoreErr :=
  match crudError with
  | .recordDoesNotExist => typedError
  | e => e

/-- `strings.TrimPrefix` on the embedded strings. -/
def trimPfx (s pfx : String) : String :=
  if pfx.data.isPrefixOf s.data then String.mk (s.data.drop pfx.data.length) else s

/-- `crud.SaveDocument` (not under src/), modelled from the spec:
serialize, encrypt iff the document asks for it, save at
`(kind, group, key)`. -/
def saveDocument (st : CrudState) (t g k : String) (d : Data)
    (shouldEncrypt : Bool) (encrypt : Data → Data) :
    Except StoreErr Unit × CrudState :=
  bsSave st t g k (if shouldEncrypt then encrypt d else d)

/-- `Store.ListInstallations` from claimstore.go (sorted names; the error
is passed through). -/
def Store.ListInstallations (st : CrudState) (nspace : String) :
    Except StoreErr (List String) × CrudState :=
  let ns := if nspace = "" then NamespaceGlobal else nspace
  let p := bsList st ItemTypeInstallations ns
  match p.1 with
  | .error e => (.error e, p.2)
  | .ok names => (.ok (sortStrings names), p.2)

/-- `Store.ListClaims` from claimstore.go: zero claims (also a backing
error, which leaves the key list empty) is `ErrInstallationNotFound`. -/
def Store.ListClaims (st : CrudState) (installation : String) :
    Except StoreErr (List String) × CrudState :=
  let p := bsList st ItemTypeClaims installation
  match p.1 with
  | .error _ => (.error .installationNotFound, p.2)
  | .ok claims =>
    if claims.isEmpty then (.error .installationNotFound, p.2)
    else (.ok (sortStrings claims), p.2)

/-- `Store.ListResults` from claimstore.go: the crud "not exist" sentinel
is swallowed (a claim with no results is not an error). -/
def Store.ListResults (st : CrudState) (claimID : String) :
    Except StoreErr (List String) × CrudState :=
  let p := bsList st ItemTypeResults claimID
  match p.1 with
  | .error .recordDoesNotExist => (.ok [], p.2)
  | .error e => (.error e, p.2)
  | .ok results => (.ok (sortStrings results), p.2)

/-- `Store.ListOutputs` from claimstore.go: swallow the sentinel, strip
the `"<resultID>-"` prefix from the keys, sort. -/
def Store.ListOutputs (st : CrudState) (resultID : String) :
    Except StoreErr (List String) × CrudState :=
  let p := bsList st ItemTypeOutputs resultID
  match p.1 with
  | .error .recordDoesNotExist => (.ok [], p.2)
  | .error e => (.error e, p.2)
  | .ok outputNames =>
    (.ok (sortStrings (outputNames.map (fun n => trimPfx n (resultID ++ "-")))), p.2)

/-- `Store.ReadInstallation` from claimstore.go. -/
def Store.ReadInstallation (st : CrudState) (nspace name : String) :
    Except StoreErr Installation × CrudState :=
  let p := bsRead st ItemTypeInstallations (InstallationKey nspace name)
  match p.1 with
  | .error e => (.error (Store.handleNotExistsError e .installationNotFound), p.2)
  | .ok d =>
    match d with
    | .installation i => (.ok i, p.2)
    | _ => (.error .unmarshalFailure, p.2)

/-- `Store.ReadClaim` from claimstore.go: read, decrypt, unmarshal. -/
def Store.ReadClaim (s : Store) (st : CrudState) (claimID : String) :
    Except StoreErr Claim × CrudState :=
  let p := bsRead st ItemTypeClaims claimID
  match p.1 with
  | .error e => (.error (Store.handleNotExistsError e .claimNotFound), p.2)
  | .ok d =>
    match s.decrypt d with
    | .claim c => (.ok c, p.2)
    | _ => (.error .unmarshalFailure, p.2)

/-- `Store.ReadAllClaims` from claimstore.go: read the group, treat zero
records as `ErrInstallationNotFound`, decrypt and unmarshal each, sort by
claim ID. -/
def Store.ReadAllClaims (s : Store) (st : CrudState) (installation : String) :
    Except StoreErr (List Claim) × CrudState :=
  let p := bsReadAll st ItemTypeClaims installation
  match p.1 with
  | .error e => (.error (Store.handleNotExistsError e .installationNotFound), p.2)
  | .ok items =>
    if items.isEmpty then (.error .installationNotFound, p.2)
    else
      match items.mapM (fun d =>
        match s.decrypt d with
        | Data.claim c => some c
        | _ => none) with
      | some claims =>
        (.ok (List.insertionSort (fun a b => StrLeP a.ID b.ID) claims), p.2)
      | none => (.error .unmarshalFailure, p.2)

/-- `Store.ReadLastClaim` from claimstore.go: one connection scope, list
the claim keys, sort, read the last. -/
def Store.ReadLastClaim (s : Store) (st : CrudState) (installation : String) :
    Except StoreErr Claim × CrudState :=
  withConnection st (fun st0 =>
    let p := bsList st0 ItemTypeClaims installation
    match p.1 with
    | .error e => (.error (Store.handleNotExistsError e .installationNotFound), p.2)
    | .ok claimIds =>
      if claimIds.isEmpty then (.error .installationNotFound, p.2)
      else s.ReadClaim p.2 ((sortStrings claimIds).getLastD ""))

/-- `Store.ReadResult` from claimstore.go. -/
def Store.ReadResult (st : CrudState) (resultID : String) :
    Except StoreErr Result × CrudState :=
  let p := bsRead st ItemTypeResults resultID
  match p.1 with
  | .error e => (.error (Store.handleNotExistsError e .resultNotFound), p.2)
  | .ok d =>
    match d with
    | .result r => (.ok r, p.2)
    | _ => (.error .unmarshalFailure, p.2)

/-- `Store.ReadLastResult` from claimstore.go: one connection scope, list
the result keys, error when there are none, read the greatest. -/
def Store.ReadLastResult (st : CrudState) (claimID : String) :
    Except StoreErr Result × CrudState :=
  withConnection st (fun st0 =>
    let p := bsList st0 ItemTypeResults claimID
    match p.1 with
    | .error e => (.error (Store.handleNotExistsError e .claimNotFound), p.2)
    | .ok resultIDs =>
      if resultIDs.isEmpty then (.error (.noResults claimID), p.2)
      else Store.ReadResult p.2 ((sortStrings resultIDs).getLastD ""))

/-- `Store.ReadOutput` from claimstore.go: read the raw record, decrypt
iff the claim's bundle marks the name sensitive (a lookup error means it
was stored unencrypted). -/
def Store.ReadOutput (s : Store) (st : CrudState) (c : Claim) (r : Result)
    (outputName : String) : Except StoreErr Output × CrudState :=
  let p := bsRead st ItemTypeOutputs (Store.outputKey r.ID outputName)
  match p.1 with
  | .error e => (.error (Store.handleNotExistsError e .outputNotFound), p.2)
  | .ok bytes =>
    (.ok (NewOutput c r outputName
      (if bundleMarksSensitive c.Bundle outputName then s.decrypt bytes else bytes)), p.2)

/-- `Store.SaveInstallation` from claimstore.go (installations are not
encrypted; the document's group is the namespace and its key is
`InstallationKey`). -/
def Store.SaveInstallation (s : Store) (st : CrudState) (i : Installation) :
    Except StoreErr Unit × CrudState :=
  saveDocument st ItemTypeInstallations i.Namespace
    (InstallationKey i.Namespace i.Name) (.installation i) false s.encrypt

/-- `Store.SaveClaim` from claimstore.go: persist the claim (always
encrypted), then, for a modifying action, read the owning installation,
apply the claim and persist the installation, all in one connection
scope. -/
def Store.SaveClaim (s : Store) (st : CrudState) (c : Claim) :
    Except StoreErr Unit × CrudState :=
  withConnection st (fun st0 =>
    let p := saveDocument st0 ItemTypeClaims c.Installation c.ID
      (.claim c) true s.encrypt
    match p.1 with
    | .error e => (.error e, p.2)
    | .ok _ =>
      if c.modifiesInstallation then
        let q := Store.ReadInstallation p.2 "" c.Installation
        match q.1 with
        | .error e => (.error e, q.2)
        | .ok i => s.SaveInstallation q.2 (i.ApplyClaim c)
      else (.ok (), p.2))

/-- The serialized form of a result: the unexported `claim` back-pointer
carries no JSON tag and is not persisted. -/
def Result.marshal (r : Result) : Data := .result { r with claim := none }

/-- `Store.SaveResult` from claimstore.go: persist the result (not
encrypted), then, when the result carries a modifying claim reference,
read the owning installation, apply the result and persist it. -/
def Store.SaveResult (s : Store) (st : CrudState) (r : Result) :
    Except StoreErr Unit × CrudState :=
  withConnection st (fun st0 =>
    let p := saveDocument st0 ItemTypeResults r.ClaimID r.ID
      r.marshal false s.encrypt
    match p.1 with
    | .error e => (.error e, p.2)
    | .ok _ =>
      match r.claim with
      | some c =>
        if c.modifiesInstallation then
          let q := Store.ReadInstallation p.2 "" c.Installation
          match q.1 with
          | .error e => (.error e, q.2)
          | .ok i => s.SaveInstallation q.2 (i.ApplyResult r)
        else (.ok (), p.2)
      | none => (.ok (), p.2))

/-- `Store.SaveOutput` from claimstore.go: require the claim handle,
encrypt iff the claim's bundle marks the name sensitive, save at
`(outputs, resultID, "<resultID>-<name>")`. -/
def Store.SaveOutput (s : Store) (st : CrudState) (o : Output) :
    Except StoreErr Unit × CrudState :=
  if o.claim.ID = "" then (.error .outputClaimUnset, st)
  else
    let sensitive := bundleMarksSensitive o.claim.Bundle o.Name
    let data := if sensitive then s.encrypt o.Value else o.Value
    bsSave st ItemTypeOutputs o.GetGroup (Store.outputKey o.result.ID o.Name) data

/-- The result value constructed inside `readLastOutputs`:
`Result{ID: resultID, ClaimID: c.ID, claim: &scopedClaim}` with Go zero
values elsewhere. -/
def resultStub (c : Claim) (resultID : String) : Result :=
  { ID := resultID, Namespace := "", ClaimID := c.ID, Status := ""
    Message := "", Created := 0, OutputMetadata := fun _ => none
    claim := some c }

/-- The first loop of `readLastOutputs`: for each claim, list its result
ids and collect result stubs carrying the claim. -/
def collectResults (st : CrudState) :
    List Claim → Except StoreErr (List Result) × CrudState
  | [] => (.ok [], st)
  | c :: cs =>
    let p := Store.ListResults st c.ID
    match p.1 with
    | .error e => (.error e, p.2)
    | .ok resultIds =>
      let q := collectResults p.2 cs
      match q.1 with
      | .error e => (.error e, q.2)
      | .ok rest => (.ok (resultIds.map (resultStub c) ++ rest), q.2)

/-- Go map assignment `m[k] = v` on the embedded association list. -/
def mapSet (m : List (String × Result)) (k : String) (v : Result) :
    List (String × Result) :=
  if m.any (fun p => p.1 = k) then
    m.map (fun p => if p.1 = k then (k, v) else p)
  else m ++ [(k, v)]

/-- The second loop of `readLastOutputs`: walk the (sorted) results, list
each result's output names, and let a later sighting of a name overwrite
an earlier one. -/
def collectLastOutputs (st : CrudState) (filterOutput : String) :
    List Result → List (String × Result) →
    Except StoreErr (List (String × Result)) × CrudState
  | [], acc => (.ok acc, st)
  | r :: rs, acc =>
    let p := Store.ListOutputs st r.ID
    match p.1 with
    | .error e => (.error e, p.2)
    | .ok outputNames =>
      collectLastOutputs p.2 filterOutput rs (outputNames.foldl
        (fun a n => if filterOutput = "" ∨ filterOutput = n then mapSet a n r else a) acc)

/-- The final loop of `readLastOutputs`: fetch each winning output via
`ReadOutput` through the stored claim/result handles (Go dereferences the
claim pointer, which `readLastOutputs` always sets). -/
def fetchOutputs (s : Store) (st : CrudState) :
    List (String × Result) → Except StoreErr (List Output) × CrudState
  | [] => (.ok [], st)
  | (outputName, r) :: rest =>
    match r.claim with
    | none => (.error .nilClaimDereference, st)
    | some c =>
      let p := s.ReadOutput st c r outputName
      match p.1 with
      | .error e => (.error e, p.2)
      | .ok o =>
        let q := fetchOutputs s p.2 rest
        match q.1 with
        | .error e => (.error e, q.2)
        | .ok os => (.ok (o :: os), q.2)

/-- `Store.readLastOutputs` from claimstore.go: enumerate claims, collect
and sort their results, determine the last writer of each (filtered)
output name, fetch the winning values and package them. -/
def Store.readLastOutputs (s : Store) (st : CrudState)
    (installation filterOutput : String) : Except StoreErr Outputs × CrudState :=
  let p := s.ReadAllClaims st installation
  match p.1 with
  | .error e => (.error e, p.2)
  | .ok claims =>
    let q := collectResults p.2 claims
    match q.1 with
    | .error e => (.error e, q.2)
    | .ok results =>
      let w := collectLastOutputs q.2 filterOutput
        (List.insertionSort (fun a b => StrLeP a.ID b.ID) results) []
      match w.1 with
      | .error e => (.error e, w.2)
      | .ok lastOutputs =>
        let z := fetchOutputs s w.2 lastOutputs
        match z.1 with
        | .error e => (.error e, z.2)
        | .ok outputs => (.ok (NewOutputs outputs), z.2)

/-- `Store.ReadLastOutputs` from claimstore.go. -/
def Store.ReadLastOutputs (s : Store) (st : CrudState) (installation : String) :
    Except StoreErr Outputs × CrudState :=
  withConnection st (fun st0 => s.readLastOutputs st0 installation "")

/-- `Store.ReadLastOutput` from claimstore.go. -/
def Store.ReadLastOutput (s : Store) (st : CrudState)
    (installation name : String) : Except StoreErr Output × CrudState :=
  withConnection st (fun st0 =>
    let p := s.readLastOutputs st0 installation name
    match p.1 with
    | .error e => (.error e, p.2)
    | .ok outputs =>
      match outputs.GetByName name with
      | some o => (.ok o, p.2)
      | none => (.error .outputNotFound, p.2))

/-- `Store.DeleteOutput` from claimstore.go. -/
def Store.DeleteOutput (st : CrudState) (resultID outputName : String) :
    Except StoreErr Unit × CrudState :=
  let p := bsDelete st ItemTypeOutputs (Store.outputKey resultID outputName)
  match p.1 with
  | .error e => (.error (Store.handleNotExistsError e .outputNotFound), p.2)
  | .ok _ => (.ok (), p.2)

/-- The cascade loop of the delete path: run the per-key deleter over the
listed keys, stopping at the first failure. -/
def deleteEach (f : CrudState → String → Except StoreErr Unit × CrudState)
    (st : CrudState) : List String → Except StoreErr Unit × CrudState
  | [] => (.ok (), st)
  | k :: ks =>
    let p := f st k
    match p.1 with
    | .error e => (.error e, p.2)
    | .ok _ => deleteEach f p.2 ks

/-- `Store.DeleteResult` from claimstore.go: delete the result's outputs
then the result record, in one connection scope. -/
def Store.DeleteResult (st : CrudState) (resultID : String) :
    Except StoreErr Unit × CrudState :=
  withConnection st (fun st0 =>
    let p := Store.ListOutputs st0 resultID
    match p.1 with
    | .error e => (.error e, p.2)
    | .ok outputNames =>
      let q := deleteEach (fun s n => Store.DeleteOutput s resultID n) p.2 outputNames
      match q.1 with
      | .error e => (.error e, q.2)
      | .ok _ =>
        let w := bsDelete q.2 ItemTypeResults resultID
        match w.1 with
        | .error e => (.error (Store.handleNotExistsError e .resultNotFound), w.2)
        | .ok _ => (.ok (), w.2))

/-- `Store.DeleteClaim` from claimstore.go: delete the claim's results
then the claim record, in one connection scope. -/
def Store.DeleteClaim (st : CrudState) (claimID : String) :
    Except StoreErr Unit × CrudState :=
  withConnection st (fun st0 =>
    let p := Store.ListResults st0 claimID
    match p.1 with
    | .error e => (.error e, p.2)
    | .ok resultIds =>
      let q := deleteEach Store.DeleteResult p.2 resultIds
      match q.1 with
      | .error e => (.error e, q.2)
      | .ok _ =>
        let w := bsDelete q.2 ItemTypeClaims claimID
        match w.1 with
        | .error e => (.error (Store.handleNotExistsError e .claimNotFound), w.2)
        | .ok _ => (.ok (), w.2))

/-- `Store.DeleteInstallation` from claimstore.go: delete every claim of
the installation, then the installation record (keyed by the bare
installation name), in one connection scope. -/
def Store.DeleteInstallation (st : CrudState) (installation : String) :
    Except StoreErr Unit × CrudState :=
  withConnection st (fun st0 =>
    let p := Store.ListClaims st0 installation
    match p.1 with
    | .error e => (.error e, p.2)
    | .ok claimIds =>
      let q := deleteEach Store.DeleteClaim p.2 claimIds
      match q.1 with
      | .error e => (.error e, q.2)
      | .ok _ =>
        let w := bsDelete q.2 ItemTypeInstallations installation
        match w.1 with
        | .error e => (.error (Store.handleNotExistsError e .installationNotFound), w.2)
        | .ok _ => (.ok (), w.2))

/-- `Store.ReadAllInstallations` from claimstore.go: read every
installation document (the global group), unmarshal each, sort by name;
a backing error is passed through untyped (no `handleNotExistsError`
here). -/
def Store.ReadAllInstallations (st : CrudState) :
    Except StoreErr (List Installation) × CrudState :=
  let p := bsReadAll st ItemTypeInstallations ""
  match p.1 with
  | .error e => (.error e, p.2)
  | .ok items =>
    match items.mapM (fun d =>
      match d with
      | Data.installation i => some i
      | _ => none) with
    | some installations =>
      (.ok (List.insertionSort (fun a b => StrLeP a.Name b.Name) installations), p.2)
    | none => (.error .unmarshalFailure, p.2)

/-- `Store.ReadAllResults` from claimstore.go: read the claim's result
documents, swallowing the crud "not exist" sentinel (a claim with no
results is not an error), unmarshal each, sort (`Results` sorts ascending
by ID). -/
def Store.ReadAllResults (st : CrudState) (claimID : String) :
    Except StoreErr (List Result) × CrudState :=
  let p := bsReadAll st ItemTypeResults claimID
  match p.1 with
  | .error .recordDoesNotExist => (.ok [], p.2)
  | .error e => (.error e, p.2)
  | .ok items =>
    match items.mapM (fun d =>
      match d with
      | Data.result r => some r
      | _ => none) with
    | some results =>
      (.ok (List.insertionSort (fun a b => StrLeP a.ID b.ID) results), p.2)
    | none => (.error .unmarshalFailure, p.2)

/-- The Go zero value of `Installation`. -/
def zeroInstallation : Installation :=
  { SchemaVersion := "", Name := "", Namespace := "", BundleRepository := ""
    BundleVersion := "", BundleDigest := "", Created := 0, Modified := 0
    Custom := "", Labels := fun _ => none, Status := ⟨"", "", "", "", ""⟩ }

/-- `Store.ReadInstallationStatus` from claimstore.go (deprecated legacy
view): in one connection scope, list the installation's claims, read the
greatest claim, list that claim's results and read the greatest result.
The Go code attaches the loaded claim (with its latest result) to the
returned installation's unexported, non-persisted `claims` view via
`LoadClaims`; the embedded `Installation` carries (like the persisted
document) only the exported fields, so the returned value is
`Installation{Name: installation}` exactly as constructed by the Go
code — the backing reads and their error paths are embedded one for
one. -/
def Store.ReadInstallationStatus (s : Store) (st : CrudState)
    (installation : String) : Except StoreErr Installation × CrudState :=
  withConnection st (fun st0 =>
    let p := Store.ListClaims st0 installation
    match p.1 with
    | .error e => (.error e, p.2)
    | .ok claimIds =>
      if claimIds.isEmpty then (.error .installationNotFound, p.2)
      else
        let q := s.ReadClaim p.2 ((sortStrings claimIds).getLastD "")
        match q.1 with
        | .error e => (.error e, q.2)
        | .ok _ =>
          let w := Store.ListResults q.2 ((sortStrings claimIds).getLastD "")
          match w.1 with
          | .error e => (.error e, w.2)
          | .ok resultIDs =>
            if resultIDs.isEmpty then
              (.ok { zeroInstallation with Name := installation }, w.2)
            else
              let z := Store.ReadResult w.2 ((sortStrings resultIDs).getLastD "")
              match z.1 with
              | .error e => (.error e, z.2)
              | .ok _ =>
                (.ok { zeroInstallation with Name := installation }, z.2))

/-- The collection loop of `ReadAllInstallationStatus`: one legacy status
view per installation name, stopping at the first failure. -/
def collectInstallationStatus (s : Store) (st : CrudState) :
    List String → Except StoreErr (List Installation) × CrudState
  | [] => (.ok [], st)
  | name :: names =>
    let p := s.ReadInstallationStatus st name
    match p.1 with
    | .error e => (.error e, p.2)
    | .ok i =>
      let q := collectInstallationStatus s p.2 names
      match q.1 with
      | .error e => (.error e, q.2)
      | .ok rest => (.ok (i :: rest), q.2)

/-- `Store.ReadAllInstallationStatus` from claimstore.go (deprecated): in
one connection scope, list every installation and load each legacy status
view (the nested `ReadInstallationStatus` joins the open scope). -/
def Store.ReadAllInstallationStatus (s : Store) (st : CrudState) :
    Except StoreErr (List Installation) × CrudState :=
  withConnection st (fun st0 =>
    let p := Store.ListInstallations st0 ""
    match p.1 with
    | .error e => (.error e, p.2)
    | .ok names => collectInstallationStatus s p.2 names)

/-! ## Infrastructure lemmas -/

@[simp] theorem connectState_records (st : CrudState) :
    (connectState st).records = st.records := rfl

@[simp] theorem closeState_records (st : CrudState) :
    (closeState st).records = st.records := rfl

@[simp] theorem bsList_fst (st : CrudState) (t g : String) :
    (bsList st t g).1 = rawList st.records t g := by
  unfold bsList autoWrapped
  split <;> rfl

@[simp] theorem bsList_records (st : CrudState) (t g : String) :
    (bsList st t g).2.records = st.records := by
  unfold bsList autoWrapped
  split <;> rfl

@[simp] theorem bsRead_fst (st : CrudState) (t k : String) :
    (bsRead st t k).1 = rawRead st.records t k := by
  unfold bsRead autoWrapped
  split <;> rfl

@[simp] theorem bsRead_records (st : CrudState) (t k : String) :
    (bsRead st t k).2.records = st.records := by
  unfold bsRead autoWrapped
  split <;> rfl

@[simp] theorem bsReadAll_fst (st : CrudState) (t g : String) :
    (bsReadAll st t g).1 = rawReadAll st.records t g := by
  unfold bsReadAll autoWrapped
  split <;> rfl

@[simp] theorem bsReadAll_records (st : CrudState) (t g : String) :
    (bsReadAll st t g).2.records = st.records := by
  unfold bsReadAll autoWrapped
  split <;> rfl

@[simp] theorem bsSave_fst (st : CrudState) (t g k : String) (v : Data) :
    (bsSave st t g k v).1 = .ok () := by
  unfold bsSave autoWrapped
  split <;> rfl

@[simp] theorem bsSave_records (st : CrudState) (t g k : String) (v : Data) :
    (bsSave st t g k v).2.records = rawSave st.records t g k v := by
  unfold bsSave autoWrapped
  split <;> rfl

@[simp] theorem bsDelete_fst (st : CrudState) (t k : String) :
    (bsDelete st t k).1 = (rawDelete st.records t k).1 := by
  unfold bsDelete autoWrapped
  split <;> rfl

@[simp] theorem bsDelete_records (st : CrudState) (t k : String) :
    (bsDelete st t k).2.records = (rawDelete st.records t k).2 := by
  unfold bsDelete autoWrapped
  split <;> rfl

theorem rawList_of_empty {recs : List Record} {t g : String}
    (h : ∀ rec ∈ recs, ¬ rec.inGroup t g) :
    rawList recs t g = .error .recordDoesNotExist := by
  unfold rawList
  have : recs.filter (fun r => decide (r.inGroup t g)) = [] := by
    simp only [List.filter_eq_nil_iff, decide_eq_true_eq]
    exact h
  rw [this]

theorem rawRead_of_missing {recs : List Record} {t k : String}
    (h : ∀ rec ∈ recs, ¬ rec.hasKey t k) :
    rawRead recs t k = .error .recordDoesNotExist := by
  unfold rawRead
  have : recs.find? (fun r => decide (r.hasKey t k)) = none := by
    simp only [List.find?_eq_none, decide_eq_true_eq]
    exact h
  rw [this]

theorem find_in_replaced (recs : List Record) (t g k : String) (v : Data)
    (h : ∃ r0 ∈ recs, r0.hasKey t k) :
    (recs.map (fun r => if r.hasKey t k then ⟨t, g, k, v⟩ else r)).find?
      (fun r => decide (r.hasKey t k)) = some ⟨t, g, k, v⟩ := by
  induction recs with
  | nil =>
    rcases h with ⟨r0, h0, _⟩
    cases h0
  | cons x xs ih =>
    by_cases hx : x.hasKey t k
    · have hnew : Record.hasKey ⟨t, g, k, v⟩ t k := ⟨rfl, rfl⟩
      simp [List.find?_cons, hx, hnew]
    · rcases h with ⟨r0, h0, hk0⟩
      rcases List.mem_cons.mp h0 with h1 | h1
      · exact absurd (h1 ▸ hk0) hx
      · simp only [List.map_cons, if_neg hx, List.find?_cons, decide_eq_false hx]
        exact ih ⟨r0, h1, hk0⟩

theorem rawRead_rawSave_self (recs : List Record) (t g k : String) (v : Data) :
    rawRead (rawSave recs t g k v) t k = .ok v := by
  unfold rawRead rawSave
  by_cases h : recs.any (fun r => decide (r.hasKey t k)) = true
  · rw [if_pos h]
    rcases List.any_eq_true.mp h with ⟨r0, hr0, hkey⟩
    rw [decide_eq_true_eq] at hkey
    rw [find_in_replaced recs t g k v ⟨r0, hr0, hkey⟩]
  · rw [if_neg h]
    have hnone : recs.find? (fun r => decide (r.hasKey t k)) = none := by
      rw [List.find?_eq_none]
      intro x hx
      simp only [decide_eq_true_eq]
      intro hkx
      exact h (List.any_eq_true.mpr ⟨x, hx, by simpa using hkx⟩)
    rw [List.find?_append, hnone]
    have hnew : Record.hasKey ⟨t, g, k, v⟩ t k := ⟨rfl, rfl⟩
    simp [hnew]

/-! ## C10: frame conditions of ApplyClaim and ApplyResult -/

theorem applyClaim_fields (i : Installation) (c : Claim) :
    (i.ApplyClaim c).SchemaVersion = i.SchemaVersion ∧
    (i.ApplyClaim c).Name = i.Name ∧
    (i.ApplyClaim c).Namespace = i.Namespace ∧
    (i.ApplyClaim c).Created = i.Created ∧
    (i.ApplyClaim c).Modified = i.Modified ∧
    (i.ApplyClaim c).Custom = i.Custom ∧
    (i.ApplyClaim c).Labels = mergeLabels i.Labels c.Bundle.labels ∧
    (i.ApplyClaim c).Status =
      ⟨c.ID, c.Action, c.Revision, "", ""⟩ ∧
    (i.ApplyClaim c).BundleVersion = c.Bundle.version ∧
    (i.ApplyClaim c).BundleDigest = c.BundleDigest := by
  unfold Installation.ApplyClaim
  cases parseRepositoryName c.BundleReference <;> simp

/-- C10: `ApplyResult` changes only `Status.ResultID` and
`Status.ResultStatus`, leaving the rest of the status and every other
installation field unchanged; `ApplyClaim` leaves `SchemaVersion`,
`Name`, `Namespace`, `Created`, `Modified` and `Custom` unchanged and in
`Labels` only adds or overwrites keys present in `c.Bundle.Labels`; in
particular neither function updates the `Modified` timestamp. -/
theorem C10_apply_frame (i : Installation) (c : Claim) (r : Result) :
    (i.ApplyResult r).Status.ResultID = r.ID ∧
    (i.ApplyResult r).Status.ResultStatus = r.Status ∧
    (i.ApplyResult r).Status.ClaimID = i.Status.ClaimID ∧
    (i.ApplyResult r).Status.Action = i.Status.Action ∧
    (i.ApplyResult r).Status.Revision = i.Status.Revision ∧
    (i.ApplyResult r).SchemaVersion = i.SchemaVersion ∧
    (i.ApplyResult r).Name = i.Name ∧
    (i.ApplyResult r).Namespace = i.Namespace ∧
    (i.ApplyResult r).BundleRepository = i.BundleRepository ∧
    (i.ApplyResult r).BundleVersion = i.BundleVersion ∧
    (i.ApplyResult r).BundleDigest = i.BundleDigest ∧
    (i.ApplyResult r).Created = i.Created ∧
    (i.ApplyResult r).Modified = i.Modified ∧
    (i.ApplyResult r).Custom = i.Custom ∧
    (i.ApplyResult r).Labels = i.Labels ∧
    (i.ApplyClaim c).SchemaVersion = i.SchemaVersion ∧
    (i.ApplyClaim c).Name = i.Name ∧
    (i.ApplyClaim c).Namespace = i.Namespace ∧
    (i.ApplyClaim c).Created = i.Created ∧
    (i.ApplyClaim c).Modified = i.Modified ∧
    (i.ApplyClaim c).Custom = i.Custom ∧
    (∀ k, c.Bundle.labels k = none → (i.ApplyClaim c).Labels k = i.Labels k) ∧
    (∀ k v, c.Bundle.labels k = some v → (i.ApplyClaim c).Labels k = some v) := by
  obtain ⟨h1, h2, h3, h4, h5, h6, h7, h8, h9, h10⟩ := applyClaim_fields i c
  refine ⟨rfl, rfl, rfl, rfl, rfl, rfl, rfl, rfl, rfl, rfl, rfl, rfl, rfl, rfl, rfl,
    h1, h2, h3, h4, h5, h6, ?_, ?_⟩
  · intro k hk
    rw [h7]
    simp [mergeLabels, hk]
  · intro k v hk
    rw [h7]
    simp [mergeLabels, hk]

/-! ## C6: error normalization -/

/-- C6: `ListResults` and `ListOutputs` swallow the backing store's
"record does not exist" signal and return an empty list without error,
while the point reads `ReadInstallation`, `ReadClaim`, `ReadResult` and
`ReadOutput` convert that same signal into their typed domain errors,
whose messages are the stable strings. -/
theorem C6_not_found_normalization (s : Store) (st : CrudState)
    (claimID resultID nspace name cid rid oname : String) (c : Claim) (r : Result) :
    ((∀ rec ∈ st.records, ¬ rec.inGroup ItemTypeResults claimID) →
      (Store.ListResults st claimID).1 = .ok []) ∧
    ((∀ rec ∈ st.records, ¬ rec.inGroup ItemTypeOutputs resultID) →
      (Store.ListOutputs st resultID).1 = .ok []) ∧
    ((∀ rec ∈ st.records, ¬ rec.hasKey ItemTypeInstallations (InstallationKey nspace name)) →
      (Store.ReadInstallation st nspace name).1 = .error .installationNotFound) ∧
    ((∀ rec ∈ st.records, ¬ rec.hasKey ItemTypeClaims cid) →
      (s.ReadClaim st cid).1 = .error .claimNotFound) ∧
    ((∀ rec ∈ st.records, ¬ rec.hasKey ItemTypeResults rid) →
      (Store.ReadResult st rid).1 = .error .resultNotFound) ∧
    ((∀ rec ∈ st.records, ¬ rec.hasKey ItemTypeOutputs (Store.outputKey r.ID oname)) →
      (s.ReadOutput st c r oname).1 = .error .outputNotFound) ∧
    errMessage .installationNotFound = "Installation does not exist" ∧
    errMessage .claimNotFound = "Claim does not exist" ∧
    errMessage .resultNotFound = "Result does not exist" ∧
    errMessage .outputNotFound = "Output does not exist" := by
  refine ⟨?_, ?_, ?_, ?_, ?_, ?_, rfl, rfl, rfl, rfl⟩
  · intro h
    simp [Store.ListResults, rawList_of_empty h]
  · intro h
    simp [Store.ListOutputs, rawList_of_empty h]
  · intro h
    simp [Store.ReadInstallation, rawRead_of_missing h, Store.handleNotExistsError]
  · intro h
    simp [Store.ReadClaim, rawRead_of_missing h, Store.handleNotExistsError]
  · intro h
    simp [Store.ReadResult, rawRead_of_missing h, Store.handleNotExistsError]
  · intro h
    simp [Store.ReadOutput, rawRead_of_missing h, Store.handleNotExistsError]

/-- Witness for C6 at a concrete empty store. -/
theorem C6_not_found_normalization_witness :
    (Store.ListResults ⟨[], false, 0, 0⟩ "c1").1 = .ok [] ∧
    (Store.ReadResult ⟨[], false, 0, 0⟩ "r1").1 = .error .resultNotFound := by
  have h := C6_not_found_normalization NewClaimStore ⟨[], false, 0, 0⟩
    "c1" "r1" "" "foo" "c1" "r1" "o1"
    { ID := "c1", Installation := "foo", Revision := "", Action := "install"
      Bundle := ⟨"", fun _ => none, fun _ => none, fun _ => none, fun _ => none⟩
      BundleReference := "", BundleDigest := "", Parameters := fun _ => none
      Created := 0 }
    { ID := "r1", Namespace := "", ClaimID := "c1", Status := "", Message := ""
      Created := 0, OutputMetadata := fun _ => none, claim := none }
  exact ⟨h.1 (by intro rec hrec; cases hrec),
    h.2.2.2.2.1 (by intro rec hrec; cases hrec)⟩

/-! ## Sample fixtures used by the witnesses -/

/-- A bundle with a write-only `password` output and a plain `port`
output (mirrors the repository's encryption test). -/
def sampleBundle : Bundle :=
  { version := "0.1.0"
    labels := fun k => if k = "cnab.io/app" then some "mybun" else none
    outputs := fun n =>
      if n = "password" then some ⟨"password"⟩
      else if n = "port" then some ⟨"port"⟩ else none
    definitions := fun n =>
      if n = "password" then some ⟨some true⟩
      else if n = "port" then some ⟨some false⟩ else none
    actions := fun _ => none }

def sampleClaim : Claim :=
  { ID := "01C1", Installation := "foo", Revision := "rev1"
    Action := ActionInstall, Bundle := sampleBundle, BundleReference := ""
    BundleDigest := "sha256:abc123", Parameters := fun _ => none, Created := 1 }

def sampleResult : Result :=
  { ID := "01R1", Namespace := "", ClaimID := "01C1", Status := StatusSucceeded
    Message := "", Created := 2, OutputMetadata := fun _ => none, claim := none }

def sampleInstallation : Installation :=
  { SchemaVersion := "1.0.0", Name := "foo", Namespace := ""
    BundleRepository := "", BundleVersion := "0.1.0", BundleDigest := ""
    Created := 0, Modified := 0, Custom := "", Labels := fun _ => none
    Status := ⟨"", "", "", "", ""⟩ }

def emptyState : CrudState := ⟨[], false, 0, 0⟩

/-- A nontrivial decryptor paired with `Data.enc`: it unwraps one `enc`
layer and leaves everything else alone, so it is a left inverse of
`Data.enc`. -/
def unwrapEnc : Data → Data
  | .enc d => d
  | d => d

/-- A store whose encryption pair is `(Data.enc, unwrapEnc)`. -/
def sampleStore : Store := ⟨Data.enc, unwrapEnc⟩

theorem unwrapEnc_enc (d : Data) : unwrapEnc (Data.enc d) = d := rfl

/-! ## C2: sensitive-output encryption -/

/-- C2: `SaveOutput` stores `encrypt(Value)` exactly when the claim's
bundle marks the output name write-only and the verbatim `Value`
otherwise; `ReadOutput` applies `decrypt` exactly under the same mark, so
a record written without encryption is never decrypted on read, and a
name the bundle does not define is non-sensitive on both paths. -/
theorem C2_sensitive_output_encryption (s : Store) (st st2 : CrudState)
    (o : Output) (c : Claim) (r : Result) (name : String) (v : Data)
    (ho : ¬ o.claim.ID = "")
    (hv : rawRead st2.records ItemTypeOutputs (Store.outputKey r.ID name) = .ok v) :
    (s.SaveOutput st o).1 = .ok () ∧
    rawRead (s.SaveOutput st o).2.records ItemTypeOutputs
        (Store.outputKey o.result.ID o.Name)
      = .ok (if o.ShouldEncrypt then s.encrypt o.Value else o.Value) ∧
    (o.ShouldEncrypt = false →
      rawRead (s.SaveOutput st o).2.records ItemTypeOutputs
        (Store.outputKey o.result.ID o.Name) = .ok o.Value) ∧
    (s.ReadOutput st2 c r name).1 =
      .ok (NewOutput c r name
        (if bundleMarksSensitive c.Bundle name then s.decrypt v else v)) ∧
    (bundleMarksSensitive c.Bundle name = false →
      (s.ReadOutput st2 c r name).1 = .ok (NewOutput c r name v)) ∧
    (c.Bundle.outputs name = none → bundleMarksSensitive c.Bundle name = false) ∧
    (o.claim.Bundle.outputs o.Name = none → o.ShouldEncrypt = false) := by
  have hsave1 : (s.SaveOutput st o).1 = .ok () := by
    unfold Store.SaveOutput
    rw [if_neg ho]
    simp
  have hsave2 : rawRead (s.SaveOutput st o).2.records ItemTypeOutputs
      (Store.outputKey o.result.ID o.Name)
      = .ok (if o.ShouldEncrypt then s.encrypt o.Value else o.Value) := by
    unfold Store.SaveOutput
    rw [if_neg ho]
    simp only [bsSave_records]
    rw [rawRead_rawSave_self]
    rfl
  have hread : (s.ReadOutput st2 c r name).1 =
      .ok (NewOutput c r name
        (if bundleMarksSensitive c.Bundle name then s.decrypt v else v)) := by
    unfold Store.ReadOutput
    simp only [bsRead_fst, hv]
  have hnodef : c.Bundle.outputs name = none →
      bundleMarksSensitive c.Bundle name = false := by
    intro h
    unfold bundleMarksSensitive Bundle.IsOutputSensitive
    rw [h]
  have hnodef2 : o.claim.Bundle.outputs o.Name = none → o.ShouldEncrypt = false := by
    intro h
    unfold Output.ShouldEncrypt bundleMarksSensitive Bundle.IsOutputSensitive
    rw [h]
  refine ⟨hsave1, hsave2, ?_, hread, ?_, hnodef, hnodef2⟩
  · intro h
    rw [hsave2, h]
    simp
  · intro h
    rw [hread, h]
    simp

/-- Witness for C2: saving and reading a sensitive `password` and a plain
`port` output through a store whose encryption pair is
`(Data.enc, unwrapEnc)`. -/
theorem C2_sensitive_output_encryption_witness :
    (¬ (NewOutput sampleClaim sampleResult "password" (Data.bytes [7])).claim.ID = "") ∧
    rawRead [⟨ItemTypeOutputs, "01R1", "01R1-port", Data.bytes [9]⟩]
      ItemTypeOutputs (Store.outputKey "01R1" "port") = .ok (Data.bytes [9]) ∧
    rawRead
      (sampleStore.SaveOutput emptyState
        (NewOutput sampleClaim sampleResult "password" (Data.bytes [7]))).2.records
      ItemTypeOutputs (Store.outputKey "01R1" "password")
      = .ok (Data.enc (Data.bytes [7])) ∧
    (sampleStore.ReadOutput ⟨[⟨ItemTypeOutputs, "01R1", "01R1-port", Data.bytes [9]⟩], false, 0, 0⟩
      sampleClaim sampleResult "port").1
      = .ok (NewOutput sampleClaim sampleResult "port" (Data.bytes [9])) := by
  have h := C2_sensitive_output_encryption sampleStore emptyState
    ⟨[⟨ItemTypeOutputs, "01R1", "01R1-port", Data.bytes [9]⟩], false, 0, 0⟩
    (NewOutput sampleClaim sampleResult "password" (Data.bytes [7]))
    sampleClaim sampleResult "port" (Data.bytes [9])
    (by decide) rfl
  refine ⟨by decide, rfl, ?_, ?_⟩
  · have h2 := h.2.1
    rwa [show (NewOutput sampleClaim sampleResult "password"
      (Data.bytes [7])).ShouldEncrypt = true from rfl, if_pos rfl] at h2
  · exact h.2.2.2.2.1 rfl

/-! ## Connection-scope projection lemmas -/

@[simp] theorem handleClose_records (b : Bool) (st : CrudState) :
    (handleClose b st).records = st.records := by
  unfold handleClose
  split <;> rfl

@[simp] theorem handleConnect_records (st : CrudState) :
    (handleConnect st).2.records = st.records := by
  unfold handleConnect
  split <;> rfl

theorem withConnection_fst {α : Type} (st : CrudState) (f : CrudState → α × CrudState) :
    (withConnection st f).1 = (f (handleConnect st).2).1 := rfl

theorem withConnection_records {α : Type} (st : CrudState)
    (f : CrudState → α × CrudState) :
    (withConnection st f).2.records = (f (handleConnect st).2).2.records := by
  unfold withConnection
  simp only [handleClose_records]

theorem rawRead_rawSave_other {recs : List Record} {t g k t2 k2 : String} {v : Data}
    (hne : ¬ (t2 = t ∧ k2 = k)) :
    rawRead (rawSave recs t g k v) t2 k2 = rawRead recs t2 k2 := by
  have hnew : ¬ Record.hasKey ⟨t, g, k, v⟩ t2 k2 := by
    intro hk
    exact hne ⟨hk.1.symm, hk.2.symm⟩
  unfold rawSave
  split
  · unfold rawRead
    have : ∀ rs : List Record,
        (rs.map (fun r => if r.hasKey t k then ⟨t, g, k, v⟩ else r)).find?
          (fun r => decide (r.hasKey t2 k2)) = rs.find? (fun r => decide (r.hasKey t2 k2)) := by
      intro rs
      induction rs with
      | nil => rfl
      | cons x xs ih =>
        by_cases hx : x.hasKey t k
        · have hxno : ¬ x.hasKey t2 k2 := by
            intro hk
            exact hne ⟨hk.1.symm.trans hx.1, hk.2.symm.trans hx.2⟩
          simp only [List.map_cons, if_pos hx, List.find?_cons,
            decide_eq_false hxno, decide_eq_false hnew]
          exact ih
        · simp only [List.map_cons, if_neg hx, List.find?_cons]
          cases hdx : decide (x.hasKey t2 k2)
          · exact ih
          · rfl
    rw [this]
  · unfold rawRead
    rw [List.find?_append]
    cases hf : recs.find? (fun r => decide (r.hasKey t2 k2))
    · simp [decide_eq_false hnew]
    · rfl

/-! ## C9: ListClaims and DeleteInstallation on a claim-less installation -/

/-- C9: when zero claim records exist for an installation, `ListClaims`
returns `InstallationNotFound` even though the installation record itself
exists, and consequently `DeleteInstallation` returns
`InstallationNotFound` and leaves the backing store (in particular the
installation record) unchanged. -/
theorem C9_delete_claimless_installation (st : CrudState) (installation : String)
    (hinst : ∃ rec ∈ st.records,
      rec.hasKey ItemTypeInstallations (InstallationKey "" installation))
    (hnoclaims : ∀ rec ∈ st.records, ¬ rec.inGroup ItemTypeClaims installation) :
    (Store.ListClaims st installation).1 = .error .installationNotFound ∧
    (Store.DeleteInstallation st installation).1 = .error .installationNotFound ∧
    (Store.DeleteInstallation st installation).2.records = st.records := by
  have hlist : rawList st.records ItemTypeClaims installation = .error .recordDoesNotExist :=
    rawList_of_empty hnoclaims
  refine ⟨?_, ?_, ?_⟩
  · simp [Store.ListClaims, hlist]
  · rw [Store.DeleteInstallation, withConnection_fst]
    simp [Store.ListClaims, hlist]
  · rw [Store.DeleteInstallation, withConnection_records]
    simp [Store.ListClaims, hlist]

/-- Witness for C9: an installation record with no claims. -/
theorem C9_delete_claimless_installation_witness :
    (Store.ListClaims
      ⟨[⟨ItemTypeInstallations, "", "foo", Data.installation sampleInstallation⟩], false, 0, 0⟩
      "foo").1 = .error .installationNotFound ∧
    (Store.DeleteInstallation
      ⟨[⟨ItemTypeInstallations, "", "foo", Data.installation sampleInstallation⟩], false, 0, 0⟩
      "foo").2.records
      = [⟨ItemTypeInstallations, "", "foo", Data.installation sampleInstallation⟩] := by
  have h := C9_delete_claimless_installation
    ⟨[⟨ItemTypeInstallations, "", "foo", Data.installation sampleInstallation⟩], false, 0, 0⟩
    "foo"
    ⟨⟨ItemTypeInstallations, "", "foo", Data.installation sampleInstallation⟩,
      List.mem_singleton.mpr rfl, by constructor <;> rfl⟩
    (by
      intro rec hrec
      rw [List.mem_singleton] at hrec
      subst hrec
      intro hg
      exact absurd hg.1 (by decide))
  exact ⟨h.1, h.2.2⟩

/-! ## C1: status derivation on the write path -/

theorem installations_ne_claims :
    ¬ (ItemTypeInstallations = ItemTypeClaims ∧
      InstallationKey "" "x" = InstallationKey "" "x") := by
  intro h
  exact absurd h.1 (by decide)

/-- C1: after a successful `SaveClaim(c)` for a modifying `c`, the
persisted installation carries `Status.ClaimID = c.ID`,
`Status.Action = c.Action`, `Status.Revision = c.Revision` and cleared
`Status.ResultID`/`Status.ResultStatus`; after a successful
`SaveResult(r)` whose claim reference is modifying, the persisted
installation carries `Status.ResultID = r.ID` and
`Status.ResultStatus = r.Status`. -/
theorem C1_status_derivation (s : Store) (st : CrudState) (c : Claim)
    (r : Result) (rc : Claim) (i0 i1 : Installation)
    (hmod : c.modifiesInstallation = true)
    (hread : rawRead st.records ItemTypeInstallations
      (InstallationKey "" c.Installation) = .ok (.installation i0))
    (hrc : r.claim = some rc)
    (hrcmod : rc.modifiesInstallation = true)
    (hread2 : rawRead st.records ItemTypeInstallations
      (InstallationKey "" rc.Installation) = .ok (.installation i1)) :
    (s.SaveClaim st c).1 = .ok () ∧
    rawRead (s.SaveClaim st c).2.records ItemTypeInstallations
        (InstallationKey (i0.ApplyClaim c).Namespace (i0.ApplyClaim c).Name)
      = .ok (.installation (i0.ApplyClaim c)) ∧
    (i0.ApplyClaim c).Status.ClaimID = c.ID ∧
    (i0.ApplyClaim c).Status.Action = c.Action ∧
    (i0.ApplyClaim c).Status.Revision = c.Revision ∧
    (i0.ApplyClaim c).Status.ResultID = "" ∧
    (i0.ApplyClaim c).Status.ResultStatus = "" ∧
    (s.SaveResult st r).1 = .ok () ∧
    rawRead (s.SaveResult st r).2.records ItemTypeInstallations
        (InstallationKey (i1.ApplyResult r).Namespace (i1.ApplyResult r).Name)
      = .ok (.installation (i1.ApplyResult r)) ∧
    (i1.ApplyResult r).Status.ResultID = r.ID ∧
    (i1.ApplyResult r).Status.ResultStatus = r.Status := by
  have hne : ¬ (ItemTypeInstallations = ItemTypeClaims ∧
      InstallationKey "" c.Installation = c.ID) := by
    intro h
    exact absurd h.1 (by decide)
  have hne2 : ¬ (ItemTypeInstallations = ItemTypeResults ∧
      InstallationKey "" rc.Installation = r.ID) := by
    intro h
    exact absurd h.1 (by decide)
  have hstatus := (applyClaim_fields i0 c).2.2.2.2.2.2.2.1
  refine ⟨?_, ?_, by rw [hstatus], by rw [hstatus], by rw [hstatus],
    by rw [hstatus], by rw [hstatus], ?_, ?_, rfl, rfl⟩
  · rw [Store.SaveClaim, withConnection_fst]
    simp only [saveDocument, bsSave_fst, bsSave_records, hmod, if_true,
      Store.ReadInstallation, bsRead_fst, bsRead_records, handleConnect_records,
      rawRead_rawSave_other hne, hread]
    simp [Store.SaveInstallation, saveDocument]
  · rw [Store.SaveClaim, withConnection_records]
    simp only [saveDocument, bsSave_fst, bsSave_records, hmod, if_true,
      Store.ReadInstallation, bsRead_fst, bsRead_records, handleConnect_records,
      rawRead_rawSave_other hne, hread]
    simp only [Store.SaveInstallation, saveDocument, Bool.false_eq_true, if_false,
      bsSave_records]
    exact rawRead_rawSave_self _ _ _ _ _
  · rw [Store.SaveResult, withConnection_fst]
    simp only [saveDocument, bsSave_fst, bsSave_records, hrc, hrcmod, if_true,
      Store.ReadInstallation, bsRead_fst, bsRead_records, handleConnect_records,
      rawRead_rawSave_other hne2, hread2]
    simp [Store.SaveInstallation, saveDocument]
  · rw [Store.SaveResult, withConnection_records]
    simp only [saveDocument, bsSave_fst, bsSave_records, hrc, hrcmod, if_true,
      Store.ReadInstallation, bsRead_fst, bsRead_records, handleConnect_records,
      rawRead_rawSave_other hne2, hread2]
    simp only [Store.SaveInstallation, saveDocument, Bool.false_eq_true, if_false,
      bsSave_records]
    exact rawRead_rawSave_self _ _ _ _ _

/-- Witness for C1: an install claim and its succeeded result against a
stored `foo` installation. -/
theorem C1_status_derivation_witness :
    (sampleStore.SaveClaim
      ⟨[⟨ItemTypeInstallations, "", "foo", Data.installation sampleInstallation⟩], false, 0, 0⟩
      sampleClaim).1 = .ok () ∧
    (sampleInstallation.ApplyClaim sampleClaim).Status.ClaimID = "01C1" ∧
    (sampleInstallation.ApplyClaim sampleClaim).Status.ResultID = "" ∧
    (sampleStore.SaveResult
      ⟨[⟨ItemTypeInstallations, "", "foo", Data.installation sampleInstallation⟩], false, 0, 0⟩
      { sampleResult with claim := some sampleClaim }).1 = .ok () ∧
    (sampleInstallation.ApplyResult
      { sampleResult with claim := some sampleClaim }).Status.ResultStatus = "succeeded" := by
  have h := C1_status_derivation sampleStore
    ⟨[⟨ItemTypeInstallations, "", "foo", Data.installation sampleInstallation⟩], false, 0, 0⟩
    sampleClaim { sampleResult with claim := some sampleClaim } sampleClaim
    sampleInstallation sampleInstallation
    (by decide) rfl rfl (by decide) rfl
  exact ⟨h.1, h.2.2.1, h.2.2.2.2.2.1, h.2.2.2.2.2.2.2.1, h.2.2.2.2.2.2.2.2.2.2⟩

/-! ## C7: round-trip through the store -/

@[simp] theorem ReadInstallation_records (st : CrudState) (ns name : String) :
    (Store.ReadInstallation st ns name).2.records = st.records := by
  unfold Store.ReadInstallation
  cases h : rawRead st.records ItemTypeInstallations (InstallationKey ns name) with
  | error e => simp [h]
  | ok d => cases d <;> simp [h]

theorem saveClaim_records_claim (s : Store) (st : CrudState) (c : Claim) :
    rawRead (s.SaveClaim st c).2.records ItemTypeClaims c.ID
      = .ok (s.encrypt (.claim c)) := by
  rw [Store.SaveClaim, withConnection_records]
  simp only [saveDocument, bsSave_fst, bsSave_records]
  cases hm : c.modifiesInstallation with
  | false =>
    simp only [hm, Bool.false_eq_true, if_false, bsSave_records, handleConnect_records]
    exact rawRead_rawSave_self _ _ _ _ _
  | true =>
    simp only [hm, if_true]
    split
    · simp only [ReadInstallation_records, bsSave_records, handleConnect_records]
      exact rawRead_rawSave_self _ _ _ _ _
    · simp only [Store.SaveInstallation, saveDocument, Bool.false_eq_true, if_false,
        bsSave_records, ReadInstallation_records, handleConnect_records]
      rw [rawRead_rawSave_other (by intro h; exact absurd h.1 (by decide))]
      exact rawRead_rawSave_self _ _ _ _ _

theorem saveResult_records_result (s : Store) (st : CrudState) (r : Result) :
    rawRead (s.SaveResult st r).2.records ItemTypeResults r.ID = .ok r.marshal := by
  rw [Store.SaveResult, withConnection_records]
  simp only [saveDocument, bsSave_fst, bsSave_records]
  cases hc : r.claim with
  | none =>
    simp only [bsSave_records, handleConnect_records]
    exact rawRead_rawSave_self _ _ _ _ _
  | some c =>
    cases hm : c.modifiesInstallation with
    | false =>
      simp only [hm, Bool.false_eq_true, if_false, bsSave_records, handleConnect_records]
      exact rawRead_rawSave_self _ _ _ _ _
    | true =>
      simp only [hm, if_true]
      split
      · simp only [ReadInstallation_records, bsSave_records, handleConnect_records]
        exact rawRead_rawSave_self _ _ _ _ _
      · simp only [Store.SaveInstallation, saveDocument, Bool.false_eq_true, if_false,
          bsSave_records, ReadInstallation_records, handleConnect_records]
        rw [rawRead_rawSave_other (by intro h; exact absurd h.1 (by decide))]
        exact rawRead_rawSave_self _ _ _ _ _

/-- A claim whose action is observational (no custom action definition in
the bundle), so saving its result does not touch the installation. -/
def observationalClaim : Claim := { sampleClaim with Action := "status" }

/-- A result carrying the non-persisted claim handle. -/
def handleResult : Result := { sampleResult with claim := some observationalClaim }

/-- C7 counterexample: a `Result` whose non-persisted `claim` handle is
set is saved successfully, but reading it back drops the handle, so the
read value is not equal to the saved one. -/
theorem C7_roundtrip_counterexample :
    (NewClaimStore.SaveResult emptyState handleResult).1 = .ok () ∧
    (Store.ReadResult (NewClaimStore.SaveResult emptyState handleResult).2
        "01R1").1 = .ok { handleResult with claim := none } ∧
    ¬ ((Store.ReadResult (NewClaimStore.SaveResult emptyState handleResult).2
        "01R1").1 = .ok handleResult) := by
  have hread : (Store.ReadResult (NewClaimStore.SaveResult emptyState handleResult).2
      "01R1").1 = .ok { handleResult with claim := none } := by
    have h := saveResult_records_result NewClaimStore emptyState handleResult
    simp only [Store.ReadResult, bsRead_fst]
    rw [show "01R1" = handleResult.ID from rfl, h]
    rfl
  refine ⟨?_, hread, ?_⟩
  · rw [Store.SaveResult, withConnection_fst]
    simp only [saveDocument, bsSave_fst,
      show handleResult.claim = some observationalClaim from rfl,
      show observationalClaim.modifiesInstallation = false from by decide,
      Bool.false_eq_true, if_false]
  · intro hcontra
    rw [hread] at hcontra
    have heq : ({ handleResult with claim := none } : Result) = handleResult := by
      injection hcontra
    have hclaim := congrArg Result.claim heq
    simp only [show handleResult.claim = some observationalClaim from rfl] at hclaim
    cases hclaim

/-- C7 amended: for every encryption pair with `D ∘ E = id`, every entity
read back after a save equals the saved entity on all persisted fields —
installations and claims round-trip to equal values, a result rounds-trips
to itself with the non-persisted claim handle cleared (full equality when
the handle was unset), and an output's `Name` and `Value` round-trip. -/
theorem C7_roundtrip_amended (s : Store) (st : CrudState)
    (i : Installation) (c : Claim) (r : Result) (o : Output)
    (hDE : ∀ d, s.decrypt (s.encrypt d) = d)
    (ho : ¬ o.claim.ID = "") :
    (Store.ReadInstallation (s.SaveInstallation st i).2 i.Namespace i.Name).1
      = .ok i ∧
    (s.ReadClaim (s.SaveClaim st c).2 c.ID).1 = .ok c ∧
    (Store.ReadResult (s.SaveResult st r).2 r.ID).1
      = .ok { r with claim := none } ∧
    (r.claim = none → (Store.ReadResult (s.SaveResult st r).2 r.ID).1 = .ok r) ∧
    (s.ReadOutput (s.SaveOutput st o).2 o.claim o.result o.Name).1
      = .ok (NewOutput o.claim o.result o.Name o.Value) := by
  have hres : (Store.ReadResult (s.SaveResult st r).2 r.ID).1
      = .ok { r with claim := none } := by
    simp only [Store.ReadResult, bsRead_fst, saveResult_records_result]
    rfl
  refine ⟨?_, ?_, hres, ?_, ?_⟩
  · simp only [Store.ReadInstallation, bsRead_fst, Store.SaveInstallation,
      saveDocument, Bool.false_eq_true, if_false, bsSave_records,
      rawRead_rawSave_self]
  · simp only [Store.ReadClaim, bsRead_fst, saveClaim_records_claim, hDE]
  · intro hnone
    rw [hres, ← hnone]
  · simp only [Store.ReadOutput, bsRead_fst, Store.SaveOutput, if_neg ho,
      bsSave_records]
    rw [show o.GetGroup = o.result.ID from rfl, rawRead_rawSave_self]
    cases hsens : bundleMarksSensitive o.claim.Bundle o.Name with
    | false => simp [hsens]
    | true => simp [hsens, hDE]

/-- Witness for C7 amended: round-trips through the
`(Data.enc, unwrapEnc)` store. -/
theorem C7_roundtrip_amended_witness :
    (Store.ReadInstallation
        (sampleStore.SaveInstallation emptyState sampleInstallation).2 "" "foo").1
      = .ok sampleInstallation ∧
    (sampleStore.ReadClaim (sampleStore.SaveClaim emptyState sampleClaim).2
        "01C1").1 = .ok sampleClaim ∧
    (Store.ReadResult (sampleStore.SaveResult emptyState sampleResult).2
        "01R1").1 = .ok sampleResult ∧
    (sampleStore.ReadOutput
        (sampleStore.SaveOutput emptyState
          (NewOutput sampleClaim sampleResult "password" (Data.bytes [7]))).2
        (NewOutput sampleClaim sampleResult "password" (Data.bytes [7])).claim
        (NewOutput sampleClaim sampleResult "password" (Data.bytes [7])).result
        "password").1
      = .ok (NewOutput
          (NewOutput sampleClaim sampleResult "password" (Data.bytes [7])).claim
          (NewOutput sampleClaim sampleResult "password" (Data.bytes [7])).result
          "password" (Data.bytes [7])) := by
  have h := C7_roundtrip_amended sampleStore emptyState sampleInstallation
    sampleClaim sampleResult
    (NewOutput sampleClaim sampleResult "password" (Data.bytes [7]))
    (fun d => unwrapEnc_enc d) (by decide)
  exact ⟨h.1, h.2.1, h.2.2.2.1 rfl, h.2.2.2.2⟩

/-! ## Sorted-list and unique-key lemmas -/

/-- Well-formed backing store: no two records share a `(kind, key)`
address (every save path addresses records by kind and key, so any
reachable state satisfies this). -/
def WFKeys (recs : List Record) : Prop :=
  (recs.map (fun r => (r.itemType, r.key))).Nodup

instance (recs : List Record) : Decidable (WFKeys recs) := by
  unfold WFKeys
  infer_instance

theorem rawRead_of_mem {recs : List Record} {t k : String} {rec : Record}
    (hnd : WFKeys recs) (hmem : rec ∈ recs) (hk : rec.hasKey t k) :
    rawRead recs t k = .ok rec.value := by
  unfold rawRead
  induction recs with
  | nil => cases hmem
  | cons x xs ih =>
    rcases List.mem_cons.mp hmem with h1 | h1
    · subst h1
      simp [List.find?_cons, hk]
    · have hxk : ¬ x.hasKey t k := by
        intro hx
        have hpair : (x.itemType, x.key) ∈ xs.map (fun r => (r.itemType, r.key)) := by
          refine List.mem_map.mpr ⟨rec, h1, ?_⟩
          rw [hx.1, hx.2, hk.1, hk.2]
        exact (List.nodup_cons.mp hnd).1 hpair
      simp only [List.find?_cons, decide_eq_false hxk]
      exact ih (List.nodup_cons.mp hnd).2 h1

theorem sortStrings_sorted (l : List String) :
    List.Sorted StrLeP (sortStrings l) :=
  List.sorted_insertionSort StrLeP l

theorem sortStrings_perm (l : List String) : (sortStrings l).Perm l :=
  List.perm_insertionSort StrLeP l

theorem getLastD_mem_of_ne_nil {l : List String} (h : ¬ l = []) (d : String) :
    l.getLastD d ∈ l := by
  induction l generalizing d with
  | nil => exact absurd rfl h
  | cons x xs ih =>
    rw [List.getLastD_cons]
    cases hxs : xs with
    | nil => simp [hxs]
    | cons y ys =>
      have := ih (by simp [hxs]) x
      rw [hxs] at this
      exact List.mem_cons_of_mem x (hxs ▸ this)

theorem sorted_le_getLastD {l : List String} (hs : List.Sorted StrLeP l)
    {a : String} (ha : a ∈ l) (d : String) : StrLeP a (l.getLastD d) := by
  induction l generalizing d with
  | nil => cases ha
  | cons x xs ih =>
    rw [List.getLastD_cons]
    rcases List.mem_cons.mp ha with h1 | h1
    · subst h1
      cases hxs : xs with
      | nil => simp [hxs, StrLeP, strLe_refl]
      | cons y ys =>
        have hmem : xs.getLastD a ∈ xs := getLastD_mem_of_ne_nil (by simp [hxs]) a
        have hle : StrLeP a (xs.getLastD a) :=
          (List.pairwise_cons.mp hs).1 _ hmem
        cases hxs
        exact hle
    · exact ih (List.pairwise_cons.mp hs).2 h1 x

theorem mem_sortStrings {l : List String} {a : String} :
    a ∈ sortStrings l ↔ a ∈ l :=
  (sortStrings_perm l).mem_iff

theorem sortStrings_getLastD_mem {l : List String} (h : ¬ l = []) (d : String) :
    (sortStrings l).getLastD d ∈ l := by
  have hne : ¬ sortStrings l = [] := by
    intro hc
    have hp := sortStrings_perm l
    rw [hc] at hp
    exact h hp.symm.eq_nil
  exact mem_sortStrings.mp (getLastD_mem_of_ne_nil hne d)

theorem sortStrings_le_getLastD {l : List String} {a : String} (ha : a ∈ l)
    (d : String) : StrLeP a ((sortStrings l).getLastD d) :=
  sorted_le_getLastD (sortStrings_sorted l) (mem_sortStrings.mpr ha) d

/-! ## C4: ReadLastClaim and ReadLastResult return the greatest id -/

/-- C4: with claim records present, `ReadLastClaim` returns the stored
claim whose ID is the lexicographic maximum of the installation's claim
keys, and `InstallationNotFound` when there are none; with result records
present, `ReadLastResult` returns the stored result whose ID is the
lexicographic maximum of the claim's result keys, and an error (the
typed conversion of the backing "not found") when there are none. -/
theorem C4_monotone_last (s : Store) (st : CrudState)
    (installation claimID : String)
    (hDE : ∀ d, s.decrypt (s.encrypt d) = d)
    (hnd : WFKeys st.records) :
    ((∀ rec ∈ st.records, rec.inGroup ItemTypeClaims installation →
        ∃ cc, rec.value = s.encrypt (.claim cc) ∧ rec.key = cc.ID) →
      (∃ rec ∈ st.records, rec.inGroup ItemTypeClaims installation) →
      ∃ c, (s.ReadLastClaim st installation).1 = .ok c ∧
        (∃ rec ∈ st.records, rec.inGroup ItemTypeClaims installation ∧
          rec.key = c.ID ∧ rec.value = s.encrypt (.claim c)) ∧
        (∀ rec ∈ st.records, rec.inGroup ItemTypeClaims installation →
          StrLeP rec.key c.ID)) ∧
    ((∀ rec ∈ st.records, ¬ rec.inGroup ItemTypeClaims installation) →
      (s.ReadLastClaim st installation).1 = .error .installationNotFound) ∧
    ((∀ rec ∈ st.records, rec.inGroup ItemTypeResults claimID →
        ∃ rr, rec.value = .result rr ∧ rec.key = rr.ID) →
      (∃ rec ∈ st.records, rec.inGroup ItemTypeResults claimID) →
      ∃ r, (Store.ReadLastResult st claimID).1 = .ok r ∧
        (∃ rec ∈ st.records, rec.inGroup ItemTypeResults claimID ∧
          rec.key = r.ID ∧ rec.value = .result r) ∧
        (∀ rec ∈ st.records, rec.inGroup ItemTypeResults claimID →
          StrLeP rec.key r.ID)) ∧
    ((∀ rec ∈ st.records, ¬ rec.inGroup ItemTypeResults claimID) →
      (Store.ReadLastResult st claimID).1 = .error .claimNotFound) := by
  refine ⟨?_, ?_, ?_, ?_⟩
  · intro hshape hne
    have hfne : ¬ st.records.filter
        (fun r => decide (r.inGroup ItemTypeClaims installation)) = [] := by
      intro hc
      rcases hne with ⟨rec, hmem, hgrp⟩
      have := List.filter_eq_nil_iff.mp hc rec hmem
      simp [hgrp] at this
    cases hfl : st.records.filter
        (fun r => decide (r.inGroup ItemTypeClaims installation)) with
    | nil => exact absurd hfl hfne
    | cons x xs =>
      have hlist : rawList st.records ItemTypeClaims installation
          = .ok ((x :: xs).map Record.key) := by
        unfold rawList
        rw [hfl]
      have hkeysne : ¬ ((x :: xs).map Record.key) = [] := by simp
      have hkmax := sortStrings_getLastD_mem hkeysne ""
      rcases List.mem_map.mp hkmax with ⟨recm, hrecm, hreck⟩
      rw [← hfl] at hrecm
      have hrecmem := (List.mem_filter.mp hrecm).1
      have hrecgrp : recm.inGroup ItemTypeClaims installation := by
        have := (List.mem_filter.mp hrecm).2
        exact of_decide_eq_true this
      rcases hshape recm hrecmem hrecgrp with ⟨cc, hval, hkey⟩
      refine ⟨cc, ?_, ⟨recm, hrecmem, hrecgrp, hkey, hval⟩, ?_⟩
      · rw [Store.ReadLastClaim, withConnection_fst]
        simp only [bsList_fst, handleConnect_records, hlist, List.map_cons,
          List.isEmpty_cons, Bool.false_eq_true, if_false]
        rw [← List.map_cons]
        simp only [Store.ReadClaim, bsRead_fst, bsList_records,
          handleConnect_records]
        rw [← hreck]
        simp only [rawRead_of_mem hnd hrecmem ⟨hrecgrp.1, rfl⟩, hval, hDE]
      · intro rec hmem hgrp
        have hkmem : rec.key ∈ (x :: xs).map Record.key := by
          refine List.mem_map.mpr ⟨rec, ?_, rfl⟩
          rw [← hfl]
          exact List.mem_filter.mpr ⟨hmem, decide_eq_true hgrp⟩
        have := sortStrings_le_getLastD hkmem ""
        rw [← hreck, hkey] at this
        exact this
  · intro hnone
    rw [Store.ReadLastClaim, withConnection_fst]
    simp only [bsList_fst, handleConnect_records, rawList_of_empty hnone]
    rfl
  · intro hshape hne
    have hfne : ¬ st.records.filter
        (fun r => decide (r.inGroup ItemTypeResults claimID)) = [] := by
      intro hc
      rcases hne with ⟨rec, hmem, hgrp⟩
      have := List.filter_eq_nil_iff.mp hc rec hmem
      simp [hgrp] at this
    cases hfl : st.records.filter
        (fun r => decide (r.inGroup ItemTypeResults claimID)) with
    | nil => exact absurd hfl hfne
    | cons x xs =>
      have hlist : rawList st.records ItemTypeResults claimID
          = .ok ((x :: xs).map Record.key) := by
        unfold rawList
        rw [hfl]
      have hkeysne : ¬ ((x :: xs).map Record.key) = [] := by simp
      have hkmax := sortStrings_getLastD_mem hkeysne ""
      rcases List.mem_map.mp hkmax with ⟨recm, hrecm, hreck⟩
      rw [← hfl] at hrecm
      have hrecmem := (List.mem_filter.mp hrecm).1
      have hrecgrp : recm.inGroup ItemTypeResults claimID := by
        have := (List.mem_filter.mp hrecm).2
        exact of_decide_eq_true this
      rcases hshape recm hrecmem hrecgrp with ⟨rr, hval, hkey⟩
      refine ⟨rr, ?_, ⟨recm, hrecmem, hrecgrp, hkey, hval⟩, ?_⟩
      · rw [Store.ReadLastResult, withConnection_fst]
        simp only [bsList_fst, handleConnect_records, hlist, List.map_cons,
          List.isEmpty_cons, Bool.false_eq_true, if_false]
        rw [← List.map_cons]
        simp only [Store.ReadResult, bsRead_fst, bsList_records,
          handleConnect_records]
        rw [← hreck]
        simp only [rawRead_of_mem hnd hrecmem ⟨hrecgrp.1, rfl⟩, hval]
      · intro rec hmem hgrp
        have hkmem : rec.key ∈ (x :: xs).map Record.key := by
          refine List.mem_map.mpr ⟨rec, ?_, rfl⟩
          rw [← hfl]
          exact List.mem_filter.mpr ⟨hmem, decide_eq_true hgrp⟩
        have := sortStrings_le_getLastD hkmem ""
        rw [← hreck, hkey] at this
        exact this
  · intro hnone
    rw [Store.ReadLastResult, withConnection_fst]
    simp only [bsList_fst, handleConnect_records, rawList_of_empty hnone]
    rfl

/-- Claims and results for the C4 witness state. -/
def claimA : Claim := { sampleClaim with ID := "01A" }

def claimB : Claim := { sampleClaim with ID := "01B", Action := ActionUpgrade }

def resultR1 : Result :=
  { sampleResult with ID := "01R1", ClaimID := "01B", Status := StatusRunning }

def resultR2 : Result := { sampleResult with ID := "01R2", ClaimID := "01B" }

/-- A backing state with two claims of `foo` and two results of the
second claim. -/
def lastState : CrudState :=
  ⟨[⟨ItemTypeClaims, "foo", "01A", .enc (.claim claimA)⟩,
    ⟨ItemTypeClaims, "foo", "01B", .enc (.claim claimB)⟩,
    ⟨ItemTypeResults, "01B", "01R1", .result resultR1⟩,
    ⟨ItemTypeResults, "01B", "01R2", .result resultR2⟩], false, 0, 0⟩

/-- Witness for C4: the greatest claim id `01B` and the greatest result
id `01R2` win. -/
theorem C4_monotone_last_witness :
    (sampleStore.ReadLastClaim lastState "foo").1 = .ok claimB ∧
    (Store.ReadLastResult lastState "01B").1 = .ok resultR2 := by
  have h := C4_monotone_last sampleStore lastState "foo" "01B"
    (fun d => unwrapEnc_enc d) (by decide)
  have hshape1 : ∀ rec ∈ lastState.records,
      rec.inGroup ItemTypeClaims "foo" →
      ∃ cc, rec.value = sampleStore.encrypt (.claim cc) ∧ rec.key = cc.ID := by
    intro rec hrec hgrp
    simp only [lastState, List.mem_cons, List.not_mem_nil, or_false] at hrec
    rcases hrec with rfl | rfl | rfl | rfl
    · exact ⟨claimA, rfl, rfl⟩
    · exact ⟨claimB, rfl, rfl⟩
    · exact absurd hgrp.1 (by decide)
    · exact absurd hgrp.1 (by decide)
  have hshape2 : ∀ rec ∈ lastState.records,
      rec.inGroup ItemTypeResults "01B" →
      ∃ rr, rec.value = .result rr ∧ rec.key = rr.ID := by
    intro rec hrec hgrp
    simp only [lastState, List.mem_cons, List.not_mem_nil, or_false] at hrec
    rcases hrec with rfl | rfl | rfl | rfl
    · exact absurd hgrp.1 (by decide)
    · exact absurd hgrp.1 (by decide)
    · exact ⟨resultR1, rfl, rfl⟩
    · exact ⟨resultR2, rfl, rfl⟩
  have hne1 : ∃ rec ∈ lastState.records, rec.inGroup ItemTypeClaims "foo" :=
    ⟨⟨ItemTypeClaims, "foo", "01A", .enc (.claim claimA)⟩, by simp [lastState],
      ⟨rfl, rfl⟩⟩
  have hne2 : ∃ rec ∈ lastState.records, rec.inGroup ItemTypeResults "01B" :=
    ⟨⟨ItemTypeResults, "01B", "01R1", .result resultR1⟩, by simp [lastState],
      ⟨rfl, rfl⟩⟩
  constructor
  · rcases h.1 hshape1 hne1 with ⟨c, hc, ⟨recm, hm, hg, hk, hv⟩, hmax⟩
    simp only [lastState, List.mem_cons, List.not_mem_nil, or_false] at hm
    rcases hm with rfl | rfl | rfl | rfl
    · have hb := hmax ⟨ItemTypeClaims, "foo", "01B", .enc (.claim claimB)⟩
        (by simp [lastState]) ⟨rfl, rfl⟩
      rw [← hk] at hb
      exact absurd hb (by decide)
    · have : claimB = c := by
        have hv2 : Data.enc (.claim claimB) = Data.enc (.claim c) := hv
        injection hv2 with hv3
        injection hv3
      rw [← this] at hc
      exact hc
    · exact absurd hg.1 (by decide)
    · exact absurd hg.1 (by decide)
  · rcases h.2.2.1 hshape2 hne2 with ⟨r, hr, ⟨recm, hm, hg, hk, hv⟩, hmax⟩
    simp only [lastState, List.mem_cons, List.not_mem_nil, or_false] at hm
    rcases hm with rfl | rfl | rfl | rfl
    · exact absurd hg.1 (by decide)
    · exact absurd hg.1 (by decide)
    · have hb := hmax ⟨ItemTypeResults, "01B", "01R2", .result resultR2⟩
        (by simp [lastState]) ⟨rfl, rfl⟩
      rw [← hk] at hb
      exact absurd hb (by decide)
    · have : resultR2 = r := by
        have hv2 : Data.result resultR2 = Data.result r := hv
        injection hv2
      rw [← this] at hr
      exact hr

/-! ## C5: cascading delete — key and group utilities -/

theorem strApp_cancel_left {a b c : String} (h : a ++ b = a ++ c) : b = c := by
  have hd := congrArg String.data h
  simp only [String.data_append] at hd
  have := List.append_cancel_left hd
  cases b
  cases c
  exact congrArg String.mk this

theorem outputKey_inj {rid n1 n2 : String}
    (h : Store.outputKey rid n1 = Store.outputKey rid n2) : n1 = n2 := by
  unfold Store.outputKey at h
  exact strApp_cancel_left (strApp_cancel_left
    ((String.append_assoc rid "-" n1).symm.trans
      (h.trans (String.append_assoc rid "-" n2))))

theorem trimPfx_append (pfx rest : String) : trimPfx (pfx ++ rest) pfx = rest := by
  unfold trimPfx
  have hpre : pfx.data.isPrefixOf (pfx ++ rest).data = true := by
    rw [String.data_append]
    exact List.isPrefixOf_iff_prefix.mpr (List.prefix_append _ _)
  rw [if_pos hpre, String.data_append, List.drop_left]

theorem trimPfx_outputKey (rid nm : String) :
    trimPfx (Store.outputKey rid nm) (rid ++ "-") = nm := by
  have : Store.outputKey rid nm = (rid ++ "-") ++ nm := by
    unfold Store.outputKey
    rw [String.append_assoc]
  rw [this, trimPfx_append]

/-- The keys of a `(kind, group)` bucket. -/
def groupKeys (recs : List Record) (t g : String) : List String :=
  (recs.filter (fun r => decide (r.inGroup t g))).map Record.key

theorem rawList_eq_groupKeys {recs : List Record} {t g : String}
    (h : ¬ recs.filter (fun r => decide (r.inGroup t g)) = []) :
    rawList recs t g = .ok (groupKeys recs t g) := by
  unfold rawList groupKeys
  cases hfl : recs.filter (fun r => decide (r.inGroup t g)) with
  | nil => exact absurd hfl h
  | cons x xs => rfl

theorem mem_groupKeys {recs : List Record} {t g k : String} :
    k ∈ groupKeys recs t g ↔ ∃ rec ∈ recs, rec.inGroup t g ∧ rec.key = k := by
  unfold groupKeys
  constructor
  · intro hk
    rcases List.mem_map.mp hk with ⟨rec, hmem, hkey⟩
    have hm := List.mem_filter.mp hmem
    exact ⟨rec, hm.1, of_decide_eq_true hm.2, hkey⟩
  · intro ⟨rec, hmem, hgrp, hkey⟩
    exact List.mem_map.mpr ⟨rec, List.mem_filter.mpr ⟨hmem, decide_eq_true hgrp⟩, hkey⟩

theorem groupKeys_nodup {recs : List Record} (hnd : WFKeys recs) (t g : String) :
    (groupKeys recs t g).Nodup := by
  unfold groupKeys
  have hsub : List.Sublist ((recs.filter (fun r => decide (r.inGroup t g))).map
      (fun r => (r.itemType, r.key))) (recs.map (fun r => (r.itemType, r.key))) :=
    (List.filter_sublist recs).map _
  have hp : ((recs.filter (fun r => decide (r.inGroup t g))).map
      (fun r => (r.itemType, r.key))).Nodup := hnd.sublist hsub
  have hlnd : (recs.filter (fun r => decide (r.inGroup t g))).Nodup :=
    hp.of_map _
  refine hlnd.map_on ?_
  intro x hx y hy hkey
  have hinj := List.inj_on_of_nodup_map hp
  have hxg : x.itemType = t := (of_decide_eq_true (List.mem_filter.mp hx).2).1
  have hyg : y.itemType = t := (of_decide_eq_true (List.mem_filter.mp hy).2).1
  exact hinj hx hy (by rw [Prod.mk.injEq]; exact ⟨hxg.trans hyg.symm, hkey⟩)

theorem WFKeys_filter {recs : List Record} (hnd : WFKeys recs)
    (p : Record → Bool) : WFKeys (recs.filter p) :=
  List.Nodup.sublist ((List.filter_sublist recs).map _) hnd

/-- In a well-formed store, any two records sharing a `(kind, key)`
address are the same record. -/
theorem WFKeys_unique {recs : List Record} (hnd : WFKeys recs)
    {r1 r2 : Record} (h1 : r1 ∈ recs) (h2 : r2 ∈ recs)
    (ht : r1.itemType = r2.itemType) (hk : r1.key = r2.key) : r1 = r2 :=
  List.inj_on_of_nodup_map hnd h1 h2 (by rw [Prod.mk.injEq]; exact ⟨ht, hk⟩)

/-! ## C5: delete-path specifications -/

theorem DeleteOutput_spec (st : CrudState) (rid name : String)
    (hex : ∃ rec ∈ st.records, rec.hasKey ItemTypeOutputs (Store.outputKey rid name)) :
    (Store.DeleteOutput st rid name).1 = .ok () ∧
    (Store.DeleteOutput st rid name).2.records =
      st.records.filter (fun r => ¬ r.hasKey ItemTypeOutputs (Store.outputKey rid name)) := by
  rcases hex with ⟨rec, hmem, hk⟩
  have hany : st.records.any
      (fun r => decide (r.hasKey ItemTypeOutputs (Store.outputKey rid name))) = true :=
    List.any_eq_true.mpr ⟨rec, hmem, decide_eq_true hk⟩
  have hdel : rawDelete st.records ItemTypeOutputs (Store.outputKey rid name) =
      (.ok (), st.records.filter
        (fun r => ¬ r.hasKey ItemTypeOutputs (Store.outputKey rid name))) := by
    unfold rawDelete
    rw [if_pos hany]
  constructor
  · simp only [Store.DeleteOutput, bsDelete_fst, hdel]
  · simp only [Store.DeleteOutput, bsDelete_fst, bsDelete_records, hdel]

theorem deleteEach_outputs_spec (rid : String) (ns : List String)
    (st : CrudState) (hnodup : ns.Nodup)
    (hex : ∀ n ∈ ns, ∃ rec ∈ st.records,
      rec.hasKey ItemTypeOutputs (Store.outputKey rid n)) :
    (deleteEach (fun s n => Store.DeleteOutput s rid n) st ns).1 = .ok () ∧
    (deleteEach (fun s n => Store.DeleteOutput s rid n) st ns).2.records =
      st.records.filter
        (fun r => ¬ ∃ n ∈ ns, r.hasKey ItemTypeOutputs (Store.outputKey rid n)) := by
  induction ns generalizing st with
  | nil =>
    refine ⟨rfl, ?_⟩
    simp [deleteEach]
  | cons n0 ns ih =>
    obtain ⟨h1, h2⟩ := DeleteOutput_spec st rid n0 (hex n0 (List.mem_cons_self n0 ns))
    have hex2 : ∀ n ∈ ns, ∃ rec ∈ (Store.DeleteOutput st rid n0).2.records,
        rec.hasKey ItemTypeOutputs (Store.outputKey rid n) := by
      intro n hn
      rcases hex n (List.mem_cons_of_mem n0 hn) with ⟨rec, hmem, hk⟩
      refine ⟨rec, ?_, hk⟩
      rw [h2]
      refine List.mem_filter.mpr ⟨hmem, ?_⟩
      simp only [decide_eq_true_eq]
      intro hk0
      exact (List.nodup_cons.mp hnodup).1
        (outputKey_inj (hk.2.symm.trans hk0.2) ▸ hn)
    obtain ⟨ih1, ih2⟩ := ih (Store.DeleteOutput st rid n0).2
      (List.nodup_cons.mp hnodup).2 hex2
    constructor
    · simp only [deleteEach, h1]
      exact ih1
    · simp only [deleteEach, h1]
      rw [ih2, h2, List.filter_filter]
      refine List.filter_congr ?_
      intro r hr
      have hiff : (∃ n ∈ n0 :: ns, r.hasKey ItemTypeOutputs (Store.outputKey rid n))
          ↔ (r.hasKey ItemTypeOutputs (Store.outputKey rid n0) ∨
            ∃ n ∈ ns, r.hasKey ItemTypeOutputs (Store.outputKey rid n)) := by
        constructor
        · rintro ⟨n, hn, hk⟩
          rcases List.mem_cons.mp hn with h0 | h0
          · exact Or.inl (h0 ▸ hk)
          · exact Or.inr ⟨n, h0, hk⟩
        · rintro (hk | ⟨n, hn, hk⟩)
          · exact ⟨n0, List.mem_cons_self n0 ns, hk⟩
          · exact ⟨n, List.mem_cons_of_mem n0 hn, hk⟩
      by_cases hB : r.hasKey ItemTypeOutputs (Store.outputKey rid n0)
      · simp [hB, hiff]
      · by_cases hA : ∃ n ∈ ns, r.hasKey ItemTypeOutputs (Store.outputKey rid n)
        · simp [hA, hB, hiff]
        · simp [hA, hB, hiff]

@[simp] theorem ListOutputs_records (st : CrudState) (resultID : String) :
    (Store.ListOutputs st resultID).2.records = st.records := by
  unfold Store.ListOutputs
  cases h : rawList st.records ItemTypeOutputs resultID with
  | error e => cases e <;> simp [h]
  | ok l => simp [h]

@[simp] theorem ListResults_records (st : CrudState) (claimID : String) :
    (Store.ListResults st claimID).2.records = st.records := by
  unfold Store.ListResults
  cases h : rawList st.records ItemTypeResults claimID with
  | error e => cases e <;> simp [h]
  | ok l => simp [h]

@[simp] theorem ListClaims_records (st : CrudState) (installation : String) :
    (Store.ListClaims st installation).2.records = st.records := by
  unfold Store.ListClaims
  cases h : rawList st.records ItemTypeClaims installation with
  | error e => simp [h]
  | ok l =>
    cases l with
    | nil => simp [h]
    | cons x xs => simp [h]

theorem DeleteResult_spec (st : CrudState) (rid : String)
    (hnd : WFKeys st.records)
    (hshape : ∀ rec ∈ st.records, rec.itemType = ItemTypeOutputs →
      ∃ nm, rec.key = rec.group ++ "-" ++ nm)
    (hres : ∃ rec ∈ st.records, rec.hasKey ItemTypeResults rid) :
    (Store.DeleteResult st rid).1 = .ok () ∧
    (Store.DeleteResult st rid).2.records =
      st.records.filter (fun r =>
        ¬ (r.inGroup ItemTypeOutputs rid ∨ r.hasKey ItemTypeResults rid)) := by
  have hresany : ∀ recs2 : List Record,
      (∃ rec ∈ recs2, rec.hasKey ItemTypeResults rid) →
      rawDelete recs2 ItemTypeResults rid =
        (.ok (), recs2.filter (fun r => ¬ r.hasKey ItemTypeResults rid)) := by
    intro recs2 ⟨rec, hmem, hk⟩
    unfold rawDelete
    rw [if_pos (List.any_eq_true.mpr ⟨rec, hmem, decide_eq_true hk⟩)]
  rw [Store.DeleteResult, withConnection_fst, withConnection_records]
  by_cases hA : st.records.filter (fun r => decide (r.inGroup ItemTypeOutputs rid)) = []
  · have hnone : ∀ rec ∈ st.records, ¬ rec.inGroup ItemTypeOutputs rid := by
      intro rec hmem hgrp
      have := List.filter_eq_nil_iff.mp hA rec hmem
      simp [hgrp] at this
    have hlo : rawList st.records ItemTypeOutputs rid = .error .recordDoesNotExist :=
      rawList_of_empty hnone
    have hra := hresany st.records hres
    have hd1 : (rawDelete st.records ItemTypeResults rid).1 = .ok () := by rw [hra]
    have hd2 : (rawDelete st.records ItemTypeResults rid).2 =
        st.records.filter (fun r => ¬ r.hasKey ItemTypeResults rid) := by rw [hra]
    simp only [Store.ListOutputs, bsList_fst, bsList_records, handleConnect_records, hlo,
      deleteEach, ListOutputs_records, bsDelete_fst, bsDelete_records, hd1, hd2]
    refine ⟨trivial, ?_⟩
    refine (List.filter_congr ?_).symm
    intro r hr
    have := hnone r hr
    simp [this]
  · have hfkeys := groupKeys_nodup hnd ItemTypeOutputs rid
    have hstrip : ∀ k ∈ groupKeys st.records ItemTypeOutputs rid,
        Store.outputKey rid (trimPfx k (rid ++ "-")) = k := by
      intro k hk
      rcases mem_groupKeys.mp hk with ⟨rec, hmem, hgrp, hkey⟩
      rcases hshape rec hmem hgrp.1 with ⟨nm, hnm⟩
      have hkeq : k = Store.outputKey rid nm := by
        rw [← hkey, hnm, hgrp.2]
        rfl
      rw [hkeq, trimPfx_outputKey]
    have hnames : (groupKeys st.records ItemTypeOutputs rid).map
        (fun n => trimPfx n (rid ++ "-")) |>.Nodup := by
      refine hfkeys.map_on ?_
      intro x hx y hy hxy
      have := hstrip x hx
      rw [← this, hxy, hstrip y hy]
    have hlo : rawList st.records ItemTypeOutputs rid
        = .ok (groupKeys st.records ItemTypeOutputs rid) :=
      rawList_eq_groupKeys hA
    have hsortnd : (sortStrings ((groupKeys st.records ItemTypeOutputs rid).map
        (fun n => trimPfx n (rid ++ "-")))).Nodup :=
      (sortStrings_perm _).nodup_iff.mpr hnames
    have hex : ∀ n ∈ sortStrings ((groupKeys st.records ItemTypeOutputs rid).map
        (fun n => trimPfx n (rid ++ "-"))),
        ∃ rec ∈ st.records, rec.hasKey ItemTypeOutputs (Store.outputKey rid n) := by
      intro n hn
      rcases List.mem_map.mp (mem_sortStrings.mp hn) with ⟨k, hk, hstripk⟩
      rcases mem_groupKeys.mp hk with ⟨rec, hmem, hgrp, hkey⟩
      refine ⟨rec, hmem, hgrp.1, ?_⟩
      rw [← hstripk, hstrip k hk, hkey]
    simp only [Store.ListOutputs, bsList_fst, bsList_records, handleConnect_records, hlo,
      ListOutputs_records]
    set stq := (deleteEach (fun s n => Store.DeleteOutput s rid n)
      ((bsList (handleConnect st).2 ItemTypeOutputs rid).2)
      (sortStrings ((groupKeys st.records ItemTypeOutputs rid).map
        (fun n => trimPfx n (rid ++ "-"))))).2 with hstq
    obtain ⟨hde1, hde2⟩ := deleteEach_outputs_spec rid
      (sortStrings ((groupKeys st.records ItemTypeOutputs rid).map
        (fun n => trimPfx n (rid ++ "-"))))
      ((bsList (handleConnect st).2 ItemTypeOutputs rid).2) hsortnd
      (by
        intro n hn
        rcases hex n hn with ⟨rec, hmem, hk⟩
        refine ⟨rec, ?_, hk⟩
        simp only [bsList_records, handleConnect_records]
        exact hmem)
    rw [← hstq] at hde2
    simp only [bsList_records, handleConnect_records] at hde2
    have hrq : ∃ rec ∈ stq.records, rec.hasKey ItemTypeResults rid := by
      rcases hres with ⟨rec, hmem, hk⟩
      refine ⟨rec, ?_, hk⟩
      rw [hde2]
      refine List.mem_filter.mpr ⟨hmem, ?_⟩
      simp only [decide_eq_true_eq]
      intro ⟨n, hn, hkk⟩
      have : rec.itemType = ItemTypeOutputs := hkk.1
      rw [hk.1] at this
      exact absurd this (by decide)
    have hra := hresany stq.records hrq
    have hd1 : (rawDelete stq.records ItemTypeResults rid).1 = .ok () := by rw [hra]
    have hd2 : (rawDelete stq.records ItemTypeResults rid).2 =
        stq.records.filter (fun r => ¬ r.hasKey ItemTypeResults rid) := by rw [hra]
    simp only [hde1, bsDelete_fst, bsDelete_records, hd1, hd2]
    refine ⟨trivial, ?_⟩
    rw [hde2, List.filter_filter]
    refine (List.filter_congr ?_).symm
    intro r hr
    have hcov : (∃ n ∈ sortStrings ((groupKeys st.records ItemTypeOutputs rid).map
        (fun n => trimPfx n (rid ++ "-"))),
        r.hasKey ItemTypeOutputs (Store.outputKey rid n)) ↔
        r.inGroup ItemTypeOutputs rid := by
      constructor
      · rintro ⟨n, hn, hk⟩
        rcases hex n hn with ⟨rec, hmem, hkrec⟩
        have : r = rec := WFKeys_unique hnd hr hmem
          (hk.1.trans hkrec.1.symm) (hk.2.trans hkrec.2.symm)
        subst this
        rcases List.mem_map.mp (mem_sortStrings.mp hn) with ⟨k, hkgk, hstripk⟩
        rcases mem_groupKeys.mp hkgk with ⟨rec2, hmem2, hgrp2, hkey2⟩
        have : r = rec2 := WFKeys_unique hnd hr hmem2
          (hk.1.trans hgrp2.1.symm)
          (by rw [hk.2, ← hstripk, hstrip k hkgk, hkey2])
        subst this
        exact hgrp2
      · intro hgrp
        have hkgk : r.key ∈ groupKeys st.records ItemTypeOutputs rid :=
          mem_groupKeys.mpr ⟨r, hr, hgrp, rfl⟩
        refine ⟨trimPfx r.key (rid ++ "-"), ?_, ?_⟩
        · exact mem_sortStrings.mpr (List.mem_map.mpr ⟨r.key, hkgk, rfl⟩)
        · rw [hstrip r.key hkgk]
          exact ⟨hgrp.1, rfl⟩
    by_cases hB : r.hasKey ItemTypeResults rid
    · simp [hB]
    · by_cases hC : r.inGroup ItemTypeOutputs rid
      · simp [hB, hC, hcov]
      · simp [hB, hC, hcov]

theorem deleteEach_results_spec (rids : List String) (st : CrudState)
    (hnd : WFKeys st.records)
    (hshape : ∀ rec ∈ st.records, rec.itemType = ItemTypeOutputs →
      ∃ nm, rec.key = rec.group ++ "-" ++ nm)
    (hnodup : rids.Nodup)
    (hex : ∀ rid ∈ rids, ∃ rec ∈ st.records, rec.hasKey ItemTypeResults rid) :
    (deleteEach Store.DeleteResult st rids).1 = .ok () ∧
    (deleteEach Store.DeleteResult st rids).2.records =
      st.records.filter (fun r =>
        ¬ ∃ rid ∈ rids, (r.inGroup ItemTypeOutputs rid ∨ r.hasKey ItemTypeResults rid)) := by
  induction rids generalizing st with
  | nil =>
    refine ⟨rfl, ?_⟩
    simp [deleteEach]
  | cons rid0 rids ih =>
    obtain ⟨h1, h2⟩ := DeleteResult_spec st rid0 hnd hshape
      (hex rid0 (List.mem_cons_self rid0 rids))
    have hnd2 : WFKeys (Store.DeleteResult st rid0).2.records := by
      rw [h2]
      exact WFKeys_filter hnd _
    have hshape2 : ∀ rec ∈ (Store.DeleteResult st rid0).2.records,
        rec.itemType = ItemTypeOutputs → ∃ nm, rec.key = rec.group ++ "-" ++ nm := by
      intro rec hmem
      rw [h2] at hmem
      exact hshape rec (List.mem_filter.mp hmem).1
    have hex2 : ∀ rid ∈ rids, ∃ rec ∈ (Store.DeleteResult st rid0).2.records,
        rec.hasKey ItemTypeResults rid := by
      intro rid hrid
      rcases hex rid (List.mem_cons_of_mem rid0 hrid) with ⟨rec, hmem, hk⟩
      refine ⟨rec, ?_, hk⟩
      rw [h2]
      refine List.mem_filter.mpr ⟨hmem, ?_⟩
      simp only [decide_eq_true_eq]
      rintro (hg | hkk)
      · have := hg.1
        rw [hk.1] at this
        exact absurd this (by decide)
      · exact (List.nodup_cons.mp hnodup).1 ((hk.2.symm.trans hkk.2) ▸ hrid)
    obtain ⟨ih1, ih2⟩ := ih (Store.DeleteResult st rid0).2 hnd2 hshape2
      (List.nodup_cons.mp hnodup).2 hex2
    constructor
    · simp only [deleteEach, h1]
      exact ih1
    · simp only [deleteEach, h1]
      rw [ih2, h2, List.filter_filter]
      refine List.filter_congr ?_
      intro r hr
      have hiff : (∃ rid ∈ rid0 :: rids,
          (r.inGroup ItemTypeOutputs rid ∨ r.hasKey ItemTypeResults rid))
          ↔ ((r.inGroup ItemTypeOutputs rid0 ∨ r.hasKey ItemTypeResults rid0) ∨
            ∃ rid ∈ rids, (r.inGroup ItemTypeOutputs rid ∨ r.hasKey ItemTypeResults rid)) := by
        constructor
        · rintro ⟨rid, hrid, hk⟩
          rcases List.mem_cons.mp hrid with h0 | h0
          · exact Or.inl (h0 ▸ hk)
          · exact Or.inr ⟨rid, h0, hk⟩
        · rintro (hk | ⟨rid, hrid, hk⟩)
          · exact ⟨rid0, List.mem_cons_self rid0 rids, hk⟩
          · exact ⟨rid, List.mem_cons_of_mem rid0 hrid, hk⟩
      by_cases hB : r.inGroup ItemTypeOutputs rid0 ∨ r.hasKey ItemTypeResults rid0
      · simp [hB, hiff]
      · by_cases hC : ∃ rid ∈ rids,
            (r.inGroup ItemTypeOutputs rid ∨ r.hasKey ItemTypeResults rid)
        · simp [hB, hC, hiff]
        · simp [hB, hC, hiff]

theorem DeleteClaim_spec (st : CrudState) (cid : String)
    (hnd : WFKeys st.records)
    (hshape : ∀ rec ∈ st.records, rec.itemType = ItemTypeOutputs →
      ∃ nm, rec.key = rec.group ++ "-" ++ nm)
    (hclaim : ∃ rec ∈ st.records, rec.hasKey ItemTypeClaims cid) :
    (Store.DeleteClaim st cid).1 = .ok () ∧
    (Store.DeleteClaim st cid).2.records =
      st.records.filter (fun r =>
        ¬ (r.hasKey ItemTypeClaims cid ∨ r.inGroup ItemTypeResults cid ∨
          (r.itemType = ItemTypeOutputs ∧
            ∃ rr ∈ st.records, rr.inGroup ItemTypeResults cid ∧ r.group = rr.key))) := by
  have hcany : ∀ recs2 : List Record,
      (∃ rec ∈ recs2, rec.hasKey ItemTypeClaims cid) →
      rawDelete recs2 ItemTypeClaims cid =
        (.ok (), recs2.filter (fun r => ¬ r.hasKey ItemTypeClaims cid)) := by
    intro recs2 ⟨rec, hmem, hk⟩
    unfold rawDelete
    rw [if_pos (List.any_eq_true.mpr ⟨rec, hmem, decide_eq_true hk⟩)]
  rw [Store.DeleteClaim, withConnection_fst, withConnection_records]
  by_cases hA : st.records.filter (fun r => decide (r.inGroup ItemTypeResults cid)) = []
  · have hnone : ∀ rec ∈ st.records, ¬ rec.inGroup ItemTypeResults cid := by
      intro rec hmem hgrp
      have := List.filter_eq_nil_iff.mp hA rec hmem
      simp [hgrp] at this
    have hlr : rawList st.records ItemTypeResults cid = .error .recordDoesNotExist :=
      rawList_of_empty hnone
    have hra := hcany st.records hclaim
    have hd1 : (rawDelete st.records ItemTypeClaims cid).1 = .ok () := by rw [hra]
    have hd2 : (rawDelete st.records ItemTypeClaims cid).2 =
        st.records.filter (fun r => ¬ r.hasKey ItemTypeClaims cid) := by rw [hra]
    simp only [Store.ListResults, bsList_fst, bsList_records, handleConnect_records, hlr,
      deleteEach, ListResults_records, bsDelete_fst, bsDelete_records, hd1, hd2]
    refine ⟨trivial, ?_⟩
    refine (List.filter_congr ?_).symm
    intro r hr
    have h1 := hnone r hr
    have h2 : ¬ (r.itemType = ItemTypeOutputs ∧
        ∃ rr ∈ st.records, rr.inGroup ItemTypeResults cid ∧ r.group = rr.key) := by
      rintro ⟨_, rr, hrr, hgrr, _⟩
      exact hnone rr hrr hgrr
    simp [h1, h2]
  · have hrids_nd : (sortStrings (groupKeys st.records ItemTypeResults cid)).Nodup :=
      (sortStrings_perm _).nodup_iff.mpr (groupKeys_nodup hnd ItemTypeResults cid)
    have hlr : rawList st.records ItemTypeResults cid
        = .ok (groupKeys st.records ItemTypeResults cid) :=
      rawList_eq_groupKeys hA
    have hex : ∀ rid ∈ sortStrings (groupKeys st.records ItemTypeResults cid),
        ∃ rec ∈ st.records, rec.hasKey ItemTypeResults rid := by
      intro rid hrid
      rcases mem_groupKeys.mp (mem_sortStrings.mp hrid) with ⟨rec, hmem, hgrp, hkey⟩
      exact ⟨rec, hmem, hgrp.1, hkey⟩
    simp only [Store.ListResults, bsList_fst, bsList_records, handleConnect_records, hlr,
      ListResults_records]
    set stq := (deleteEach Store.DeleteResult
      ((bsList (handleConnect st).2 ItemTypeResults cid).2)
      (sortStrings (groupKeys st.records ItemTypeResults cid))).2 with hstq
    obtain ⟨hde1, hde2⟩ := deleteEach_results_spec
      (sortStrings (groupKeys st.records ItemTypeResults cid))
      ((bsList (handleConnect st).2 ItemTypeResults cid).2)
      (by simpa using hnd) (by simpa using hshape) hrids_nd
      (by
        intro rid hrid
        rcases hex rid hrid with ⟨rec, hmem, hk⟩
        exact ⟨rec, by simpa using hmem, hk⟩)
    rw [← hstq] at hde2
    simp only [bsList_records, handleConnect_records] at hde2
    have hrq : ∃ rec ∈ stq.records, rec.hasKey ItemTypeClaims cid := by
      rcases hclaim with ⟨rec, hmem, hk⟩
      refine ⟨rec, ?_, hk⟩
      rw [hde2]
      refine List.mem_filter.mpr ⟨hmem, ?_⟩
      simp only [decide_eq_true_eq]
      rintro ⟨rid, hrid, hg | hkk⟩
      · have := hg.1
        rw [hk.1] at this
        exact absurd this (by decide)
      · have := hkk.1
        rw [hk.1] at this
        exact absurd this (by decide)
    have hra := hcany stq.records hrq
    have hd1 : (rawDelete stq.records ItemTypeClaims cid).1 = .ok () := by rw [hra]
    have hd2 : (rawDelete stq.records ItemTypeClaims cid).2 =
        stq.records.filter (fun r => ¬ r.hasKey ItemTypeClaims cid) := by rw [hra]
    simp only [hde1, bsDelete_fst, bsDelete_records, hd1, hd2]
    refine ⟨trivial, ?_⟩
    rw [hde2, List.filter_filter]
    refine List.filter_congr ?_
    intro r hr
    have hiff : (∃ rid ∈ sortStrings (groupKeys st.records ItemTypeResults cid),
        (r.inGroup ItemTypeOutputs rid ∨ r.hasKey ItemTypeResults rid))
        ↔ (r.inGroup ItemTypeResults cid ∨
          (r.itemType = ItemTypeOutputs ∧
            ∃ rr ∈ st.records, rr.inGroup ItemTypeResults cid ∧ r.group = rr.key)) := by
      constructor
      · rintro ⟨rid, hrid, hg | hkk⟩
        · rcases mem_groupKeys.mp (mem_sortStrings.mp hrid) with ⟨rr, hmem, hgrp, hkey⟩
          exact Or.inr ⟨hg.1, rr, hmem, hgrp, hg.2.trans hkey.symm⟩
        · rcases mem_groupKeys.mp (mem_sortStrings.mp hrid) with ⟨rr, hmem, hgrp, hkey⟩
          have : r = rr := WFKeys_unique hnd hr hmem
            (hkk.1.trans hgrp.1.symm) (hkk.2.trans hkey.symm)
          subst this
          exact Or.inl hgrp
      · rintro (hg | ⟨hto, rr, hmem, hgrp, hgr⟩)
        · refine ⟨r.key, ?_, Or.inr ⟨hg.1, rfl⟩⟩
          exact mem_sortStrings.mpr (mem_groupKeys.mpr ⟨r, hr, hg, rfl⟩)
        · refine ⟨rr.key, ?_, Or.inl ⟨hto, hgr⟩⟩
          exact mem_sortStrings.mpr (mem_groupKeys.mpr ⟨rr, hmem, hgrp, rfl⟩)
    by_cases hB : r.hasKey ItemTypeClaims cid
    · simp [hB]
    · by_cases hC : ∃ rid ∈ sortStrings (groupKeys st.records ItemTypeResults cid),
          (r.inGroup ItemTypeOutputs rid ∨ r.hasKey ItemTypeResults rid)
      · simp only [hC, hiff.mp hC]
        simp [hB]
      · have hc2 := hiff.not.mp hC
        push_neg at hc2
        have hng : ¬ r.inGroup ItemTypeResults cid := by
          intro hg
          exact (hiff.not.mp hC) (Or.inl hg)
        have hno : ¬ (r.itemType = ItemTypeOutputs ∧
            ∃ rr ∈ st.records, rr.inGroup ItemTypeResults cid ∧ r.group = rr.key) := by
          intro ho
          exact (hiff.not.mp hC) (Or.inr ho)
        simp [hB, hC, hng, hno]

theorem deleteEach_claims_spec (cids : List String) (st : CrudState)
    (hnd : WFKeys st.records)
    (hshape : ∀ rec ∈ st.records, rec.itemType = ItemTypeOutputs →
      ∃ nm, rec.key = rec.group ++ "-" ++ nm)
    (hnodup : cids.Nodup)
    (hex : ∀ cid ∈ cids, ∃ rec ∈ st.records, rec.hasKey ItemTypeClaims cid) :
    (deleteEach Store.DeleteClaim st cids).1 = .ok () ∧
    (deleteEach Store.DeleteClaim st cids).2.records =
      st.records.filter (fun r =>
        ¬ ∃ cid ∈ cids, (r.hasKey ItemTypeClaims cid ∨ r.inGroup ItemTypeResults cid ∨
          (r.itemType = ItemTypeOutputs ∧
            ∃ rr ∈ st.records, rr.inGroup ItemTypeResults cid ∧ r.group = rr.key))) := by
  induction cids generalizing st with
  | nil =>
    refine ⟨rfl, ?_⟩
    simp [deleteEach]
  | cons cid0 cids ih =>
    obtain ⟨h1, h2⟩ := DeleteClaim_spec st cid0 hnd hshape
      (hex cid0 (List.mem_cons_self cid0 cids))
    have hnd2 : WFKeys (Store.DeleteClaim st cid0).2.records := by
      rw [h2]
      exact WFKeys_filter hnd _
    have hshape2 : ∀ rec ∈ (Store.DeleteClaim st cid0).2.records,
        rec.itemType = ItemTypeOutputs → ∃ nm, rec.key = rec.group ++ "-" ++ nm := by
      intro rec hmem
      rw [h2] at hmem
      exact hshape rec (List.mem_filter.mp hmem).1
    have hex2 : ∀ cid ∈ cids, ∃ rec ∈ (Store.DeleteClaim st cid0).2.records,
        rec.hasKey ItemTypeClaims cid := by
      intro cid hcid
      rcases hex cid (List.mem_cons_of_mem cid0 hcid) with ⟨rec, hmem, hk⟩
      refine ⟨rec, ?_, hk⟩
      rw [h2]
      refine List.mem_filter.mpr ⟨hmem, ?_⟩
      simp only [decide_eq_true_eq]
      rintro (hkk | hg | ⟨hto, _⟩)
      · exact (List.nodup_cons.mp hnodup).1 ((hk.2.symm.trans hkk.2) ▸ hcid)
      · have := hg.1
        rw [hk.1] at this
        exact absurd this (by decide)
      · rw [hk.1] at hto
        exact absurd hto (by decide)
    obtain ⟨ih1, ih2⟩ := ih (Store.DeleteClaim st cid0).2 hnd2 hshape2
      (List.nodup_cons.mp hnodup).2 hex2
    constructor
    · simp only [deleteEach, h1]
      exact ih1
    · simp only [deleteEach, h1]
      rw [ih2, h2, List.filter_filter]
      refine List.filter_congr ?_
      intro r hr
      have hsub : ∀ cid ∈ cids,
          ((r.hasKey ItemTypeClaims cid ∨ r.inGroup ItemTypeResults cid ∨
            (r.itemType = ItemTypeOutputs ∧
              ∃ rr ∈ st.records.filter (fun x =>
                ¬ (x.hasKey ItemTypeClaims cid0 ∨ x.inGroup ItemTypeResults cid0 ∨
                  (x.itemType = ItemTypeOutputs ∧
                    ∃ rr2 ∈ st.records, rr2.inGroup ItemTypeResults cid0 ∧
                      x.group = rr2.key))),
                rr.inGroup ItemTypeResults cid ∧ r.group = rr.key)) ↔
          (r.hasKey ItemTypeClaims cid ∨ r.inGroup ItemTypeResults cid ∨
            (r.itemType = ItemTypeOutputs ∧
              ∃ rr ∈ st.records, rr.inGroup ItemTypeResults cid ∧ r.group = rr.key))) := by
        intro cid hcid
        constructor
        · rintro (h | h | ⟨hto, rr, hmem, hgrp, hgr⟩)
          · exact Or.inl h
          · exact Or.inr (Or.inl h)
          · exact Or.inr (Or.inr ⟨hto, rr, (List.mem_filter.mp hmem).1, hgrp, hgr⟩)
        · rintro (h | h | ⟨hto, rr, hmem, hgrp, hgr⟩)
          · exact Or.inl h
          · exact Or.inr (Or.inl h)
          · refine Or.inr (Or.inr ⟨hto, rr, ?_, hgrp, hgr⟩)
            refine List.mem_filter.mpr ⟨hmem, ?_⟩
            simp only [decide_eq_true_eq]
            rintro (hkk | hg | ⟨hto2, _⟩)
            · have := hkk.1
              rw [hgrp.1] at this
              exact absurd this (by decide)
            · have := hg.2
              rw [hgrp.2] at this
              exact (List.nodup_cons.mp hnodup).1 (this ▸ hcid)
            · rw [hgrp.1] at hto2
              exact absurd hto2 (by decide)
      have hiff : (∃ cid ∈ cids,
          (r.hasKey ItemTypeClaims cid ∨ r.inGroup ItemTypeResults cid ∨
            (r.itemType = ItemTypeOutputs ∧
              ∃ rr ∈ st.records.filter (fun x =>
                ¬ (x.hasKey ItemTypeClaims cid0 ∨ x.inGroup ItemTypeResults cid0 ∨
                  (x.itemType = ItemTypeOutputs ∧
                    ∃ rr2 ∈ st.records, rr2.inGroup ItemTypeResults cid0 ∧
                      x.group = rr2.key))),
                rr.inGroup ItemTypeResults cid ∧ r.group = rr.key)))
          ↔ (∃ cid ∈ cids,
          (r.hasKey ItemTypeClaims cid ∨ r.inGroup ItemTypeResults cid ∨
            (r.itemType = ItemTypeOutputs ∧
              ∃ rr ∈ st.records, rr.inGroup ItemTypeResults cid ∧ r.group = rr.key))) := by
        constructor
        · rintro ⟨cid, hcid, hq⟩
          exact ⟨cid, hcid, (hsub cid hcid).mp hq⟩
        · rintro ⟨cid, hcid, hq⟩
          exact ⟨cid, hcid, (hsub cid hcid).mpr hq⟩
      have hcons : (∃ cid ∈ cid0 :: cids,
          (r.hasKey ItemTypeClaims cid ∨ r.inGroup ItemTypeResults cid ∨
            (r.itemType = ItemTypeOutputs ∧
              ∃ rr ∈ st.records, rr.inGroup ItemTypeResults cid ∧ r.group = rr.key)))
          ↔ ((r.hasKey ItemTypeClaims cid0 ∨ r.inGroup ItemTypeResults cid0 ∨
            (r.itemType = ItemTypeOutputs ∧
              ∃ rr ∈ st.records, rr.inGroup ItemTypeResults cid0 ∧ r.group = rr.key)) ∨
            (∃ cid ∈ cids,
              (r.hasKey ItemTypeClaims cid ∨ r.inGroup ItemTypeResults cid ∨
                (r.itemType = ItemTypeOutputs ∧
                  ∃ rr ∈ st.records, rr.inGroup ItemTypeResults cid ∧ r.group = rr.key)))) := by
        constructor
        · rintro ⟨cid, hcid, hq⟩
          rcases List.mem_cons.mp hcid with h0 | h0
          · exact Or.inl (h0 ▸ hq)
          · exact Or.inr ⟨cid, h0, hq⟩
        · rintro (hq | ⟨cid, hcid, hq⟩)
          · exact ⟨cid0, List.mem_cons_self cid0 cids, hq⟩
          · exact ⟨cid, List.mem_cons_of_mem cid0 hcid, hq⟩
      rw [Bool.eq_iff_iff]
      simp only [Bool.and_eq_true, Bool.not_eq_true', decide_eq_false_iff_not,
        decide_eq_true_eq]
      constructor
      · rintro ⟨h1, h2⟩ h3
        rcases hcons.mp h3 with h4 | h4
        · exact h2 h4
        · exact h1 (hiff.mpr h4)
      · intro h
        exact ⟨fun h1 => h (hcons.mpr (Or.inr (hiff.mp h1))),
          fun h2 => h (hcons.mpr (Or.inl h2))⟩

theorem DeleteInstallation_spec (st : CrudState) (installation : String)
    (hnd : WFKeys st.records)
    (hshape : ∀ rec ∈ st.records, rec.itemType = ItemTypeOutputs →
      ∃ nm, rec.key = rec.group ++ "-" ++ nm)
    (hclaims : ∃ rec ∈ st.records, rec.inGroup ItemTypeClaims installation)
    (hinst : ∃ rec ∈ st.records, rec.hasKey ItemTypeInstallations installation) :
    (Store.DeleteInstallation st installation).1 = .ok () ∧
    (Store.DeleteInstallation st installation).2.records =
      st.records.filter (fun r =>
        ¬ ((∃ crec ∈ st.records, crec.inGroup ItemTypeClaims installation ∧
            (r.hasKey ItemTypeClaims crec.key ∨ r.inGroup ItemTypeResults crec.key ∨
              (r.itemType = ItemTypeOutputs ∧
                ∃ rr ∈ st.records, rr.inGroup ItemTypeResults crec.key ∧
                  r.group = rr.key))) ∨
          r.hasKey ItemTypeInstallations installation)) := by
  have hiany : ∀ recs2 : List Record,
      (∃ rec ∈ recs2, rec.hasKey ItemTypeInstallations installation) →
      rawDelete recs2 ItemTypeInstallations installation =
        (.ok (), recs2.filter
          (fun r => ¬ r.hasKey ItemTypeInstallations installation)) := by
    intro recs2 ⟨rec, hmem, hk⟩
    unfold rawDelete
    rw [if_pos (List.any_eq_true.mpr ⟨rec, hmem, decide_eq_true hk⟩)]
  have hA : ¬ st.records.filter
      (fun r => decide (r.inGroup ItemTypeClaims installation)) = [] := by
    intro hc
    rcases hclaims with ⟨rec, hmem, hgrp⟩
    have := List.filter_eq_nil_iff.mp hc rec hmem
    simp [hgrp] at this
  have hlc : rawList st.records ItemTypeClaims installation
      = .ok (groupKeys st.records ItemTypeClaims installation) :=
    rawList_eq_groupKeys hA
  have hgkne : ¬ (groupKeys st.records ItemTypeClaims installation).isEmpty = true := by
    unfold groupKeys
    cases hfl : st.records.filter
        (fun r => decide (r.inGroup ItemTypeClaims installation)) with
    | nil => exact absurd hfl hA
    | cons x xs => simp
  have hcids_nd : (sortStrings (groupKeys st.records ItemTypeClaims installation)).Nodup :=
    (sortStrings_perm _).nodup_iff.mpr (groupKeys_nodup hnd ItemTypeClaims installation)
  have hex : ∀ cid ∈ sortStrings (groupKeys st.records ItemTypeClaims installation),
      ∃ rec ∈ st.records, rec.hasKey ItemTypeClaims cid := by
    intro cid hcid
    rcases mem_groupKeys.mp (mem_sortStrings.mp hcid) with ⟨rec, hmem, hgrp, hkey⟩
    exact ⟨rec, hmem, hgrp.1, hkey⟩
  rw [Store.DeleteInstallation, withConnection_fst, withConnection_records]
  simp only [Store.ListClaims, bsList_fst, bsList_records, handleConnect_records, hlc,
    hgkne, Bool.false_eq_true, if_false, ListClaims_records]
  set stq := (deleteEach Store.DeleteClaim
    ((bsList (handleConnect st).2 ItemTypeClaims installation).2)
    (sortStrings (groupKeys st.records ItemTypeClaims installation))).2 with hstq
  obtain ⟨hde1, hde2⟩ := deleteEach_claims_spec
    (sortStrings (groupKeys st.records ItemTypeClaims installation))
    ((bsList (handleConnect st).2 ItemTypeClaims installation).2)
    (by simpa using hnd) (by simpa using hshape) hcids_nd
    (by
      intro cid hcid
      rcases hex cid hcid with ⟨rec, hmem, hk⟩
      exact ⟨rec, by simpa using hmem, hk⟩)
  rw [← hstq] at hde2
  simp only [bsList_records, handleConnect_records] at hde2
  have hiq : ∃ rec ∈ stq.records, rec.hasKey ItemTypeInstallations installation := by
    rcases hinst with ⟨rec, hmem, hk⟩
    refine ⟨rec, ?_, hk⟩
    rw [hde2]
    refine List.mem_filter.mpr ⟨hmem, ?_⟩
    simp only [decide_eq_true_eq]
    rintro ⟨cid, hcid, hkk | hg | ⟨hto, _⟩⟩
    · have := hkk.1
      rw [hk.1] at this
      exact absurd this (by decide)
    · have := hg.1
      rw [hk.1] at this
      exact absurd this (by decide)
    · rw [hk.1] at hto
      exact absurd hto (by decide)
  have hra := hiany stq.records hiq
  have hd1 : (rawDelete stq.records ItemTypeInstallations installation).1 = .ok () := by
    rw [hra]
  have hd2 : (rawDelete stq.records ItemTypeInstallations installation).2 =
      stq.records.filter (fun r => ¬ r.hasKey ItemTypeInstallations installation) := by
    rw [hra]
  simp only [hde1, bsDelete_fst, bsDelete_records, hd1, hd2]
  refine ⟨trivial, ?_⟩
  rw [hde2, List.filter_filter]
  refine List.filter_congr ?_
  intro r hr
  have hiff : (∃ cid ∈ sortStrings (groupKeys st.records ItemTypeClaims installation),
      (r.hasKey ItemTypeClaims cid ∨ r.inGroup ItemTypeResults cid ∨
        (r.itemType = ItemTypeOutputs ∧
          ∃ rr ∈ st.records, rr.inGroup ItemTypeResults cid ∧ r.group = rr.key)))
      ↔ (∃ crec ∈ st.records, crec.inGroup ItemTypeClaims installation ∧
        (r.hasKey ItemTypeClaims crec.key ∨ r.inGroup ItemTypeResults crec.key ∨
          (r.itemType = ItemTypeOutputs ∧
            ∃ rr ∈ st.records, rr.inGroup ItemTypeResults crec.key ∧
              r.group = rr.key))) := by
    constructor
    · rintro ⟨cid, hcid, hq⟩
      rcases mem_groupKeys.mp (mem_sortStrings.mp hcid) with ⟨crec, hmem, hgrp, hkey⟩
      exact ⟨crec, hmem, hgrp, hkey ▸ hq⟩
    · rintro ⟨crec, hmem, hgrp, hq⟩
      exact ⟨crec.key, mem_sortStrings.mpr (mem_groupKeys.mpr ⟨crec, hmem, hgrp, rfl⟩), hq⟩
  rw [Bool.eq_iff_iff]
  simp only [Bool.and_eq_true, Bool.not_eq_true', decide_eq_false_iff_not,
    decide_eq_true_eq, not_or]
  constructor
  · rintro ⟨h1, h2⟩
    exact ⟨fun h3 => h2 (hiff.mpr h3), h1⟩
  · rintro ⟨h1, h2⟩
    exact ⟨h2, fun h3 => h1 (hiff.mp h3)⟩

/-- C5: after a successful `DeleteInstallation(name)` no claim record of
the installation, no result record of any of its claims, and no output
record of any of those results remains; the installation record itself is
deleted; and `ReadLastClaim(name)` on the resulting store returns
`InstallationNotFound`. -/
theorem C5_cascading_delete (s : Store) (st : CrudState) (installation : String)
    (hnd : WFKeys st.records)
    (hshape : ∀ rec ∈ st.records, rec.itemType = ItemTypeOutputs →
      ∃ nm, rec.key = rec.group ++ "-" ++ nm)
    (hclaims : ∃ rec ∈ st.records, rec.inGroup ItemTypeClaims installation)
    (hinst : ∃ rec ∈ st.records, rec.hasKey ItemTypeInstallations installation) :
    (Store.DeleteInstallation st installation).1 = .ok () ∧
    (∀ rec ∈ (Store.DeleteInstallation st installation).2.records,
      ¬ rec.inGroup ItemTypeClaims installation) ∧
    (∀ rec ∈ (Store.DeleteInstallation st installation).2.records,
      rec.itemType = ItemTypeResults →
      ∀ crec ∈ st.records, crec.inGroup ItemTypeClaims installation →
        ¬ rec.group = crec.key) ∧
    (∀ rec ∈ (Store.DeleteInstallation st installation).2.records,
      rec.itemType = ItemTypeOutputs →
      ∀ crec ∈ st.records, crec.inGroup ItemTypeClaims installation →
      ∀ rrec ∈ st.records, rrec.inGroup ItemTypeResults crec.key →
        ¬ rec.group = rrec.key) ∧
    (∀ rec ∈ (Store.DeleteInstallation st installation).2.records,
      ¬ rec.hasKey ItemTypeInstallations installation) ∧
    (s.ReadLastClaim (Store.DeleteInstallation st installation).2 installation).1
      = .error .installationNotFound := by
  obtain ⟨h1, h2⟩ := DeleteInstallation_spec st installation hnd hshape hclaims hinst
  have hkept : ∀ rec ∈ (Store.DeleteInstallation st installation).2.records,
      rec ∈ st.records ∧
      ¬ ((∃ crec ∈ st.records, crec.inGroup ItemTypeClaims installation ∧
          (rec.hasKey ItemTypeClaims crec.key ∨ rec.inGroup ItemTypeResults crec.key ∨
            (rec.itemType = ItemTypeOutputs ∧
              ∃ rr ∈ st.records, rr.inGroup ItemTypeResults crec.key ∧
                rec.group = rr.key))) ∨
        rec.hasKey ItemTypeInstallations installation) := by
    intro rec hmem
    rw [h2] at hmem
    have hm := List.mem_filter.mp hmem
    exact ⟨hm.1, of_decide_eq_true hm.2⟩
  have hnoclaims : ∀ rec ∈ (Store.DeleteInstallation st installation).2.records,
      ¬ rec.inGroup ItemTypeClaims installation := by
    intro rec hmem hgrp
    rcases hkept rec hmem with ⟨hmemst, hnk⟩
    exact hnk (Or.inl ⟨rec, hmemst, hgrp, Or.inl ⟨hgrp.1, rfl⟩⟩)
  refine ⟨h1, hnoclaims, ?_, ?_, ?_, ?_⟩
  · intro rec hmem hto crec hcmem hcgrp hgr
    rcases hkept rec hmem with ⟨_, hnk⟩
    exact hnk (Or.inl ⟨crec, hcmem, hcgrp, Or.inr (Or.inl ⟨hto, hgr⟩)⟩)
  · intro rec hmem hto crec hcmem hcgrp rrec hrmem hrgrp hgr
    rcases hkept rec hmem with ⟨_, hnk⟩
    exact hnk (Or.inl ⟨crec, hcmem, hcgrp,
      Or.inr (Or.inr ⟨hto, rrec, hrmem, hrgrp, hgr⟩)⟩)
  · intro rec hmem hk
    rcases hkept rec hmem with ⟨_, hnk⟩
    exact hnk (Or.inr hk)
  · rw [Store.ReadLastClaim, withConnection_fst]
    simp only [bsList_fst, handleConnect_records,
      rawList_of_empty (fun rec hmem => hnoclaims rec hmem)]
    rfl

/-- A full installation tree for the C5 witness: one installation, one
claim, one result, one output. -/
def cascadeState : CrudState :=
  ⟨[⟨ItemTypeInstallations, "", "foo", .installation sampleInstallation⟩,
    ⟨ItemTypeClaims, "foo", "01A", .enc (.claim claimA)⟩,
    ⟨ItemTypeResults, "01A", "01R1", .result resultR1⟩,
    ⟨ItemTypeOutputs, "01R1", "01R1-output1", .bytes [1]⟩], false, 0, 0⟩

/-- Witness for C5: deleting `foo` succeeds and a subsequent
`ReadLastClaim` reports the installation as missing. -/
theorem C5_cascading_delete_witness :
    (Store.DeleteInstallation cascadeState "foo").1 = .ok () ∧
    (∀ rec ∈ (Store.DeleteInstallation cascadeState "foo").2.records,
      ¬ rec.inGroup ItemTypeClaims "foo") ∧
    (sampleStore.ReadLastClaim (Store.DeleteInstallation cascadeState "foo").2
      "foo").1 = .error .installationNotFound := by
  have h := C5_cascading_delete sampleStore cascadeState "foo" (by decide)
    (by
      intro rec hrec hto
      simp only [cascadeState, List.mem_cons, List.not_mem_nil, or_false] at hrec
      rcases hrec with rfl | rfl | rfl | rfl
      · exact absurd hto (by decide)
      · exact absurd hto (by decide)
      · exact absurd hto (by decide)
      · exact ⟨"output1", by decide⟩)
    ⟨⟨ItemTypeClaims, "foo", "01A", .enc (.claim claimA)⟩,
      by simp [cascadeState], ⟨rfl, rfl⟩⟩
    ⟨⟨ItemTypeInstallations, "", "foo", .installation sampleInstallation⟩,
      by simp [cascadeState], ⟨rfl, rfl⟩⟩
  exact ⟨h.1, h.2.1, h.2.2.2.2.2⟩

/-! ## C8: connection lifecycle of the public operations -/

/-- The target state of a scope-managed transition started at `s0`: the
scope is (still) open and no connect or close has been charged beyond
those of `s0`. -/
def ConnOK (s0 s1 : CrudState) : Prop :=
  s1.connected = true ∧ s1.connects = s0.connects ∧ s1.closes = s0.closes

/-- A state transformer that, entered with the connection scope already
open, reuses it: it leaves the scope open and performs no connect or
close of its own. -/
def ConnNeutral {α : Type} (f : CrudState → α × CrudState) : Prop :=
  ∀ s, s.connected = true → ConnOK s (f s).2

/-- A public operation run outside any scope performs exactly one connect
and exactly one close (on every exit path) and leaves the connection
closed. -/
def SingleConnection {α : Type} (f : CrudState → α × CrudState) : Prop :=
  ∀ s, s.connected = false →
    (f s).2.connected = false ∧ (f s).2.connects = s.connects + 1 ∧
    (f s).2.closes = s.closes + 1

/-- The state after an auto-wrapped read-only backing call. -/
def scanSnd (st : CrudState) : CrudState :=
  if st.connected then st else closeState (connectState st)

theorem scanSnd_conn (s : CrudState) (hs : s.connected = true) :
    scanSnd s = s := by
  unfold scanSnd
  rw [if_pos hs]

theorem scanSnd_single (s : CrudState) (hs : s.connected = false) :
    (scanSnd s).connected = false ∧ (scanSnd s).connects = s.connects + 1 ∧
    (scanSnd s).closes = s.closes + 1 := by
  unfold scanSnd
  rw [if_neg (by simp [hs])]
  exact ⟨rfl, rfl, rfl⟩

theorem bsRead_snd (st : CrudState) (t k : String) :
    (bsRead st t k).2 = scanSnd st := by
  unfold bsRead autoWrapped scanSnd
  split <;> rfl

theorem bsList_snd (st : CrudState) (t g : String) :
    (bsList st t g).2 = scanSnd st := by
  unfold bsList autoWrapped scanSnd
  split <;> rfl

theorem bsReadAll_snd (st : CrudState) (t g : String) :
    (bsReadAll st t g).2 = scanSnd st := by
  unfold bsReadAll autoWrapped scanSnd
  split <;> rfl

/-- A transformer whose final state is the auto-wrapped scan state is
scope-neutral inside a scope. -/
theorem cn_of_scan {α : Type} {f : CrudState → α × CrudState}
    (hsnd : ∀ s, (f s).2 = scanSnd s) : ConnNeutral f := by
  intro s hs
  rw [hsnd s, scanSnd_conn s hs]
  exact ⟨hs, rfl, rfl⟩

/-- ... and performs exactly one connect/close outside a scope. -/
theorem sc_of_scan {α : Type} {f : CrudState → α × CrudState}
    (hsnd : ∀ s, (f s).2 = scanSnd s) : SingleConnection f := by
  intro s hs
  rw [hsnd s]
  exact scanSnd_single s hs

/-- A transformer that leaves an in-scope state entirely unchanged is
scope-neutral. -/
theorem cn_of_id {α : Type} {f : CrudState → α × CrudState}
    (h : ∀ s, s.connected = true → (f s).2 = s) : ConnNeutral f := by
  intro s hs
  rw [h s hs]
  exact ⟨hs, rfl, rfl⟩

theorem cn_bsSave (t g k : String) (v : Data) :
    ConnNeutral (fun s => bsSave s t g k v) := by
  intro s hs
  refine ⟨?_, ?_, ?_⟩ <;> simp [bsSave, autoWrapped, hs]

theorem cn_bsDelete (t k : String) : ConnNeutral (fun s => bsDelete s t k) := by
  intro s hs
  cases h : rawDelete s.records t k with
  | mk res recs =>
    refine ⟨?_, ?_, ?_⟩ <;> simp [bsDelete, autoWrapped, hs, h]

theorem sc_bsSave (t g k : String) (v : Data) :
    SingleConnection (fun s => bsSave s t g k v) := by
  intro s hs
  refine ⟨?_, ?_, ?_⟩ <;>
    simp [bsSave, autoWrapped, hs, connectState, closeState]

theorem sc_bsDelete (t k : String) :
    SingleConnection (fun s => bsDelete s t k) := by
  intro s hs
  cases h : rawDelete (connectState s).records t k with
  | mk res recs =>
    refine ⟨?_, ?_, ?_⟩ <;>
      simp [bsDelete, autoWrapped, hs, h, connectState, closeState]

/-- Chaining: a scope-neutral step taken from a state reached without
extra connects/closes again charges nothing. -/
theorem conn_chain {α : Type} {s0 s1 : CrudState} (h1 : ConnOK s0 s1)
    {f : CrudState → α × CrudState} (hf : ConnNeutral f) :
    ConnOK s0 (f s1).2 := by
  obtain ⟨a1, a2, a3⟩ := h1
  obtain ⟨b1, b2, b3⟩ := hf s1 a1
  exact ⟨b1, b2.trans a2, b3.trans a3⟩

/-- `withConnection` with a scope-neutral body joins an already open
scope without connecting or closing. -/
theorem withConnection_neutral {α : Type} {f : CrudState → α × CrudState}
    (hf : ConnNeutral f) : ConnNeutral (fun s => withConnection s f) := by
  intro s hs
  have h := hf s hs
  have hc : (withConnection s f).2 = (f s).2 := by
    simp [withConnection, handleConnect, handleClose, hs]
  exact hc ▸ h

/-- `withConnection` with a scope-neutral body, started outside a scope,
performs exactly one connect and one close. -/
theorem withConnection_single {α : Type} {f : CrudState → α × CrudState}
    (hf : ConnNeutral f) : SingleConnection (fun s => withConnection s f) := by
  intro s hs
  have h := hf (connectState s) rfl
  have hc : (withConnection s f).2 = closeState (f (connectState s)).2 := by
    simp [withConnection, handleConnect, handleClose, hs]
  rw [hc]
  refine ⟨rfl, ?_, ?_⟩
  · show (f (connectState s)).2.connects = s.connects + 1
    exact h.2.1
  · show (f (connectState s)).2.closes + 1 = s.closes + 1
    rw [h.2.2]
    exact rfl

/-- Both `withConnection` facts at once (to reuse one body proof). -/
theorem withConnection_both {α : Type} {f : CrudState → α × CrudState}
    (hf : ConnNeutral f) :
    ConnNeutral (fun s => withConnection s f) ∧
    SingleConnection (fun s => withConnection s f) :=
  ⟨withConnection_neutral hf, withConnection_single hf⟩

/-- `ListInstallations` issues a single auto-wrapped `List`. -/
theorem ListInstallations_snd (ns : String) :
    ∀ st, (Store.ListInstallations st ns).2 = scanSnd st := by
  intro st
  unfold Store.ListInstallations
  cases h : rawList st.records ItemTypeInstallations
      (if ns = "" then NamespaceGlobal else ns) with
  | error e => simp [h, bsList_snd]
  | ok l => simp [h, bsList_snd]

/-- `ListClaims` issues a single auto-wrapped `List`. -/
theorem ListClaims_snd (inst : String) :
    ∀ st, (Store.ListClaims st inst).2 = scanSnd st := by
  intro st
  unfold Store.ListClaims
  cases h : rawList st.records ItemTypeClaims inst with
  | error e => simp [h, bsList_snd]
  | ok l =>
    cases l with
    | nil => simp [h, bsList_snd]
    | cons x xs => simp [h, bsList_snd]

/-- `ListResults` issues a single auto-wrapped `List`. -/
theorem ListResults_snd (cid : String) :
    ∀ st, (Store.ListResults st cid).2 = scanSnd st := by
  intro st
  unfold Store.ListResults
  cases h : rawList st.records ItemTypeResults cid with
  | error e => cases e <;> simp [h, bsList_snd]
  | ok l => simp [h, bsList_snd]

/-- `ListOutputs` issues a single auto-wrapped `List`. -/
theorem ListOutputs_snd (rid : String) :
    ∀ st, (Store.ListOutputs st rid).2 = scanSnd st := by
  intro st
  unfold Store.ListOutputs
  cases h : rawList st.records ItemTypeOutputs rid with
  | error e => cases e <;> simp [h, bsList_snd]
  | ok l => simp [h, bsList_snd]

/-- `ReadInstallation` issues a single auto-wrapped `Read`. -/
theorem ReadInstallation_snd (ns nm : String) :
    ∀ st, (Store.ReadInstallation st ns nm).2 = scanSnd st := by
  intro st
  unfold Store.ReadInstallation
  cases h : rawRead st.records ItemTypeInstallations (InstallationKey ns nm) with
  | error e => simp [h, bsRead_snd]
  | ok d => cases d <;> simp [h, bsRead_snd]

/-- `ReadClaim` issues a single auto-wrapped `Read`. -/
theorem ReadClaim_snd (s : Store) :
    ∀ st cid, (s.ReadClaim st cid).2 = scanSnd st := by
  intro st cid
  unfold Store.ReadClaim
  cases h : rawRead st.records ItemTypeClaims cid with
  | error e => simp [h, bsRead_snd]
  | ok d => cases hd : s.decrypt d <;> simp [h, hd, bsRead_snd]

/-- `ReadAllClaims` issues a single auto-wrapped `ReadAll`. -/
theorem ReadAllClaims_snd (s : Store) :
    ∀ st inst, (s.ReadAllClaims st inst).2 = scanSnd st := by
  intro st inst
  unfold Store.ReadAllClaims
  cases h : rawReadAll st.records ItemTypeClaims inst with
  | error e => simp [h, bsReadAll_snd]
  | ok items =>
    simp only [bsReadAll_fst, h]
    split
    · simp [bsReadAll_snd]
    · cases hm : items.mapM (fun d =>
          match s.decrypt d with
          | Data.claim c => some c
          | _ => none) with
      | none => simp [hm, bsReadAll_snd]
      | some claims => simp [hm, bsReadAll_snd]

/-- `ReadResult` issues a single auto-wrapped `Read`. -/
theorem ReadResult_snd (rid : String) :
    ∀ st, (Store.ReadResult st rid).2 = scanSnd st := by
  intro st
  unfold Store.ReadResult
  cases h : rawRead st.records ItemTypeResults rid with
  | error e => simp [h, bsRead_snd]
  | ok d => cases d <;> simp [h, bsRead_snd]

/-- `ReadOutput` issues a single auto-wrapped `Read`. -/
theorem ReadOutput_snd (s : Store) (c : Claim) (r : Result) (n : String) :
    ∀ st, (s.ReadOutput st c r n).2 = scanSnd st := by
  intro st
  unfold Store.ReadOutput
  cases h : rawRead st.records ItemTypeOutputs (Store.outputKey r.ID n) with
  | error e => simp [h, bsRead_snd]
  | ok d => simp [h, bsRead_snd]

/-- `DeleteOutput` issues a single auto-wrapped `Delete`. -/
theorem DeleteOutput_snd (rid n : String) :
    ∀ st, (Store.DeleteOutput st rid n).2 =
      (bsDelete st ItemTypeOutputs (Store.outputKey rid n)).2 := by
  intro st
  unfold Store.DeleteOutput
  cases h : (rawDelete st.records ItemTypeOutputs (Store.outputKey rid n)).1 with
  | error e => simp [h]
  | ok u => simp [h]

/-- Inside an open scope, the result-collection loop only issues
auto-wrapped reads and leaves the state unchanged. -/
theorem collectResults_id (cs : List Claim) :
    ∀ st, st.connected = true → (collectResults st cs).2 = st := by
  induction cs with
  | nil => intro st hs; rfl
  | cons c cs ih =>
    intro st hs
    simp only [collectResults, ListResults_snd c.ID, scanSnd_conn st hs, ih st hs]
    cases hp : (Store.ListResults st c.ID).1 with
    | error e => simp [hp]
    | ok ids =>
      cases hq : (collectResults st cs).1 with
      | error e => simp [hp, hq, ih st hs]
      | ok rest => simp [hp, hq, ih st hs]

/-- Inside an open scope, the last-writer loop leaves the state
unchanged. -/
theorem collectLastOutputs_id (fo : String) (rs : List Result) :
    ∀ acc st, st.connected = true → (collectLastOutputs st fo rs acc).2 = st := by
  induction rs with
  | nil => intro acc st hs; rfl
  | cons r rs ih =>
    intro acc st hs
    simp only [collectLastOutputs, ListOutputs_snd r.ID, scanSnd_conn st hs]
    cases hp : (Store.ListOutputs st r.ID).1 with
    | error e => simp [hp]
    | ok names => simp [hp, ih _ st hs]

/-- Inside an open scope, the output-fetch loop leaves the state
unchanged. -/
theorem fetchOutputs_id (s : Store) (lst : List (String × Result)) :
    ∀ st, st.connected = true → (fetchOutputs s st lst).2 = st := by
  induction lst with
  | nil => intro st hs; rfl
  | cons p0 rest ih =>
    intro st hs
    cases p0 with
    | mk n r =>
      cases hc : r.claim with
      | none => simp [fetchOutputs, hc]
      | some c =>
        simp only [fetchOutputs, hc, ReadOutput_snd s c r n, scanSnd_conn st hs,
          ih st hs]
        cases hp : (s.ReadOutput st c r n).1 with
        | error e => simp [hp]
        | ok o =>
          cases hq : (fetchOutputs s st rest).1 with
          | error e => simp [hp, hq, ih st hs]
          | ok os => simp [hp, hq, ih st hs]

/-- Inside an open scope, `readLastOutputs` (all reads) leaves the state
unchanged. -/
theorem readLastOutputs_id (s : Store) (inst fo : String) :
    ∀ st, st.connected = true → (s.readLastOutputs st inst fo).2 = st := by
  intro st hs
  unfold Store.readLastOutputs
  simp only [ReadAllClaims_snd s, scanSnd_conn st hs]
  cases hp : (s.ReadAllClaims st inst).1 with
  | error e => simp [hp]
  | ok claims =>
    simp only [hp, collectResults_id claims st hs]
    cases hq : (collectResults st claims).1 with
    | error e => simp [hq]
    | ok results =>
      simp only [hq, collectLastOutputs_id fo
        (List.insertionSort (fun a b => StrLeP a.ID b.ID) results) [] st hs]
      cases hw : (collectLastOutputs st fo
          (List.insertionSort (fun a b => StrLeP a.ID b.ID) results) []).1 with
      | error e => simp [hw]
      | ok lastOutputs =>
        simp only [hw, fetchOutputs_id s lastOutputs st hs]
        cases hz : (fetchOutputs s st lastOutputs).1 with
        | error e => simp [hz]
        | ok outputs => simp [hz]

/-- The delete cascade loop is scope-neutral when the per-key deleter
is. -/
theorem cn_deleteEach {f : CrudState → String → Except StoreErr Unit × CrudState}
    (hf : ∀ k, ConnNeutral (fun st => f st k)) (ks : List String) :
    ConnNeutral (fun st => deleteEach f st ks) := by
  induction ks with
  | nil => intro s hs; exact ⟨hs, rfl, rfl⟩
  | cons k ks ih =>
    intro s hs
    show ConnOK s (deleteEach f s (k :: ks)).2
    have h1 : ConnOK s (f s k).2 := hf k s hs
    simp only [deleteEach]
    cases hp : (f s k).1 with
    | error e => simp only [hp]; exact h1
    | ok u => simp only [hp]; exact conn_chain h1 ih

theorem saveDocument_fst (st : CrudState) (t g k : String) (d : Data) (b : Bool)
    (e : Data → Data) : (saveDocument st t g k d b e).1 = .ok () :=
  bsSave_fst _ _ _ _ _

theorem cn_saveDocument (t g k : String) (d : Data) (b : Bool) (e : Data → Data) :
    ConnNeutral (fun st => saveDocument st t g k d b e) := by
  intro s0 hs
  exact cn_bsSave _ _ _ _ s0 hs

theorem cn_SaveInstallation (s : Store) (i : Installation) :
    ConnNeutral (fun st => s.SaveInstallation st i) := by
  intro s0 hs
  exact cn_bsSave _ _ _ _ s0 hs

theorem cn_DeleteOutput (rid n : String) :
    ConnNeutral (fun st => Store.DeleteOutput st rid n) := by
  intro s0 hs
  show ConnOK s0 (Store.DeleteOutput s0 rid n).2
  rw [DeleteOutput_snd rid n s0]
  exact cn_bsDelete _ _ s0 hs

/-- `DeleteResult` both joins an open scope silently and, run on its own,
opens and closes exactly one scope. -/
theorem dr_both (rid : String) :
    ConnNeutral (fun st => Store.DeleteResult st rid) ∧
    SingleConnection (fun st => Store.DeleteResult st rid) := by
  unfold Store.DeleteResult
  apply withConnection_both
  intro s0 hs
  simp only [ListOutputs_snd rid, scanSnd_conn s0 hs]
  split
  · exact ⟨hs, rfl, rfl⟩
  · next names heq =>
    have h1 : ConnOK s0
        (deleteEach (fun s n => Store.DeleteOutput s rid n) s0 names).2 :=
      cn_deleteEach (fun n => cn_DeleteOutput rid n) names s0 hs
    split
    · exact h1
    · split
      · exact conn_chain h1 (cn_bsDelete ItemTypeResults rid)
      · exact conn_chain h1 (cn_bsDelete ItemTypeResults rid)

/-- `DeleteClaim` both joins an open scope silently and, run on its own,
opens and closes exactly one scope. -/
theorem dc_both (cid : String) :
    ConnNeutral (fun st => Store.DeleteClaim st cid) ∧
    SingleConnection (fun st => Store.DeleteClaim st cid) := by
  unfold Store.DeleteClaim
  apply withConnection_both
  intro s0 hs
  simp only [ListResults_snd cid, scanSnd_conn s0 hs]
  split
  · exact ⟨hs, rfl, rfl⟩
  · next rids heq =>
    have h1 : ConnOK s0 (deleteEach Store.DeleteResult s0 rids).2 :=
      cn_deleteEach (fun k => (dr_both k).1) rids s0 hs
    split
    · exact h1
    · split
      · exact conn_chain h1 (cn_bsDelete ItemTypeClaims cid)
      · exact conn_chain h1 (cn_bsDelete ItemTypeClaims cid)

theorem sc_DeleteInstallation (inst : String) :
    SingleConnection (fun st => Store.DeleteInstallation st inst) := by
  unfold Store.DeleteInstallation
  apply withConnection_single
  intro s0 hs
  simp only [ListClaims_snd inst, scanSnd_conn s0 hs]
  split
  · exact ⟨hs, rfl, rfl⟩
  · next cids heq =>
    have h1 : ConnOK s0 (deleteEach Store.DeleteClaim s0 cids).2 :=
      cn_deleteEach (fun k => (dc_both k).1) cids s0 hs
    split
    · exact h1
    · split
      · exact conn_chain h1 (cn_bsDelete ItemTypeInstallations inst)
      · exact conn_chain h1 (cn_bsDelete ItemTypeInstallations inst)

theorem sc_SaveClaim (s : Store) (c : Claim) :
    SingleConnection (fun st => s.SaveClaim st c) := by
  unfold Store.SaveClaim
  apply withConnection_single
  intro s0 hs
  simp only [saveDocument_fst]
  set st1 := (saveDocument s0 ItemTypeClaims c.Installation c.ID
    (Data.claim c) true s.encrypt).2 with hst1
  have h1 : ConnOK s0 st1 := cn_saveDocument _ _ _ _ _ _ s0 hs
  cases hm : c.modifiesInstallation with
  | false =>
    simp only [hm, Bool.false_eq_true, if_false]
    exact h1
  | true =>
    simp only [hm, if_true, ReadInstallation_snd, scanSnd_conn st1 h1.1]
    split
    · exact h1
    · exact conn_chain h1 (cn_SaveInstallation s _)

theorem sc_SaveResult (s : Store) (r : Result) :
    SingleConnection (fun st => s.SaveResult st r) := by
  unfold Store.SaveResult
  apply withConnection_single
  intro s0 hs
  simp only [saveDocument_fst]
  set st1 := (saveDocument s0 ItemTypeResults r.ClaimID r.ID
    r.marshal false s.encrypt).2 with hst1
  have h1 : ConnOK s0 st1 := cn_saveDocument _ _ _ _ _ _ s0 hs
  cases hc : r.claim with
  | none => exact h1
  | some c =>
    cases hm : c.modifiesInstallation with
    | false =>
      simp only [hc, hm, Bool.false_eq_true, if_false]
      exact h1
    | true =>
      simp only [hc, hm, if_true, ReadInstallation_snd, scanSnd_conn st1 h1.1]
      split
      · exact h1
      · exact conn_chain h1 (cn_SaveInstallation s _)

theorem sc_SaveOutput (s : Store) (o : Output) (ho : ¬ o.claim.ID = "") :
    SingleConnection (fun st => s.SaveOutput st o) := by
  intro s0 hs
  show (s.SaveOutput s0 o).2.connected = false ∧
    (s.SaveOutput s0 o).2.connects = s0.connects + 1 ∧
    (s.SaveOutput s0 o).2.closes = s0.closes + 1
  unfold Store.SaveOutput
  rw [if_neg ho]
  exact sc_bsSave _ _ _ _ s0 hs

theorem sc_ReadLastClaim (s : Store) (inst : String) :
    SingleConnection (fun st => s.ReadLastClaim st inst) := by
  unfold Store.ReadLastClaim
  apply withConnection_single
  apply cn_of_id
  intro s0 hs
  simp only [bsList_snd, scanSnd_conn s0 hs]
  cases hp : rawList s0.records ItemTypeClaims inst with
  | error e => simp [hp]
  | ok ids =>
    simp only [bsList_fst, hp]
    split
    · rfl
    · rw [ReadClaim_snd s, scanSnd_conn s0 hs]

theorem sc_ReadLastResult (cid : String) :
    SingleConnection (fun st => Store.ReadLastResult st cid) := by
  unfold Store.ReadLastResult
  apply withConnection_single
  apply cn_of_id
  intro s0 hs
  simp only [bsList_snd, scanSnd_conn s0 hs]
  cases hp : rawList s0.records ItemTypeResults cid with
  | error e => simp [hp]
  | ok ids =>
    simp only [bsList_fst, hp]
    split
    · rfl
    · rw [ReadResult_snd, scanSnd_conn s0 hs]

theorem sc_ReadLastOutputs (s : Store) (inst : String) :
    SingleConnection (fun st => s.ReadLastOutputs st inst) := by
  unfold Store.ReadLastOutputs
  apply withConnection_single
  apply cn_of_id
  intro s0 hs
  exact readLastOutputs_id s inst "" s0 hs

theorem sc_ReadLastOutput (s : Store) (inst n : String) :
    SingleConnection (fun st => s.ReadLastOutput st inst n) := by
  unfold Store.ReadLastOutput
  apply withConnection_single
  apply cn_of_id
  intro s0 hs
  simp only [readLastOutputs_id s inst n s0 hs]
  cases hp : (s.readLastOutputs s0 inst n).1 with
  | error e => simp [hp]
  | ok outputs =>
    cases hg : outputs.GetByName n with
    | none => simp [hp, hg]
    | some o => simp [hp, hg]

/-- `ReadAllInstallations` issues a single auto-wrapped `ReadAll`. -/
theorem ReadAllInstallations_snd :
    ∀ st, (Store.ReadAllInstallations st).2 = scanSnd st := by
  intro st
  unfold Store.ReadAllInstallations
  cases h : rawReadAll st.records ItemTypeInstallations "" with
  | error e => simp [h, bsReadAll_snd]
  | ok items =>
    simp only [bsReadAll_fst, h]
    cases hm : items.mapM (fun d =>
        match d with
        | Data.installation i => some i
        | _ => none) with
    | none => simp [hm, bsReadAll_snd]
    | some l => simp [hm, bsReadAll_snd]

/-- `ReadAllResults` issues a single auto-wrapped `ReadAll`. -/
theorem ReadAllResults_snd (cid : String) :
    ∀ st, (Store.ReadAllResults st cid).2 = scanSnd st := by
  intro st
  unfold Store.ReadAllResults
  cases h : rawReadAll st.records ItemTypeResults cid with
  | error e => cases e <;> simp [h, bsReadAll_snd]
  | ok items =>
    simp only [bsReadAll_fst, h]
    cases hm : items.mapM (fun d =>
        match d with
        | Data.result r => some r
        | _ => none) with
    | none => simp [hm, bsReadAll_snd]
    | some l => simp [hm, bsReadAll_snd]

/-- `ReadInstallationStatus` both joins an open scope silently (it only
issues reads) and, run on its own, opens and closes exactly one scope. -/
theorem ris_both (s : Store) (inst : String) :
    ConnNeutral (fun st => s.ReadInstallationStatus st inst) ∧
    SingleConnection (fun st => s.ReadInstallationStatus st inst) := by
  unfold Store.ReadInstallationStatus
  apply withConnection_both
  apply cn_of_id
  intro s0 hs
  simp only [ListClaims_snd inst, scanSnd_conn s0 hs]
  cases hp : (Store.ListClaims s0 inst).1 with
  | error e => simp [hp]
  | ok ids =>
    simp only [hp]
    split
    · rfl
    · simp only [ReadClaim_snd, scanSnd_conn s0 hs]
      cases hq : (s.ReadClaim s0 ((sortStrings ids).getLastD "")).1 with
      | error e => simp [hq]
      | ok c =>
        simp only [hq, ListResults_snd, scanSnd_conn s0 hs]
        cases hw : (Store.ListResults s0 ((sortStrings ids).getLastD "")).1 with
        | error e => simp [hw]
        | ok rids =>
          simp only [hw]
          split
          · rfl
          · simp only [ReadResult_snd, scanSnd_conn s0 hs]
            cases hz : (Store.ReadResult s0 ((sortStrings rids).getLastD "")).1 with
            | error e => simp [hz]
            | ok r => simp [hz]

/-- The legacy status loop joins an open scope without connecting or
closing (each nested `ReadInstallationStatus` reuses the scope). -/
theorem cn_collectInstallationStatus (s : Store) (names : List String) :
    ConnNeutral (fun st => collectInstallationStatus s st names) := by
  induction names with
  | nil =>
    intro s0 hs
    exact ⟨hs, rfl, rfl⟩
  | cons name names ih =>
    intro s0 hs
    show ConnOK s0 (collectInstallationStatus s s0 (name :: names)).2
    have h1 : ConnOK s0 (s.ReadInstallationStatus s0 name).2 :=
      (ris_both s name).1 s0 hs
    simp only [collectInstallationStatus]
    cases hp : (s.ReadInstallationStatus s0 name).1 with
    | error e =>
      simp only [hp]
      exact h1
    | ok i =>
      simp only [hp]
      split
      · exact conn_chain h1 ih
      · exact conn_chain h1 ih

theorem sc_ReadAllInstallationStatus (s : Store) :
    SingleConnection (fun st => s.ReadAllInstallationStatus st) := by
  unfold Store.ReadAllInstallationStatus
  apply withConnection_single
  intro s0 hs
  simp only [ListInstallations_snd "", scanSnd_conn s0 hs]
  cases hp : (Store.ListInstallations s0 "").1 with
  | error e =>
    simp only [hp]
    exact ⟨hs, rfl, rfl⟩
  | ok names =>
    simp only [hp]
    exact cn_collectInstallationStatus s names s0 hs

theorem sc_SaveInstallation (s : Store) (i : Installation) :
    SingleConnection (fun st => s.SaveInstallation st i) := by
  intro s0 hs
  exact sc_bsSave _ _ _ _ s0 hs

theorem sc_DeleteOutput (rid n : String) :
    SingleConnection (fun st => Store.DeleteOutput st rid n) := by
  intro s0 hs
  simp only [DeleteOutput_snd]
  exact sc_bsDelete _ _ s0 hs

/-- An output whose claim handle is unset (`o.claim.ID == ""`), as passed
to `SaveOutput` before `NewOutput` ran. -/
def c8BadOutput : Output :=
  NewOutput { sampleClaim with ID := "" } sampleResult "port" (.bytes [])

/-- A well-formed output for the amended-claim witness. -/
def c8Output : Output := NewOutput sampleClaim sampleResult "port" (.bytes [1])

/-- C8: the claim as stated is refuted by `SaveOutput` on an output whose
claim handle is unset: the operation returns the validation error without
ever touching the backing store, so the backing store observes zero
connects and zero closes, not exactly one. -/
theorem C8_single_connection_counterexample :
    (NewClaimStore.SaveOutput emptyState c8BadOutput).1
        = .error .outputClaimUnset ∧
    (NewClaimStore.SaveOutput emptyState c8BadOutput).2 = emptyState ∧
    ¬ ((NewClaimStore.SaveOutput emptyState c8BadOutput).2.connects
        = emptyState.connects + 1) :=
  ⟨rfl, rfl, by decide⟩

/-- C8 (amended): every public read or write operation of the claim store
that reaches the backing store — the listing, point-read, bulk-read,
last-read, legacy status, save and delete operations are all enumerated
below — performs exactly one connect and exactly one close during the
operation, the scope being released on every exit path (error paths
included, since `SingleConnection` holds regardless of the operation's
outcome); the sole exception is `SaveOutput` called with an unset claim
handle, which fails validation before touching the backing store — under
the hypothesis that the handle is set, `SaveOutput` also performs exactly
one connect and one close. -/
theorem C8_single_connection_amended (s : Store) (ns nm inst cid rid oname : String)
    (c : Claim) (r : Result) (i : Installation) (o : Output)
    (ho : ¬ o.claim.ID = "") :
    SingleConnection (fun st => s.SaveOutput st o) ∧
    SingleConnection (fun st => Store.ListInstallations st ns) ∧
    SingleConnection (fun st => Store.ListClaims st inst) ∧
    SingleConnection (fun st => Store.ListResults st cid) ∧
    SingleConnection (fun st => Store.ListOutputs st rid) ∧
    SingleConnection (fun st => Store.ReadInstallation st ns nm) ∧
    SingleConnection (fun st => Store.ReadAllInstallations st) ∧
    SingleConnection (fun st => s.ReadInstallationStatus st inst) ∧
    SingleConnection (fun st => s.ReadAllInstallationStatus st) ∧
    SingleConnection (fun st => s.ReadClaim st cid) ∧
    SingleConnection (fun st => s.ReadAllClaims st inst) ∧
    SingleConnection (fun st => s.ReadLastClaim st inst) ∧
    SingleConnection (fun st => Store.ReadResult st rid) ∧
    SingleConnection (fun st => Store.ReadAllResults st cid) ∧
    SingleConnection (fun st => Store.ReadLastResult st cid) ∧
    SingleConnection (fun st => s.ReadOutput st c r oname) ∧
    SingleConnection (fun st => s.ReadLastOutputs st inst) ∧
    SingleConnection (fun st => s.ReadLastOutput st inst oname) ∧
    SingleConnection (fun st => s.SaveInstallation st i) ∧
    SingleConnection (fun st => s.SaveClaim st c) ∧
    SingleConnection (fun st => s.SaveResult st r) ∧
    SingleConnection (fun st => Store.DeleteOutput st rid oname) ∧
    SingleConnection (fun st => Store.DeleteResult st rid) ∧
    SingleConnection (fun st => Store.DeleteClaim st cid) ∧
    SingleConnection (fun st => Store.DeleteInstallation st inst) :=
  ⟨sc_SaveOutput s o ho,
    sc_of_scan (ListInstallations_snd ns),
    sc_of_scan (ListClaims_snd inst),
    sc_of_scan (ListResults_snd cid),
    sc_of_scan (ListOutputs_snd rid),
    sc_of_scan (ReadInstallation_snd ns nm),
    sc_of_scan ReadAllInstallations_snd,
    (ris_both s inst).2,
    sc_ReadAllInstallationStatus s,
    sc_of_scan (fun st => ReadClaim_snd s st cid),
    sc_of_scan (fun st => ReadAllClaims_snd s st inst),
    sc_ReadLastClaim s inst,
    sc_of_scan (ReadResult_snd rid),
    sc_of_scan (ReadAllResults_snd cid),
    sc_ReadLastResult cid,
    sc_of_scan (ReadOutput_snd s c r oname),
    sc_ReadLastOutputs s inst,
    sc_ReadLastOutput s inst oname,
    sc_SaveInstallation s i,
    sc_SaveClaim s c,
    sc_SaveResult s r,
    sc_DeleteOutput rid oname,
    (dr_both rid).2,
    (dc_both cid).2,
    sc_DeleteInstallation inst⟩

/-- Witness for the amended C8: a concrete output with its claim handle
set satisfies the hypothesis, and `SaveOutput` on it opens and closes
exactly one connection scope. -/
theorem C8_single_connection_amended_witness :
    ¬ c8Output.claim.ID = "" ∧
    SingleConnection (fun st => NewClaimStore.SaveOutput st c8Output) :=
  ⟨by decide,
    (C8_single_connection_amended NewClaimStore "" "" "" "" "" ""
      sampleClaim sampleResult sampleInstallation c8Output (by decide)).1⟩

/-! ## C3: ReadLastOutputs aggregate correctness -/

/-- Lookup in the embedded Go map (association list). -/
def assocFind (m : List (String × Result)) (k : String) : Option Result :=
  (m.find? (fun p => decide (p.1 = k))).map Prod.snd

theorem find_in_mapSet (m : List (String × Result)) (k : String) (v : Result)
    (h : ∃ p0 ∈ m, p0.1 = k) :
    (m.map (fun p => if p.1 = k then (k, v) else p)).find?
      (fun p => decide (p.1 = k)) = some (k, v) := by
  induction m with
  | nil =>
    rcases h with ⟨p0, h0, _⟩
    cases h0
  | cons x xs ih =>
    by_cases hx : x.1 = k
    · simp [List.find?_cons, hx]
    · rcases h with ⟨p0, h0, hk0⟩
      rcases List.mem_cons.mp h0 with h1 | h1
      · exact absurd (h1 ▸ hk0) hx
      · simp only [List.map_cons, if_neg hx, List.find?_cons, decide_eq_false hx]
        exact ih ⟨p0, h1, hk0⟩

theorem assocFind_mapSet_self (m : List (String × Result)) (k : String) (v : Result) :
    assocFind (mapSet m k v) k = some v := by
  unfold assocFind mapSet
  by_cases h : m.any (fun p => decide (p.1 = k)) = true
  · rw [if_pos h]
    rcases List.any_eq_true.mp h with ⟨p0, hp0, hk0⟩
    rw [decide_eq_true_eq] at hk0
    rw [find_in_mapSet m k v ⟨p0, hp0, hk0⟩]
    rfl
  · rw [if_neg h]
    have hnone : m.find? (fun p => decide (p.1 = k)) = none := by
      rw [List.find?_eq_none]
      intro x hx
      simp only [decide_eq_true_eq]
      intro hk
      exact h (List.any_eq_true.mpr ⟨x, hx, by simp [hk]⟩)
    rw [List.find?_append, hnone]
    simp

theorem find_replaced_other (k k' : String) (v : Result) (hne : ¬ k' = k) :
    ∀ (m : List (String × Result)),
    ((m.map (fun p => if p.1 = k then (k, v) else p)).find?
      (fun p => decide (p.1 = k'))).map Prod.snd
      = (m.find? (fun p => decide (p.1 = k'))).map Prod.snd := by
  intro m
  induction m with
  | nil => rfl
  | cons x xs ih =>
    by_cases hx : x.1 = k
    · have h1 : ¬ ((k, v).1 = k') := fun hc => hne hc.symm
      have h2 : ¬ (x.1 = k') := fun hc => hne ((hc ▸ hx : k' = k)).symm.symm
      simp only [List.map_cons, if_pos hx, List.find?_cons, decide_eq_false h1,
        decide_eq_false h2]
      exact ih
    · by_cases hx' : x.1 = k'
      · simp [List.map_cons, if_neg hx, List.find?_cons, decide_eq_true hx']
      · simp only [List.map_cons, if_neg hx, List.find?_cons, decide_eq_false hx']
        exact ih

theorem assocFind_mapSet_other (m : List (String × Result)) (k k' : String)
    (v : Result) (hne : ¬ k' = k) :
    assocFind (mapSet m k v) k' = assocFind m k' := by
  unfold assocFind mapSet
  split
  · exact find_replaced_other k k' v hne m
  · rw [List.find?_append]
    have hone : [(k, v)].find? (fun p => decide (p.1 = k')) = none := by
      simp only [List.find?_cons, List.find?_nil]
      rw [decide_eq_false (fun hc => hne hc.symm)]
    rw [hone]
    simp

theorem mapSet_replace_keys (m : List (String × Result)) (k : String) (v : Result) :
    (m.map (fun p => if p.1 = k then (k, v) else p)).map Prod.fst
      = m.map Prod.fst := by
  induction m with
  | nil => rfl
  | cons x xs ih =>
    by_cases hx : x.1 = k
    · simp only [List.map_cons, if_pos hx, ih]
      rw [hx]
    · simp only [List.map_cons, if_neg hx, ih]

theorem mem_keys_mapSet (m : List (String × Result)) (k k' : String) (v : Result) :
    k' ∈ (mapSet m k v).map Prod.fst ↔ k' ∈ m.map Prod.fst ∨ k' = k := by
  unfold mapSet
  split
  · next h =>
    rw [mapSet_replace_keys]
    constructor
    · exact Or.inl
    · rintro (h1 | rfl)
      · exact h1
      · rcases List.any_eq_true.mp h with ⟨p0, hp0, hk0⟩
        rw [decide_eq_true_eq] at hk0
        exact List.mem_map.mpr ⟨p0, hp0, hk0⟩
  · rw [List.map_append]
    simp [List.mem_append]

theorem mapSet_keys_nodup (m : List (String × Result)) (k : String) (v : Result)
    (hnd : (m.map Prod.fst).Nodup) : ((mapSet m k v).map Prod.fst).Nodup := by
  unfold mapSet
  split
  · rw [mapSet_replace_keys]
    exact hnd
  · next h =>
    rw [List.map_append]
    refine List.Nodup.append hnd (by simp) ?_
    intro a ha hb
    simp only [List.map_cons, List.map_nil, List.mem_singleton] at hb
    subst hb
    rcases List.mem_map.mp ha with ⟨p0, hp0, hk0⟩
    exact h (List.any_eq_true.mpr ⟨p0, hp0, by simp [hk0]⟩)

theorem mem_mapSet (m : List (String × Result)) (k : String) (v : Result)
    (p : String × Result) (hp : p ∈ mapSet m k v) : p ∈ m ∨ p = (k, v) := by
  unfold mapSet at hp
  split at hp
  · rcases List.mem_map.mp hp with ⟨q, hq, hfq⟩
    by_cases hqk : q.1 = k
    · right
      rw [← hfq, if_pos hqk]
    · left
      rw [← hfq, if_neg hqk]
      exact hq
  · rcases List.mem_append.mp hp with h1 | h1
    · exact Or.inl h1
    · right
      simpa using h1

/-- The inner loop of `readLastOutputs` with no name filter: record `r` as
the writer of every name in `ns`, in order. -/
def setAll (r : Result) : List String → List (String × Result) →
    List (String × Result)
  | [], acc => acc
  | n :: ns, acc => setAll r ns (mapSet acc n r)

theorem foldl_filter_empty (r : Result) (ns : List String) :
    ∀ acc, ns.foldl (fun a n =>
      if ("" : String) = "" ∨ ("" : String) = n then mapSet a n r else a) acc
      = setAll r ns acc := by
  induction ns with
  | nil => intro acc; rfl
  | cons n ns ih =>
    intro acc
    rw [List.foldl_cons, if_pos (Or.inl rfl)]
    exact ih (mapSet acc n r)

theorem assocFind_setAll (r : Result) : ∀ (ns : List String)
    (acc : List (String × Result)) (k : String),
    assocFind (setAll r ns acc) k
      = if k ∈ ns then some r else assocFind acc k := by
  intro ns
  induction ns with
  | nil =>
    intro acc k
    simp [setAll]
  | cons n ns ih =>
    intro acc k
    rw [setAll, ih]
    by_cases hk : k ∈ ns
    · rw [if_pos hk, if_pos (List.mem_cons_of_mem n hk)]
    · rw [if_neg hk]
      by_cases hn : k = n
      · subst hn
        rw [if_pos (List.mem_cons_self k ns), assocFind_mapSet_self]
      · rw [if_neg (by
          intro hc
          rcases List.mem_cons.mp hc with h1 | h1
          · exact hn h1
          · exact hk h1)]
        exact assocFind_mapSet_other acc n k r hn

theorem mem_keys_setAll (r : Result) : ∀ (ns : List String)
    (acc : List (String × Result)) (k : String),
    k ∈ (setAll r ns acc).map Prod.fst ↔ k ∈ acc.map Prod.fst ∨ k ∈ ns := by
  intro ns
  induction ns with
  | nil =>
    intro acc k
    simp [setAll]
  | cons n ns ih =>
    intro acc k
    rw [setAll, ih, mem_keys_mapSet]
    constructor
    · rintro ((h1 | rfl) | h1)
      · exact Or.inl h1
      · exact Or.inr (List.mem_cons_self k ns)
      · exact Or.inr (List.mem_cons_of_mem n h1)
    · rintro (h1 | h1)
      · exact Or.inl (Or.inl h1)
      · rcases List.mem_cons.mp h1 with rfl | h2
        · exact Or.inl (Or.inr rfl)
        · exact Or.inr h2

theorem keys_nodup_setAll (r : Result) : ∀ (ns : List String)
    (acc : List (String × Result)),
    (acc.map Prod.fst).Nodup → ((setAll r ns acc).map Prod.fst).Nodup := by
  intro ns
  induction ns with
  | nil =>
    intro acc h
    exact h
  | cons n ns ih =>
    intro acc h
    exact ih (mapSet acc n r) (mapSet_keys_nodup acc n r h)

theorem mem_setAll (r : Result) : ∀ (ns : List String)
    (acc : List (String × Result)) (p : String × Result),
    p ∈ setAll r ns acc → p ∈ acc ∨ (p.2 = r ∧ p.1 ∈ ns) := by
  intro ns
  induction ns with
  | nil =>
    intro acc p hp
    exact Or.inl hp
  | cons n ns ih =>
    intro acc p hp
    rcases ih (mapSet acc n r) p hp with h1 | h1
    · rcases mem_mapSet acc n r p h1 with h2 | h2
      · exact Or.inl h2
      · right
        rw [h2]
        exact ⟨rfl, List.mem_cons_self n ns⟩
    · exact Or.inr ⟨h1.1, List.mem_cons_of_mem n h1.2⟩

/-- The outer loop of `readLastOutputs` with no name filter: walk the
results in order, a later writer of a name overwriting an earlier one. -/
def lastWriters (f : String → List String) :
    List Result → List (String × Result) → List (String × Result)
  | [], acc => acc
  | r :: rs, acc => lastWriters f rs (setAll r (sortStrings (f r.ID)) acc)

/-- The results (in list order) that wrote name `k`. -/
def writersOf (f : String → List String) (k : String) (rs : List Result) :
    List Result :=
  rs.filter (fun r => decide (k ∈ f r.ID))

theorem getLast_some_of_cons {α : Type} : ∀ (x : α) (xs : List α),
    ∃ a, (x :: xs).getLast? = some a := by
  intro x xs
  induction xs generalizing x with
  | nil => exact ⟨x, rfl⟩
  | cons y ys ih =>
    rcases ih y with ⟨a, ha⟩
    exact ⟨a, by rw [List.getLast?_cons_cons]; exact ha⟩

theorem getLast_mem_of_some {α : Type} : ∀ {l : List α} {a : α},
    l.getLast? = some a → a ∈ l := by
  intro l
  induction l with
  | nil => intro a h; cases h
  | cons x xs ih =>
    intro a h
    cases hxs : xs with
    | nil =>
      rw [hxs] at h
      cases h
      exact List.mem_singleton_self x
    | cons y ys =>
      rw [hxs, List.getLast?_cons_cons] at h
      exact List.mem_cons_of_mem x (hxs ▸ ih (hxs ▸ h))

theorem assocFind_lastWriters (f : String → List String) (k : String) :
    ∀ (rs : List Result) (acc : List (String × Result)),
    assocFind (lastWriters f rs acc) k
      = ((writersOf f k rs).getLast?).elim (assocFind acc k) some := by
  intro rs
  induction rs with
  | nil =>
    intro acc
    simp [lastWriters, writersOf]
  | cons r rs ih =>
    intro acc
    rw [lastWriters, ih]
    by_cases hw : k ∈ f r.ID
    · have hfil : writersOf f k (r :: rs) = r :: writersOf f k rs := by
        unfold writersOf
        rw [List.filter_cons, if_pos (by simpa using hw)]
      rw [hfil]
      cases hws : (writersOf f k rs).getLast? with
      | none =>
        have hnil : writersOf f k rs = [] := by
          cases hcase : writersOf f k rs with
          | nil => rfl
          | cons a as =>
            rcases getLast_some_of_cons a as with ⟨b, hb⟩
            rw [hcase, hb] at hws
            cases hws
        rw [hnil]
        simp only [Option.elim, List.getLast?_singleton]
        rw [assocFind_setAll, if_pos (mem_sortStrings.mpr hw)]
      | some rl =>
        cases hcase : writersOf f k rs with
        | nil =>
          rw [hcase] at hws
          cases hws
        | cons a as =>
          rw [List.getLast?_cons_cons]
          rw [hcase] at hws
          rw [hws]
          rfl
    · have hfil : writersOf f k (r :: rs) = writersOf f k rs := by
        unfold writersOf
        rw [List.filter_cons, if_neg (by simpa using hw)]
      rw [hfil, assocFind_setAll, if_neg (fun hc => hw (mem_sortStrings.mp hc))]

theorem mem_keys_lastWriters (f : String → List String) (k : String) :
    ∀ (rs : List Result) (acc : List (String × Result)),
    k ∈ (lastWriters f rs acc).map Prod.fst ↔
      k ∈ acc.map Prod.fst ∨ ∃ r ∈ rs, k ∈ f r.ID := by
  intro rs
  induction rs with
  | nil =>
    intro acc
    simp [lastWriters]
  | cons r rs ih =>
    intro acc
    rw [lastWriters, ih, mem_keys_setAll]
    constructor
    · rintro ((h1 | h1) | ⟨r2, hr2, hk2⟩)
      · exact Or.inl h1
      · exact Or.inr ⟨r, List.mem_cons_self r rs, mem_sortStrings.mp h1⟩
      · exact Or.inr ⟨r2, List.mem_cons_of_mem r hr2, hk2⟩
    · rintro (h1 | ⟨r2, hr2, hk2⟩)
      · exact Or.inl (Or.inl h1)
      · rcases List.mem_cons.mp hr2 with rfl | h3
        · exact Or.inl (Or.inr (mem_sortStrings.mpr hk2))
        · exact Or.inr ⟨r2, h3, hk2⟩

theorem keys_nodup_lastWriters (f : String → List String) :
    ∀ (rs : List Result) (acc : List (String × Result)),
    (acc.map Prod.fst).Nodup → ((lastWriters f rs acc).map Prod.fst).Nodup := by
  intro rs
  induction rs with
  | nil =>
    intro acc h
    exact h
  | cons r rs ih =>
    intro acc h
    exact ih _ (keys_nodup_setAll r _ acc h)

theorem mem_lastWriters (f : String → List String) :
    ∀ (rs : List Result) (acc : List (String × Result)) (p : String × Result),
    p ∈ lastWriters f rs acc → p ∈ acc ∨ (p.2 ∈ rs ∧ p.1 ∈ f p.2.ID) := by
  intro rs
  induction rs with
  | nil =>
    intro acc p hp
    exact Or.inl hp
  | cons r rs ih =>
    intro acc p hp
    rcases ih _ p hp with h1 | h1
    · rcases mem_setAll r _ acc p h1 with h2 | h2
      · exact Or.inl h2
      · right
        constructor
        · rw [h2.1]
          exact List.mem_cons_self r rs
        · rw [h2.1]
          exact mem_sortStrings.mp h2.2
    · exact Or.inr ⟨List.mem_cons_of_mem r h1.1, h1.2⟩

theorem assocFind_of_mem_nodup :
    ∀ (m : List (String × Result)), (m.map Prod.fst).Nodup →
    ∀ p ∈ m, assocFind m p.1 = some p.2 := by
  intro m
  induction m with
  | nil =>
    intro _ p hp
    cases hp
  | cons x xs ih =>
    intro hnd p hp
    rcases List.mem_cons.mp hp with rfl | h1
    · unfold assocFind
      simp [List.find?_cons]
    · have hx : ¬ (x.1 = p.1) := by
        intro hc
        have hmem : p.1 ∈ xs.map Prod.fst := List.mem_map.mpr ⟨p, h1, rfl⟩
        rw [List.map_cons] at hnd
        exact (List.nodup_cons.mp hnd).1 (hc ▸ hmem)
      unfold assocFind
      simp only [List.find?_cons, decide_eq_false hx]
      exact ih (by rw [List.map_cons] at hnd; exact (List.nodup_cons.mp hnd).2) p h1

theorem mem_of_assocFind (m : List (String × Result)) (k : String) (v : Result)
    (h : assocFind m k = some v) : (k, v) ∈ m := by
  unfold assocFind at h
  cases hf : m.find? (fun p => decide (p.1 = k)) with
  | none =>
    rw [hf] at h
    cases h
  | some q =>
    rw [hf] at h
    have hq : q ∈ m := List.mem_of_find?_eq_some hf
    have hk0 := List.find?_some hf
    have hk : q.1 = k := by simpa using hk0
    have hv : q.2 = v := by
      simpa using h
    have hkv : (k, v) = q := by
      rw [← hk, ← hv]
    rw [hkv]
    exact hq

theorem sorted_getLast_max (f : Result → String) :
    ∀ {l : List Result}, l.Pairwise (fun a b => StrLeP (f a) (f b)) →
    ∀ {r}, l.getLast? = some r → ∀ x ∈ l, StrLeP (f x) (f r) := by
  intro l
  induction l with
  | nil =>
    intro _ r h
    cases h
  | cons a l ih =>
    intro hp r hl x hx
    cases hls : l with
    | nil =>
      rw [hls] at hl
      rw [List.getLast?_singleton] at hl
      cases hl
      rcases List.mem_cons.mp hx with rfl | h1
      · exact strLe_refl (f x)
      · rw [hls] at h1
        cases h1
    | cons b l2 =>
      rw [hls, List.getLast?_cons_cons] at hl
      have hl2 : l.getLast? = some r := by
        rw [hls]
        exact hl
      rcases List.mem_cons.mp hx with rfl | h1
      · have hr : r ∈ l := getLast_mem_of_some hl2
        exact (List.pairwise_cons.mp hp).1 r hr
      · exact ih (List.pairwise_cons.mp hp).2 hl2 x h1

instance : IsTotal Result (fun a b => StrLeP a.ID b.ID) :=
  ⟨fun a b => charsLe_total a.ID.data b.ID.data⟩

instance : IsTrans Result (fun a b => StrLeP a.ID b.ID) :=
  ⟨fun _ _ _ h1 h2 => charsLe_trans h1 h2⟩

instance : IsTotal Output (fun a b => StrLeP a.Name b.Name) :=
  ⟨fun a b => charsLe_total a.Name.data b.Name.data⟩

instance : IsTrans Output (fun a b => StrLeP a.Name b.Name) :=
  ⟨fun _ _ _ h1 h2 => charsLe_trans h1 h2⟩

theorem mapM_decode (s : Store) (hDE : ∀ d, s.decrypt (s.encrypt d) = d) :
    ∀ l : List Claim,
    (l.map (fun c => s.encrypt (Data.claim c))).mapM (fun d =>
      match s.decrypt d with
      | Data.claim c => some c
      | _ => none) = some l := by
  intro l
  induction l with
  | nil => rfl
  | cons c l ih =>
    simp only [List.map_cons, List.mapM_cons, hDE, ih]
    rfl

theorem findIdx_shift (p : Output → Bool) :
    ∀ (l : List Output) (n : Nat),
    l.findIdx? p (n + 1) = (l.findIdx? p n).map (fun i => i + 1) := by
  intro l
  induction l with
  | nil =>
    intro n
    rfl
  | cons x xs ih =>
    intro n
    rw [List.findIdx?_cons, List.findIdx?_cons]
    by_cases hx : p x = true
    · simp [hx]
    · rw [if_neg hx, if_neg hx, ih (n + 1)]

theorem findIdx_name_of_nodup :
    ∀ (l : List Output), (l.map Output.Name).Nodup →
    ∀ o ∈ l, ∃ i, l.findIdx? (fun x => decide (x.Name = o.Name)) = some i ∧
      l.get? i = some o := by
  intro l
  induction l with
  | nil =>
    intro _ o ho
    cases ho
  | cons x xs ih =>
    intro hnd o ho
    by_cases hx : x.Name = o.Name
    · have hxo : x = o := by
        rcases List.mem_cons.mp ho with rfl | h1
        · rfl
        · exfalso
          have hmem : o.Name ∈ xs.map Output.Name := List.mem_map.mpr ⟨o, h1, rfl⟩
          rw [List.map_cons] at hnd
          exact (List.nodup_cons.mp hnd).1 (hx ▸ hmem)
      refine ⟨0, ?_, by rw [hxo]; rfl⟩
      rw [List.findIdx?_cons]
      simp [hx]
    · have ho2 : o ∈ xs := by
        rcases List.mem_cons.mp ho with rfl | h1
        · exact absurd rfl hx
        · exact h1
      rw [List.map_cons] at hnd
      rcases ih (List.nodup_cons.mp hnd).2 o ho2 with ⟨i, hi, hg⟩
      refine ⟨i + 1, ?_, by simpa using hg⟩
      rw [List.findIdx?_cons, if_neg (by simpa using hx), findIdx_shift, hi]
      rfl

@[simp] theorem scanSnd_records (st : CrudState) :
    (scanSnd st).records = st.records := by
  unfold scanSnd
  split <;> rfl

theorem map_roundtrip {α β : Type} (f : α → β) (g : β → α)
    (hfg : ∀ a, g (f a) = a) : ∀ l : List α, (l.map f).map g = l := by
  intro l
  induction l with
  | nil => rfl
  | cons a l ih => simp [hfg, ih]

/-- `ListResults` on a group whose records are exactly the given result
ids returns those ids sorted. -/
theorem ListResults_fst_of (st : CrudState) (cid : String) (ids : List String)
    (rv : String → Data)
    (h : st.records.filter (fun r => decide (r.inGroup ItemTypeResults cid))
      = ids.map (fun rid => ⟨ItemTypeResults, cid, rid, rv rid⟩)) :
    (Store.ListResults st cid).1 = .ok (sortStrings ids) := by
  unfold Store.ListResults
  cases hids : ids with
  | nil =>
    rw [hids] at h
    simp only [List.map_nil] at h
    have hraw : rawList st.records ItemTypeResults cid
        = .error .recordDoesNotExist := by
      unfold rawList
      rw [h]
    simp [hraw, sortStrings, List.insertionSort]
  | cons a as =>
    rw [hids] at h
    have hraw : rawList st.records ItemTypeResults cid = .ok (a :: as) := by
      unfold rawList
      rw [h, List.map_cons]
      have hk : ((a :: as).map
          (fun rid => (⟨ItemTypeResults, cid, rid, rv rid⟩ : Record))).map
            Record.key = a :: as :=
        map_roundtrip _ _ (fun rid => rfl) (a :: as)
      rw [List.map_cons] at hk
      simp only [← hk, List.map_cons]
    simp [hraw]

/-- `ListOutputs` on a group whose records are exactly the given names
(keyed `<rid>-<name>`) returns those names sorted. -/
theorem ListOutputs_fst_of (st : CrudState) (rid : String) (ns : List String)
    (vv : String → Data)
    (h : st.records.filter (fun r => decide (r.inGroup ItemTypeOutputs rid))
      = ns.map (fun n => ⟨ItemTypeOutputs, rid, rid ++ "-" ++ n, vv n⟩)) :
    (Store.ListOutputs st rid).1 = .ok (sortStrings ns) := by
  unfold Store.ListOutputs
  cases hns : ns with
  | nil =>
    rw [hns] at h
    simp only [List.map_nil] at h
    have hraw : rawList st.records ItemTypeOutputs rid
        = .error .recordDoesNotExist := by
      unfold rawList
      rw [h]
    simp [hraw, sortStrings, List.insertionSort]
  | cons a as =>
    rw [hns] at h
    have hraw : rawList st.records ItemTypeOutputs rid
        = .ok ((a :: as).map (fun n => rid ++ "-" ++ n)) := by
      unfold rawList
      rw [h, List.map_cons]
      have hk : ((a :: as).map (fun n =>
          (⟨ItemTypeOutputs, rid, rid ++ "-" ++ n, vv n⟩ : Record))).map
            Record.key = (a :: as).map (fun n => rid ++ "-" ++ n) := by
        rw [List.map_map]
        rfl
      rw [List.map_cons] at hk
      simp only [← hk, List.map_cons]
    have htrim : ((a :: as).map (fun n => rid ++ "-" ++ n)).map
        (fun n => trimPfx n (rid ++ "-")) = a :: as :=
      map_roundtrip _ _ (fun n => trimPfx_append (rid ++ "-") n) (a :: as)
    simp only [bsList_fst, hraw]
    rw [htrim]

/-- `ReadAllClaims` on a group holding exactly the encrypted claims `cs`
returns `cs` sorted by ID. -/
theorem ReadAllClaims_fst_of (s : Store) (st : CrudState) (inst : String)
    (cs : List Claim) (hDE : ∀ d, s.decrypt (s.encrypt d) = d)
    (hne : ¬ cs = [])
    (h : st.records.filter (fun r => decide (r.inGroup ItemTypeClaims inst))
      = cs.map (fun c => ⟨ItemTypeClaims, inst, c.ID, s.encrypt (.claim c)⟩)) :
    (s.ReadAllClaims st inst).1
      = .ok (List.insertionSort (fun a b => StrLeP a.ID b.ID) cs) := by
  cases hcs : cs with
  | nil => exact absurd hcs hne
  | cons c0 cs0 =>
    rw [hcs] at h
    have hraw : rawReadAll st.records ItemTypeClaims inst
        = .ok ((c0 :: cs0).map (fun c => s.encrypt (Data.claim c))) := by
      unfold rawReadAll
      rw [h, List.map_cons]
      have hv : ((c0 :: cs0).map (fun c =>
          (⟨ItemTypeClaims, inst, c.ID, s.encrypt (Data.claim c)⟩ : Record))).map
            Record.value = (c0 :: cs0).map (fun c => s.encrypt (Data.claim c)) := by
        rw [List.map_map]
        rfl
      rw [List.map_cons] at hv
      simp only [← hv, List.map_cons]
    unfold Store.ReadAllClaims
    simp only [bsReadAll_fst, hraw]
    rw [mapM_decode s hDE (c0 :: cs0)]
    simp

theorem collectResults_fst_of (resIDs : String → List String) (rv : String → Data) :
    ∀ (cs1 : List Claim) (st : CrudState),
    (∀ c ∈ cs1, st.records.filter (fun r => decide (r.inGroup ItemTypeResults c.ID))
      = (resIDs c.ID).map (fun rid => ⟨ItemTypeResults, c.ID, rid, rv rid⟩)) →
    (collectResults st cs1).1
      = .ok (cs1.flatMap (fun c => (sortStrings (resIDs c.ID)).map (resultStub c))) := by
  intro cs1
  induction cs1 with
  | nil =>
    intro st _
    rfl
  | cons c cs1 ih =>
    intro st h
    have h1 := ListResults_fst_of st c.ID (resIDs c.ID) rv
      (h c (List.mem_cons_self c cs1))
    have h2 := ih (Store.ListResults st c.ID).2 (by
      intro c2 hc2
      rw [ListResults_records]
      exact h c2 (List.mem_cons_of_mem c hc2))
    simp only [collectResults, h1, h2]
    rw [List.flatMap_cons]

theorem collectLastOutputs_fst_of (outNames : String → List String)
    (vv : String → String → Data) :
    ∀ (rs1 : List Result) (acc : List (String × Result)) (st : CrudState),
    (∀ r ∈ rs1, st.records.filter (fun x => decide (x.inGroup ItemTypeOutputs r.ID))
      = (outNames r.ID).map (fun n =>
          ⟨ItemTypeOutputs, r.ID, r.ID ++ "-" ++ n, vv r.ID n⟩)) →
    (collectLastOutputs st "" rs1 acc).1 = .ok (lastWriters outNames rs1 acc) := by
  intro rs1
  induction rs1 with
  | nil =>
    intro acc st _
    rfl
  | cons r rs1 ih =>
    intro acc st h
    have h1 := ListOutputs_fst_of st r.ID (outNames r.ID) (vv r.ID)
      (h r (List.mem_cons_self r rs1))
    have h2 := ih (setAll r (sortStrings (outNames r.ID)) acc)
      (Store.ListOutputs st r.ID).2 (by
        intro r2 hr2
        rw [ListOutputs_records]
        exact h r2 (List.mem_cons_of_mem r hr2))
    have hstep : collectLastOutputs st "" (r :: rs1) acc
        = (match (Store.ListOutputs st r.ID).1 with
          | .error e => (.error e, (Store.ListOutputs st r.ID).2)
          | .ok outputNames =>
            collectLastOutputs (Store.ListOutputs st r.ID).2 "" rs1
              (outputNames.foldl (fun a n =>
                if ("" : String) = "" ∨ ("" : String) = n then mapSet a n r else a)
                acc)) := rfl
    rw [hstep, h1]
    show (collectLastOutputs (Store.ListOutputs st r.ID).2 "" rs1
        ((sortStrings (outNames r.ID)).foldl (fun a n =>
          if ("" : String) = "" ∨ ("" : String) = n then mapSet a n r else a)
          acc)).1
      = .ok (lastWriters outNames (r :: rs1) acc)
    rw [foldl_filter_empty, h2]
    rfl

theorem fetchOutputs_fst_of (s : Store) (R : List Record) (hWF : WFKeys R)
    (hDE : ∀ d, s.decrypt (s.encrypt d) = d) (co : String → Claim)
    (wv : String → String → Data) :
    ∀ (lst : List (String × Result)) (st : CrudState), st.records = R →
    (∀ p ∈ lst, p.2.claim = some (co p.2.ID) ∧
      (⟨ItemTypeOutputs, p.2.ID, p.2.ID ++ "-" ++ p.1,
        if bundleMarksSensitive (co p.2.ID).Bundle p.1
        then s.encrypt (wv p.2.ID p.1) else wv p.2.ID p.1⟩ : Record) ∈ R) →
    (fetchOutputs s st lst).1
      = .ok (lst.map (fun p => NewOutput (co p.2.ID) p.2 p.1 (wv p.2.ID p.1))) := by
  intro lst
  induction lst with
  | nil =>
    intro st _ _
    rfl
  | cons p0 lst ih =>
    intro st hrec h
    cases p0 with
    | mk n r =>
      obtain ⟨hclaim, hmem⟩ := h (n, r) (List.mem_cons_self _ _)
      have hread : rawRead st.records ItemTypeOutputs (Store.outputKey r.ID n)
          = .ok (if bundleMarksSensitive (co r.ID).Bundle n
              then s.encrypt (wv r.ID n) else wv r.ID n) := by
        rw [hrec]
        exact rawRead_of_mem hWF hmem ⟨rfl, rfl⟩
      have hro : (s.ReadOutput st (co r.ID) r n).1
          = .ok (NewOutput (co r.ID) r n (wv r.ID n)) := by
        unfold Store.ReadOutput
        simp only [bsRead_fst, hread]
        cases hsens : bundleMarksSensitive (co r.ID).Bundle n with
        | true => simp [hsens, hDE]
        | false => simp [hsens]
      have ih2 := ih (s.ReadOutput st (co r.ID) r n).2 (by
          rw [ReadOutput_snd, scanSnd_records, hrec])
        (fun p hp => h p (List.mem_cons_of_mem _ hp))
      have hclaim2 : r.claim = some (co r.ID) := hclaim
      simp only [fetchOutputs, hclaim2, hro, ih2]
      rfl

@[simp] theorem collectResults_records (cs1 : List Claim) :
    ∀ st, (collectResults st cs1).2.records = st.records := by
  induction cs1 with
  | nil => intro st; rfl
  | cons c cs1 ih =>
    intro st
    simp only [collectResults]
    cases hp : (Store.ListResults st c.ID).1 with
    | error e => simp [hp]
    | ok ids =>
      cases hq : (collectResults (Store.ListResults st c.ID).2 cs1).1 with
      | error e => simp [hp, hq, ih]
      | ok rest => simp [hp, hq, ih]

@[simp] theorem collectLastOutputs_records (rs1 : List Result) :
    ∀ fo acc st, (collectLastOutputs st fo rs1 acc).2.records = st.records := by
  induction rs1 with
  | nil => intro fo acc st; rfl
  | cons r rs1 ih =>
    intro fo acc st
    simp only [collectLastOutputs]
    cases hp : (Store.ListOutputs st r.ID).1 with
    | error e => simp [hp]
    | ok names => simp [hp, ih]

@[simp] theorem fetchOutputs_records (s : Store) (lst : List (String × Result)) :
    ∀ st, (fetchOutputs s st lst).2.records = st.records := by
  induction lst with
  | nil => intro st; rfl
  | cons p0 lst ih =>
    intro st
    cases p0 with
    | mk n r =>
      simp only [fetchOutputs]
      cases hc : r.claim with
      | none => simp [hc]
      | some c =>
        simp only [hc]
        split
        · show (s.ReadOutput st c r n).2.records = st.records
          rw [ReadOutput_snd, scanSnd_records]
        · split
          · rw [ih, ReadOutput_snd, scanSnd_records]
          · rw [ih, ReadOutput_snd, scanSnd_records]

/-- The sorted result stubs `readLastOutputs` iterates: every result id of
every claim of the installation, as a stub carrying its claim, sorted by
result id. -/
def c3Stubs (cs : List Claim) (resIDs : String → List String) : List Result :=
  List.insertionSort (fun a b => StrLeP a.ID b.ID)
    ((List.insertionSort (fun a b => StrLeP a.ID b.ID) cs).flatMap
      (fun c => (sortStrings (resIDs c.ID)).map (resultStub c)))

/-- The winning `(name, result)` map computed by the second loop of
`readLastOutputs`. -/
def c3Winners (outNames : String → List String) (cs : List Claim)
    (resIDs : String → List String) : List (String × Result) :=
  lastWriters outNames (c3Stubs cs resIDs) []

theorem mem_c3Stubs {cs : List Claim} {resIDs : String → List String} {r : Result}
    (hr : r ∈ c3Stubs cs resIDs) :
    ∃ c ∈ cs, ∃ rid ∈ resIDs c.ID, r = resultStub c rid := by
  unfold c3Stubs at hr
  have hr2 := (List.perm_insertionSort _ _).subset hr
  rcases List.mem_flatMap.mp hr2 with ⟨c, hc, hr3⟩
  have hc2 := (List.perm_insertionSort _ _).subset hc
  rcases List.mem_map.mp hr3 with ⟨rid, hrid, hstub⟩
  exact ⟨c, hc2, rid, mem_sortStrings.mp hrid, hstub.symm⟩

theorem c3Stubs_mem {cs : List Claim} {resIDs : String → List String}
    {c : Claim} {rid : String} (hc : c ∈ cs) (hrid : rid ∈ resIDs c.ID) :
    resultStub c rid ∈ c3Stubs cs resIDs := by
  unfold c3Stubs
  refine (List.perm_insertionSort _ _).mem_iff.mpr ?_
  refine List.mem_flatMap.mpr ⟨c, ?_, ?_⟩
  · exact (List.perm_insertionSort _ _).mem_iff.mpr hc
  · exact List.mem_map.mpr ⟨rid, mem_sortStrings.mpr hrid, rfl⟩

theorem c3Stubs_sorted (cs : List Claim) (resIDs : String → List String) :
    (c3Stubs cs resIDs).Pairwise (fun a b => StrLeP a.ID b.ID) := by
  unfold c3Stubs
  exact List.sorted_insertionSort (fun a b : Result => StrLeP a.ID b.ID) _

theorem map_eq_of_pointwise {α β : Type} (f g : α → β) (h : ∀ a, f a = g a) :
    ∀ l : List α, l.map f = l.map g := by
  intro l
  induction l with
  | nil => rfl
  | cons a l ih => simp [h, ih]

/-- The closed form of `readLastOutputs` over a well-formed installation
tree: the winning outputs, decrypted back to the written plaintext,
packaged by `NewOutputs`. -/
theorem readLastOutputs_fst_of (s : Store) (st : CrudState) (inst : String)
    (cs : List Claim) (resIDs : String → List String) (rv : String → Data)
    (outNames : String → List String) (co : String → Claim)
    (wv : String → String → Data)
    (hDE : ∀ d, s.decrypt (s.encrypt d) = d)
    (hWF : WFKeys st.records)
    (hne : ¬ cs = [])
    (hcs : st.records.filter (fun r => decide (r.inGroup ItemTypeClaims inst))
      = cs.map (fun c => ⟨ItemTypeClaims, inst, c.ID, s.encrypt (.claim c)⟩))
    (hres : ∀ c ∈ cs, st.records.filter
        (fun r => decide (r.inGroup ItemTypeResults c.ID))
      = (resIDs c.ID).map (fun rid => ⟨ItemTypeResults, c.ID, rid, rv rid⟩))
    (hco : ∀ c ∈ cs, ∀ rid ∈ resIDs c.ID, co rid = c)
    (houts : ∀ c ∈ cs, ∀ rid ∈ resIDs c.ID, st.records.filter
        (fun r => decide (r.inGroup ItemTypeOutputs rid))
      = (outNames rid).map (fun n => ⟨ItemTypeOutputs, rid, rid ++ "-" ++ n,
          if bundleMarksSensitive c.Bundle n then s.encrypt (wv rid n)
          else wv rid n⟩)) :
    (s.readLastOutputs st inst "").1
      = .ok (NewOutputs ((c3Winners outNames cs resIDs).map
          (fun p => NewOutput (co p.2.ID) p.2 p.1 (wv p.2.ID p.1)))) := by
  have hrecs1 : (s.ReadAllClaims st inst).2.records = st.records := by
    rw [ReadAllClaims_snd, scanSnd_records]
  have h1 := ReadAllClaims_fst_of s st inst cs hDE hne hcs
  have h2 := collectResults_fst_of resIDs rv
    (List.insertionSort (fun a b => StrLeP a.ID b.ID) cs)
    (s.ReadAllClaims st inst).2
    (by
      intro c hc
      rw [hrecs1]
      exact hres c ((List.perm_insertionSort _ cs).subset hc))
  have hrecs2 : (collectResults (s.ReadAllClaims st inst).2
      (List.insertionSort (fun a b => StrLeP a.ID b.ID) cs)).2.records
      = st.records := by
    rw [collectResults_records, hrecs1]
  have hback : List.insertionSort (fun a b => StrLeP a.ID b.ID)
      ((List.insertionSort (fun a b => StrLeP a.ID b.ID) cs).flatMap
        (fun c => (sortStrings (resIDs c.ID)).map (resultStub c)))
      = c3Stubs cs resIDs := rfl
  have h3 := collectLastOutputs_fst_of outNames
    (fun rid n => if bundleMarksSensitive (co rid).Bundle n
      then s.encrypt (wv rid n) else wv rid n)
    (c3Stubs cs resIDs) []
    (collectResults (s.ReadAllClaims st inst).2
      (List.insertionSort (fun a b => StrLeP a.ID b.ID) cs)).2
    (by
      intro r hr
      rcases mem_c3Stubs hr with ⟨c, hc, rid, hrid, rfl⟩
      have hid : (resultStub c rid).ID = rid := rfl
      rw [hid, hrecs2]
      show st.records.filter (fun x => decide (x.inGroup ItemTypeOutputs rid))
        = (outNames rid).map (fun n => ⟨ItemTypeOutputs, rid, rid ++ "-" ++ n,
            if bundleMarksSensitive (co rid).Bundle n then s.encrypt (wv rid n)
            else wv rid n⟩)
      rw [hco c hc rid hrid]
      exact houts c hc rid hrid)
  have h4 := fetchOutputs_fst_of s st.records hWF hDE co wv
    (lastWriters outNames (c3Stubs cs resIDs) [])
    (collectLastOutputs (collectResults (s.ReadAllClaims st inst).2
      (List.insertionSort (fun a b => StrLeP a.ID b.ID) cs)).2
      "" (c3Stubs cs resIDs) []).2
    (by rw [collectLastOutputs_records, hrecs2])
    (by
      intro p hp
      rcases mem_lastWriters outNames (c3Stubs cs resIDs) [] p hp with h0 | h0
      · cases h0
      · rcases mem_c3Stubs h0.1 with ⟨c, hc, rid, hrid, hstub⟩
        have hpid : p.2.ID = rid := by
          rw [hstub]
          rfl
        have hclaim : p.2.claim = some (co p.2.ID) := by
          rw [hstub]
          show some c = some (co rid)
          rw [hco c hc rid hrid]
        refine ⟨hclaim, ?_⟩
        have hn : p.1 ∈ outNames rid := by
          rw [← hpid]
          exact h0.2
        have hmm : (⟨ItemTypeOutputs, rid, rid ++ "-" ++ p.1,
            if bundleMarksSensitive c.Bundle p.1 then s.encrypt (wv rid p.1)
            else wv rid p.1⟩ : Record) ∈ st.records := by
          have hfil : (⟨ItemTypeOutputs, rid, rid ++ "-" ++ p.1,
              if bundleMarksSensitive c.Bundle p.1 then s.encrypt (wv rid p.1)
              else wv rid p.1⟩ : Record) ∈ st.records.filter
                (fun r => decide (r.inGroup ItemTypeOutputs rid)) := by
            rw [houts c hc rid hrid]
            exact List.mem_map.mpr ⟨p.1, hn, rfl⟩
          exact (List.mem_filter.mp hfil).1
        rw [hpid, hco c hc rid hrid]
        exact hmm)
  unfold Store.readLastOutputs
  simp only [h1]
  simp only [h2]
  rw [hback]
  simp only [h3]
  simp only [h4]
  rfl

/-- C3: over a well-formed installation tree (claims `cs` of installation
`inst`, result ids `resIDs` per claim, output names `outNames` per result,
plaintext values `wv`, stored encrypted iff the owning claim's bundle
marks the name write-only), `ReadLastOutputs` succeeds and returns a
container whose entry names are duplicate-free and are exactly the output
names ever written by any result of any claim of the installation; the
entry named `n` carries, for the lexicographically greatest result id
`rid` among those that wrote `n`, the plaintext written under `rid` and
points back at that result; and the container is sorted by output name and
indexable by name and by position. -/
theorem C3_read_last_outputs (s : Store) (st : CrudState) (inst : String)
    (cs : List Claim) (resIDs : String → List String) (rv : String → Data)
    (outNames : String → List String) (co : String → Claim)
    (wv : String → String → Data)
    (hDE : ∀ d, s.decrypt (s.encrypt d) = d)
    (hWF : WFKeys st.records)
    (hne : ¬ cs = [])
    (hcs : st.records.filter (fun r => decide (r.inGroup ItemTypeClaims inst))
      = cs.map (fun c => ⟨ItemTypeClaims, inst, c.ID, s.encrypt (.claim c)⟩))
    (hres : ∀ c ∈ cs, st.records.filter
        (fun r => decide (r.inGroup ItemTypeResults c.ID))
      = (resIDs c.ID).map (fun rid => ⟨ItemTypeResults, c.ID, rid, rv rid⟩))
    (hco : ∀ c ∈ cs, ∀ rid ∈ resIDs c.ID, co rid = c)
    (houts : ∀ c ∈ cs, ∀ rid ∈ resIDs c.ID, st.records.filter
        (fun r => decide (r.inGroup ItemTypeOutputs rid))
      = (outNames rid).map (fun n => ⟨ItemTypeOutputs, rid, rid ++ "-" ++ n,
          if bundleMarksSensitive c.Bundle n then s.encrypt (wv rid n)
          else wv rid n⟩)) :
    ∃ outs : Outputs,
      (s.ReadLastOutputs st inst).1 = .ok outs ∧
      (outs.vals.map Output.Name).Nodup ∧
      outs.vals.Pairwise (fun a b => StrLeP a.Name b.Name) ∧
      (∀ n, (∃ o ∈ outs.vals, o.Name = n) ↔
        ∃ c ∈ cs, ∃ rid ∈ resIDs c.ID, n ∈ outNames rid) ∧
      (∀ o ∈ outs.vals, ∀ c ∈ cs, ∀ rid ∈ resIDs c.ID, o.Name ∈ outNames rid →
        (∀ c2 ∈ cs, ∀ rid2 ∈ resIDs c2.ID, o.Name ∈ outNames rid2 →
          strLe rid2 rid = true) →
        o.Value = wv rid o.Name ∧ o.result.ID = rid) ∧
      (∀ o ∈ outs.vals, outs.GetByName o.Name = some o) ∧
      (∀ j, outs.GetByIndex j = outs.vals.get? j) := by
  have hrec : (handleConnect st).2.records = st.records := handleConnect_records st
  have hmain := readLastOutputs_fst_of s (handleConnect st).2 inst cs resIDs rv
    outNames co wv hDE
    (by rw [hrec]; exact hWF) hne
    (by rw [hrec]; exact hcs)
    (by intro c hc; rw [hrec]; exact hres c hc)
    hco
    (by intro c hc rid hrid; rw [hrec]; exact houts c hc rid hrid)
  have hkeysnd : ((c3Winners outNames cs resIDs).map Prod.fst).Nodup :=
    keys_nodup_lastWriters outNames (c3Stubs cs resIDs) [] (by simp)
  set M : List Output := (c3Winners outNames cs resIDs).map
    (fun p => NewOutput (co p.2.ID) p.2 p.1 (wv p.2.ID p.1)) with hMdef
  set OUTS : Outputs := NewOutputs M with hOUTS
  have hvalsperm : OUTS.vals.Perm M :=
    List.perm_insertionSort (fun a b : Output => StrLeP a.Name b.Name) M
  have hna : M.map Output.Name = (c3Winners outNames cs resIDs).map Prod.fst := by
    rw [hMdef, List.map_map]
    exact map_eq_of_pointwise _ _ (fun p => rfl) _
  have hnodupM : (M.map Output.Name).Nodup := by
    rw [hna]
    exact hkeysnd
  have hnodupvals : (OUTS.vals.map Output.Name).Nodup :=
    ((hvalsperm.map Output.Name).nodup_iff).mpr hnodupM
  refine ⟨OUTS, ?_, hnodupvals, ?_, ?_, ?_, ?_, ?_⟩
  · exact hmain
  · exact List.sorted_insertionSort (fun a b : Output => StrLeP a.Name b.Name) M
  · intro n
    constructor
    · rintro ⟨o, ho, rfl⟩
      have hoM : o ∈ M := hvalsperm.subset ho
      rw [hMdef] at hoM
      rcases List.mem_map.mp hoM with ⟨p, hpLW, rfl⟩
      rcases mem_lastWriters outNames (c3Stubs cs resIDs) [] p hpLW with h0 | h0
      · cases h0
      · rcases mem_c3Stubs h0.1 with ⟨c, hc, rid, hrid, hstub⟩
        refine ⟨c, hc, rid, hrid, ?_⟩
        have hpid : p.2.ID = rid := by
          rw [hstub]
          rfl
        show p.1 ∈ outNames rid
        rw [← hpid]
        exact h0.2
    · rintro ⟨c, hc, rid, hrid, hn⟩
      have hkey : n ∈ (c3Winners outNames cs resIDs).map Prod.fst := by
        show n ∈ (lastWriters outNames (c3Stubs cs resIDs) []).map Prod.fst
        refine (mem_keys_lastWriters outNames n (c3Stubs cs resIDs) []).mpr ?_
        exact Or.inr ⟨resultStub c rid, c3Stubs_mem hc hrid, hn⟩
      rcases List.mem_map.mp hkey with ⟨p, hpLW, hp1⟩
      refine ⟨NewOutput (co p.2.ID) p.2 p.1 (wv p.2.ID p.1), ?_, hp1⟩
      refine hvalsperm.mem_iff.mpr ?_
      rw [hMdef]
      exact List.mem_map.mpr ⟨p, hpLW, rfl⟩
  · intro o ho c hc rid hrid hnwrote hmax
    have hoM : o ∈ M := hvalsperm.subset ho
    rw [hMdef] at hoM
    rcases List.mem_map.mp hoM with ⟨p, hpLW, rfl⟩
    have hlast : (writersOf outNames p.1 (c3Stubs cs resIDs)).getLast?
        = some p.2 := by
      have hfind : assocFind (lastWriters outNames (c3Stubs cs resIDs) []) p.1
          = some p.2 :=
        assocFind_of_mem_nodup _ hkeysnd p hpLW
      rw [assocFind_lastWriters] at hfind
      cases hgl : (writersOf outNames p.1 (c3Stubs cs resIDs)).getLast? with
      | none =>
        rw [hgl] at hfind
        simp [assocFind] at hfind
      | some x =>
        rw [hgl] at hfind
        have hx : x = p.2 := by simpa using hfind
        rw [hx]
    have hwsorted : (writersOf outNames p.1 (c3Stubs cs resIDs)).Pairwise
        (fun a b => StrLeP a.ID b.ID) :=
      List.Pairwise.sublist (List.filter_sublist _) (c3Stubs_sorted cs resIDs)
    have hmaxw := sorted_getLast_max Result.ID hwsorted hlast
    have hstubw : resultStub c rid ∈ writersOf outNames p.1 (c3Stubs cs resIDs) :=
      List.mem_filter.mpr ⟨c3Stubs_mem hc hrid, decide_eq_true hnwrote⟩
    have h1 : StrLeP rid p.2.ID := hmaxw (resultStub c rid) hstubw
    have hp2w : p.2 ∈ writersOf outNames p.1 (c3Stubs cs resIDs) :=
      getLast_mem_of_some hlast
    have hp2s : p.2 ∈ c3Stubs cs resIDs := (List.mem_filter.mp hp2w).1
    rcases mem_c3Stubs hp2s with ⟨c2, hc2, rid2, hrid2, hstub2⟩
    have hpid2 : p.2.ID = rid2 := by
      rw [hstub2]
      rfl
    have hp1w : p.1 ∈ outNames rid2 := by
      have hd := (List.mem_filter.mp hp2w).2
      rw [← hpid2]
      exact of_decide_eq_true hd
    have h2 : strLe rid2 rid = true := hmax c2 hc2 rid2 hrid2 hp1w
    have heq : p.2.ID = rid := by
      rw [hpid2]
      rw [hpid2] at h1
      exact strLe_antisymm h2 h1
    constructor
    · show wv p.2.ID p.1 = wv rid p.1
      rw [heq]
    · exact heq
  · intro o ho
    rcases findIdx_name_of_nodup OUTS.vals hnodupvals o ho with ⟨i, hi, hg⟩
    show OUTS.GetByName o.Name = some o
    have hkeys : OUTS.keys o.Name
        = OUTS.vals.findIdx? (fun x => decide (x.Name = o.Name)) := rfl
    unfold Outputs.GetByName
    rw [hkeys, hi]
    exact hg
  · intro j
    rfl

/-- The result ids of the witness installation: claim `01A` ran twice. -/
def c3ResIDs : String → List String :=
  fun cid => if cid = "01A" then ["01R1", "01R2"] else []

/-- The output names written by each result: the first run wrote
`password` and `port`, the second overwrote `port`. -/
def c3OutNames : String → List String :=
  fun rid => if rid = "01R1" then ["password", "port"]
    else if rid = "01R2" then ["port"] else []

/-- The plaintext values written. -/
def c3Wv : String → String → Data :=
  fun rid n => if rid = "01R1" then
      (if n = "password" then .bytes [9] else .bytes [1])
    else .bytes [2]

/-- The (unread) result document bodies. -/
def c3Rv : String → Data := fun _ => .bytes []

/-- The claim owning every result of the witness tree. -/
def c3Co : String → Claim := fun _ => claimA

/-- The witness store state: installation `foo`, claim `01A`, results
`01R1` and `01R2`, and three output records (`password` encrypted, the
two `port` generations plain). -/
def c3State : CrudState :=
  ⟨[⟨ItemTypeInstallations, "", "foo", .installation sampleInstallation⟩,
    ⟨ItemTypeClaims, "foo", "01A", .enc (.claim claimA)⟩,
    ⟨ItemTypeResults, "01A", "01R1", .bytes []⟩,
    ⟨ItemTypeResults, "01A", "01R2", .bytes []⟩,
    ⟨ItemTypeOutputs, "01R1", "01R1-password", .enc (.bytes [9])⟩,
    ⟨ItemTypeOutputs, "01R1", "01R1-port", .bytes [1]⟩,
    ⟨ItemTypeOutputs, "01R2", "01R2-port", .bytes [2]⟩], false, 0, 0⟩

/-- Witness for C3: on the concrete two-generation tree, `ReadLastOutputs`
returns a duplicate-free, name-sorted container whose `port` entry is the
value written by the greatest result id `01R2`. -/
theorem C3_read_last_outputs_witness :
    ∃ outs : Outputs,
      (sampleStore.ReadLastOutputs c3State "foo").1 = .ok outs ∧
      (outs.vals.map Output.Name).Nodup ∧
      outs.vals.Pairwise (fun a b => StrLeP a.Name b.Name) ∧
      (∀ n, (∃ o ∈ outs.vals, o.Name = n) ↔
        ∃ c ∈ [claimA], ∃ rid ∈ c3ResIDs c.ID, n ∈ c3OutNames rid) ∧
      (∀ o ∈ outs.vals, ∀ c ∈ [claimA], ∀ rid ∈ c3ResIDs c.ID,
        o.Name ∈ c3OutNames rid →
        (∀ c2 ∈ [claimA], ∀ rid2 ∈ c3ResIDs c2.ID, o.Name ∈ c3OutNames rid2 →
          strLe rid2 rid = true) →
        o.Value = c3Wv rid o.Name ∧ o.result.ID = rid) ∧
      (∀ o ∈ outs.vals, outs.GetByName o.Name = some o) ∧
      (∀ j, outs.GetByIndex j = outs.vals.get? j) :=
  C3_read_last_outputs sampleStore c3State "foo" [claimA] c3ResIDs c3Rv
    c3OutNames c3Co c3Wv (fun _ => rfl) (by decide) (List.cons_ne_nil _ _)
    rfl
    (by
      intro c hc
      obtain rfl := List.mem_singleton.mp hc
      rfl)
    (by
      intro c hc rid hrid
      obtain rfl := List.mem_singleton.mp hc
      rfl)
    (by
      intro c hc rid hrid
      obtain rfl := List.mem_singleton.mp hc
      have hrid2 : rid ∈ ["01R1", "01R2"] := hrid
      cases hrid2 with
      | head => rfl
      | tail _ h2 =>
        cases h2 with
        | head => rfl
        | tail _ h3 => cases h3)

end Cnab
